import Mathlib

/-!
The ribs group store (`impl/group.go`)

A shallow embedding of `Group` from `impl/group.go`: the size-bounded `Put`, `sync`,
`View`, the `Finalize` phase, the `GenTopCar` phase and `MakeMoreDeals`, over a model of
the collaborators the group calls (the jbob block store, the registry, the top-level
index and the group directory).

Conventions.
* The `int64` counters are modelled on `Int`.  Sizes stay within `maxGroupSize`
  (about `2^33`) and payload lengths are lengths of in-memory slices, so no `int64`
  operation of the modelled code wraps.
* A call to a collaborator can fail.  Every operation takes an `Env` that fixes, for the
  duration of that one call, which collaborator calls succeed.
* `Group.effects` is the journal of the collaborator calls that completed, in order.  The
  registry is read off it (`setGroupHead`, `setGroupState`).
-/

namespace Ribs

/-! ## Blocks and states -/

/-- A multihash, as raw bytes (`mh.Multihash`). -/
abbrev Multihash := List UInt8

/-- The two observations the group makes of a `blocks.Block`: `Cid().Hash()` and
`RawData()`. -/
structure Block where
  hash : Multihash
  data : List UInt8
deriving DecidableEq, Repr

/-- Modelled from the spec: the `iface.GroupState` enum, whose declaration is not among the
sources; the constructors are the states of the spec's data model, in its order, with the
two terminal states last. -/
inductive GroupState
  | Writable
  | Full
  | BSSTExists
  | LevelIndexDropped
  | VRCARDone
  | HasCommp
  | DealsInProgress
  | Offloaded
  | Failed
deriving DecidableEq, Repr

/-- Position of a state in the lifecycle order
`Writable < Full < BSSTExists < LevelIndexDropped < VRCARDone < HasCommP < DealsInProgress
< (Offloaded | Failed)`. -/
def GroupState.rank : GroupState → Nat
  | .Writable => 0
  | .Full => 1
  | .BSSTExists => 2
  | .LevelIndexDropped => 3
  | .VRCARDone => 4
  | .HasCommp => 5
  | .DealsInProgress => 6
  | .Offloaded => 7
  | .Failed => 7

/-- The package variable `maxGroupSize int64 = 8000 << 20`. -/
def maxGroupSize : Int := 8000 * 2 ^ 20

/-- The package variable `targetReplicaCount = 5`. -/
def targetReplicaCount : Int := 5

/-! ## jbob: append log, mutable index, static hash table -/

/-- Errors of the block store. -/
inductive JErr
  | ReadOnly
  | Io
  | Corrupt
deriving DecidableEq, Repr

/-- One index record: hash ↦ (offset, length). -/
structure IdxRec where
  hash : Multihash
  offset : Nat
  length : Nat
deriving DecidableEq, Repr

/-- Modelled from the spec: the jbob store (`jbob.JBOB`), of which only the test is among
the sources.  It binds the append log (AL), the mutable index (MI) and the static hash
table (SHT) of the spec:
* `log` is the AL, a list of entries `(multihash, payload)` in append order; an offset is
  the position of an entry in the log;
* `committedLen` is the head record's `log_committed_len`: entries at or beyond it are
  uncommitted;
* `readOnly` is the head record's `read_only` flag;
* `mi` is the MI (hash ↦ (offset, length)), `none` once dropped;
* `sht` is the SHT, `none` until built. -/
structure JBOB where
  log : List Block
  committedLen : Nat
  readOnly : Bool
  mi : Option (List IdxRec)
  sht : Option (List IdxRec)
deriving DecidableEq, Repr

/-- Modelled from the spec: `jbob.Create`, a store with empty AL and MI. -/
def JBOB.Create : JBOB :=
  { log := [], committedLen := 0, readOnly := false, mi := some [], sht := none }

/-- Modelled from the spec: MI `put_batch` of one record.  The store is keyed by hash; on
a key it already holds, the existing (offset, length) is retained, so that a duplicate
insert changes no lookup. -/
def miPut (mi : List IdxRec) (r : IdxRec) : List IdxRec :=
  if mi.any (fun x => x.hash == r.hash) then mi else r :: mi

/-- Modelled from the spec: AL `append` of a batch followed by MI `put_batch`, entry by
entry: each entry goes to the end of the log (section 4.4: the accepted entries are
appended), and its (offset, length) into the MI unless the MI already holds its hash.  An
entry put again under a known hash is thus one no index record points at. -/
def appendEntries : List Block → List IdxRec → List Block → List Block × List IdxRec
  | log, mi, [] => (log, mi)
  | log, mi, e :: es =>
    appendEntries (log ++ [e]) (miPut mi ⟨e.hash, log.length, e.data.length⟩) es

/-- The entries `jb.Put(c, b)` writes: the key of entry `i` is `c[i]`, its payload is
`b[i].RawData()`. -/
def putEntries (c : List Multihash) (b : List Block) : List Block :=
  List.zipWith (fun h blk => ({ hash := h, data := blk.data } : Block)) c b

/-- Modelled from the spec: `jbob.Put(c, b)`.  Fails with `ReadOnly` once the log is
marked read-only (or has lost its MI), with an I/O error when `io` is false (nothing is
written then); otherwise appends the entries to the AL and records them in the MI.
Nothing is durable before `Commit`. -/
def JBOB.Put (io : Bool) (jb : JBOB) (c : List Multihash) (b : List Block) :
    Except JErr JBOB :=
  if jb.readOnly then .error .ReadOnly
  else match jb.mi with
    | none => .error .ReadOnly
    | some mi =>
      if io then
        let r := appendEntries jb.log mi (putEntries c b)
        .ok { jb with log := r.1, mi := some r.2 }
      else .error .Io

/-- Modelled from the spec: `jbob.Commit()`: fsync the log and rewrite the head with the
new `log_committed_len`, which it returns. -/
def JBOB.Commit (io : Bool) (jb : JBOB) : Except JErr (JBOB × Int) :=
  if io then .ok ({ jb with committedLen := jb.log.length }, (jb.log.length : Int))
  else .error .Io

/-- Modelled from the spec: `jbob.MarkReadOnly()`: sets the head's `read_only` flag;
`ErrReadOnly` when it is already set. -/
def JBOB.MarkReadOnly (io : Bool) (jb : JBOB) : Except JErr JBOB :=
  if jb.readOnly then .error .ReadOnly
  else if io then .ok { jb with readOnly := true }
  else .error .Io

/-- Modelled from the spec: `jbob.Finalize()`: commit the AL, then build the SHT from the
MI (one record per MI record). -/
def JBOB.Finalize (io : Bool) (jb : JBOB) : Except JErr JBOB :=
  match jb.mi with
  | none => .error .Corrupt
  | some mi =>
    if io then .ok { jb with committedLen := jb.log.length, sht := some mi }
    else .error .Io

/-- Modelled from the spec: `jbob.DropLevel()`: remove the MI. -/
def JBOB.DropLevel (io : Bool) (jb : JBOB) : Except JErr JBOB :=
  if io then .ok { jb with mi := none } else .error .Io

/-- The entries committed to the append log. -/
def JBOB.committed (jb : JBOB) : List Block :=
  jb.log.take jb.committedLen

/-- Modelled from the spec: `jbob.Close()` followed by `jbob.Open()`.  On open the log is
truncated to `log_committed_len` and every MI record with offset at or beyond it is
deleted. -/
def JBOB.reopen (jb : JBOB) : JBOB :=
  { jb with
    log := jb.log.take jb.committedLen
    committedLen := min jb.committedLen jb.log.length
    mi := jb.mi.map (fun m => m.filter (fun r => decide (r.offset < jb.committedLen))) }

/-- Modelled from the spec: point lookup, via the MI while it exists and via the SHT
otherwise. -/
def JBOB.lookup (jb : JBOB) (h : Multihash) : Option IdxRec :=
  match jb.mi with
  | some mi => mi.find? (fun r => r.hash == h)
  | none =>
    match jb.sht with
    | some sht => sht.find? (fun r => r.hash == h)
    | none => none

/-- Modelled from the spec: what a view of one hash observes: the payload of the entry at
the recorded offset, for committed entries only. -/
def JBOB.get (jb : JBOB) (h : Multihash) : Option (List UInt8) :=
  match jb.lookup h with
  | none => none
  | some r =>
    if r.offset < jb.committedLen then (jb.log.get? r.offset).map (fun e => e.data)
    else none

/-- Modelled from the spec: `jbob.View(c, cb)`: for each hash in input order, call
`cb(i, found, data)`; the first error a callback returns ends the view and is returned.
The callback threads a state `σ`. -/
def JBOB.viewFrom {σ ε : Type} (jb : JBOB) (cb : Nat → Bool → List UInt8 → σ → Option ε × σ) :
    Nat → List Multihash → σ → Option ε × σ
  | _, [], s => (none, s)
  | i, h :: hs, s =>
    let r := match jb.get h with
      | some d => cb i true d s
      | none => cb i false [] s
    match r.1 with
    | some e => (some e, r.2)
    | none => JBOB.viewFrom jb cb (i + 1) hs r.2

/-- See `JBOB.viewFrom`, from index 0. -/
def JBOB.View {σ ε : Type} (jb : JBOB) (c : List Multihash)
    (cb : Nat → Bool → List UInt8 → σ → Option ε × σ) (s : σ) : Option ε × σ :=
  JBOB.viewFrom jb cb 0 c s

/-- Modelled from the spec: `jbob.Iterate`: all committed entries the active index knows,
as (hash, payload), in index order. -/
def JBOB.entries (jb : JBOB) : List (Multihash × List UInt8) :=
  let idx := match jb.mi with
    | some mi => mi
    | none => jb.sht.getD []
  idx.filterMap (fun r => (jb.get r.hash).map (fun d => (r.hash, d)))

deriving instance DecidableEq for Except

/-! ## The group -/

/-- A collaborator call that completed, as recorded in `Group.effects`.  A call that
returned an error the caller does not tolerate leaves no record.
* `alAppend n`: `jb.Put` wrote `n` entries;
* `indexAddGroup hs id`: `index.AddGroup`;
* `alCommit off`: the log was committed up to `off` (`jb.Commit`, and the first step of
  `jb.Finalize`);
* `setGroupHead id st blocks size off`: `db.SetGroupHead`;
* `alMarkReadOnly`: `jb.MarkReadOnly` returned `nil`, or `ErrReadOnly` where the caller
  accepts it (`Finalize`);
* `shtBuild`: the static hash table was built (second step of `jb.Finalize`);
* `setGroupState id st`: `db.SetGroupState`;
* `miDrop`: `jb.DropLevel`;
* `makeDealWith prov ok`: `MakeMoreDeals` called `makeDealWith` for provider `prov`, which
  returned `nil` (`ok`) or an error. -/
inductive Effect
  | alAppend (n : Nat)
  | indexAddGroup (hs : List Multihash) (id : Int)
  | alCommit (off : Int)
  | setGroupHead (id : Int) (st : GroupState) (blocks size off : Int)
  | alMarkReadOnly
  | shtBuild
  | setGroupState (id : Int) (st : GroupState)
  | miDrop
  | makeDealWith (prov : Int) (ok : Bool)
deriving DecidableEq, Repr

/-- Errors returned by the group, one constructor per `xerrors.Errorf` site, and
`indexOutOfRange` for the Go runtime panic of an index outside a slice. -/
inductive GErr
  | writingToJbob (e : JErr)
  | writingIndex
  | syncFullGroup (inner : GErr)
  | markJbobReadOnly (e : JErr)
  | committingJbob (e : JErr)
  | updateGroupHead
  | blockNotFound
  | notInStateForFinalization (st : GroupState)
  | markReadOnly (e : JErr)
  | finalizeJbob (e : JErr)
  | markBsstExists
  | removingLeveldbIndex (e : JErr)
  | markLevelIndexDropped
  | makeVcarDir
  | notInStateForTopCar (st : GroupState)
  | iterateJbob
  | makeLinkBlock
  | writingLinkBlock
  | closeLevel (level : Nat)
  | openCardataFile
  | writeLayersFile
  | writeArityFile
  | markVRCARDone
  | selectDealProviders
  | nonFailedDealCount
  | gatewayClient
  | walletAddress
  | dealParams
  | marshalRequest
  | pieceCid
  | markDealsInProgress
  | readLayersFile
  | readArityFile
  | readingRootBlock
  | writeCarHeader
  | seekLastLayer
  | readingNode (level : Nat)
  | writingNode (level : Nat)
  | writingJbobBlock
  | indexOutOfRange
deriving DecidableEq, Repr

/-- Outcome of the collaborator calls during one storage operation: `true` means the call
succeeds.  For the jbob calls the flag is the outcome of the disk I/O; the call can still
fail on its own (`ReadOnly`). -/
structure Env where
  jbPut : Bool
  indexAddGroup : Bool
  jbCommit : Bool
  dbSetGroupHead : Bool
  jbMarkReadOnly : Bool
  jbFinalize : Bool
  jbDropLevel : Bool
  dbSetGroupState : GroupState → Bool

/-- The environment in which every collaborator call succeeds. -/
def Env.allOk : Env :=
  { jbPut := true, indexAddGroup := true, jbCommit := true, dbSetGroupHead := true,
    jbMarkReadOnly := true, jbFinalize := true, jbDropLevel := true,
    dbSetGroupState := fun _ => true }

/-- A content identifier: `cid.NewCidV1(codec, mh)`. -/
structure Cid where
  codec : Nat
  hash : Multihash
deriving DecidableEq, Repr

/-- A link block of a layer file: its CID and the child CIDs its payload encodes. -/
structure LinkBlock where
  cid : Cid
  links : List Cid
deriving DecidableEq, Repr

/-- The `vcar` directory of a group: the layer files `layer<N>.cardata` by level, and the
`layers` and `arity` files. -/
structure VcarDir where
  layerFiles : List (Nat × List LinkBlock)
  layersFile : Option Nat
  arityFile : Option Nat
deriving DecidableEq, Repr

/-- The `Group` struct, with the state of the collaborators it points to: the store `jb`,
the journal `effects` of registry, index and store calls, the `vcar` directory under
`path` (`none` while it does not exist) and the number of read locks held on `jblk`. -/
structure Group where
  id : Int
  state : GroupState
  inflightBlocks : Int
  inflightSize : Int
  committedBlocks : Int
  committedSize : Int
  readBlocks : Int
  readSize : Int
  jb : JBOB
  effects : List Effect
  vcar : Option VcarDir
  rlocks : Nat
deriving DecidableEq, Repr

/-- What `OpenGroup(db, index, id, 0, 0, path, Writable, create = true)` returns on an
empty directory. -/
def Group.fresh (id : Int) : Group :=
  { id := id, state := .Writable, inflightBlocks := 0, inflightSize := 0,
    committedBlocks := 0, committedSize := 0, readBlocks := 0, readSize := 0,
    jb := JBOB.Create, effects := [], vcar := none, rlocks := 0 }

/-- The reservation loop of `Put`: walk the batch, stop at the first block whose payload
does not fit on top of `writeSize`; returns `(writeSize, writeBlocks)`. -/
def reserve (availSpace : Int) : List Block → Int → Nat → Int × Nat
  | [], writeSize, writeBlocks => (writeSize, writeBlocks)
  | blk :: rest, writeSize, writeBlocks =>
    if (blk.data.length : Int) + writeSize > availSpace then (writeSize, writeBlocks)
    else reserve availSpace rest (writeSize + (blk.data.length : Int)) (writeBlocks + 1)

/-- `Group.sync`: commit the store, fold the inflight counters into the committed ones,
write the head to the registry. -/
def Group.sync (env : Env) (m : Group) : Option GErr × Group :=
  match m.jb.Commit env.jbCommit with
  | .error e => (some (GErr.committingJbob e), m)
  | .ok (jb, off) =>
    let m := { m with jb := jb, effects := m.effects ++ [Effect.alCommit off] }
    let m := { m with
      committedBlocks := m.committedBlocks + m.inflightBlocks
      committedSize := m.committedSize + m.inflightSize
      inflightBlocks := 0
      inflightSize := 0 }
    if env.dbSetGroupHead then
      (none, { m with effects := m.effects ++
        [.setGroupHead m.id m.state m.committedBlocks m.committedSize off] })
    else (some .updateGroupHead, m)

/-- `Group.Sync`: `sync` under the write lock. -/
def Group.Sync (env : Env) (m : Group) : Option GErr × Group :=
  m.sync env

/-- The space `Put` may still fill: `maxGroupSize - committedSize - inflightSize`. -/
def Group.availSpace (m : Group) : Int :=
  maxGroupSize - m.committedSize - m.inflightSize

/-- `Group.Put`, the part under `// reserve space`: run the reservation loop, mark the
group Full when it stopped early, add what was reserved to the inflight counters.
Returns the group and `writeBlocks`. -/
def Group.reserveSpace (m : Group) (b : List Block) : Group × Nat :=
  let r := reserve m.availSpace b 0 0
  let writeSize := r.1
  let writeBlocks := r.2
  let m := if writeBlocks < b.length then { m with state := .Full } else m
  ({ m with
      inflightBlocks := m.inflightBlocks + (writeBlocks : Int)
      inflightSize := m.inflightSize + writeSize },
    writeBlocks)

/-- `Group.Put`, the part under `// backend write`: write the first `writeBlocks` blocks
to jbob, add their hashes to the top-level index, and when the group is Full sync it and
mark the log read-only. -/
def Group.backendWrite (env : Env) (m : Group) (c : List Multihash) (b : List Block)
    (writeBlocks : Nat) : Except GErr Nat × Group :=
  match m.jb.Put env.jbPut (c.take writeBlocks) (b.take writeBlocks) with
  | .error e => (.error (.writingToJbob e), m)
  | .ok jb =>
    let m := { m with jb := jb, effects := m.effects ++ [Effect.alAppend writeBlocks] }
    if env.indexAddGroup then
      let m := { m with effects := m.effects ++ [.indexAddGroup (c.take writeBlocks) m.id] }
      if m.state = .Full then
        match m.sync env with
        | (some e, m) => (.error (.syncFullGroup e), m)
        | (none, m) =>
          match m.jb.MarkReadOnly env.jbMarkReadOnly with
          | .error e => (.error (.markJbobReadOnly e), m)
          | .ok jb =>
            (.ok writeBlocks,
              { m with jb := jb, effects := m.effects ++ [Effect.alMarkReadOnly] })
      else (.ok writeBlocks, m)
    else (.error .writingIndex, m)

/-- `Group.Put`.  The Go function returns `(int, error)`; every error return carries the
count 0, so the result is `.error e` or `.ok count`. -/
def Group.Put (env : Env) (m : Group) (b : List Block) : Except GErr Nat × Group :=
  if b.length = 0 then (.ok 0, m)
  else if m.state ≠ .Writable then (.ok 0, m)
  else
    let r := m.reserveSpace b
    r.1.backendWrite env (b.map (fun blk => blk.hash)) b r.2

/-- The callback `Group.View` hands to `jb.View`: an error for a hash that is not found,
otherwise count the read and pass `(cidx, data)` to the caller's callback, whose calls are
collected in order. -/
def viewCallback (cidx : Nat) (found : Bool) (data : List UInt8)
    (s : Group × List (Nat × List UInt8)) : Option GErr × (Group × List (Nat × List UInt8)) :=
  if !found then (some .blockNotFound, s)
  else
    (none, ({ s.1 with
        readBlocks := s.1.readBlocks + 1
        readSize := s.1.readSize + (data.length : Int) },
      s.2 ++ [(cidx, data)]))

/-- `Group.View(ctx, c, cb)`: returns the error, the group (read counters updated) and the
calls made to `cb`. -/
def Group.View (m : Group) (c : List Multihash) :
    Option GErr × (Group × List (Nat × List UInt8)) :=
  m.jb.View c viewCallback (m, [])

/-- `Group.advanceState`: set the state in memory, then write it to the registry; the
state in memory is set whether or not the write succeeds. -/
def Group.advanceState (env : Env) (m : Group) (st : GroupState) : Bool × Group :=
  let m := { m with state := st }
  if env.dbSetGroupState st then
    (true, { m with effects := m.effects ++ [.setGroupState m.id st] })
  else (false, m)

/-- `Group.Finalize`. -/
def Group.Finalize (env : Env) (m : Group) : Option GErr × Group :=
  if m.state ≠ .Full then (some (.notInStateForFinalization m.state), m)
  else
    match (match m.jb.MarkReadOnly env.jbMarkReadOnly with
           | .error .ReadOnly => Except.ok m.jb
           | r => r) with
    | .error e => (some (GErr.markReadOnly e), m)
    | .ok jb =>
      let m := { m with jb := jb, effects := m.effects ++ [Effect.alMarkReadOnly] }
      match m.jb.Finalize env.jbFinalize with
      | .error e => (some (GErr.finalizeJbob e), m)
      | .ok jb =>
        let m := { m with jb := jb,
                          effects := m.effects ++ [Effect.alCommit jb.committedLen, Effect.shtBuild] }
        match m.advanceState env .BSSTExists with
        | (false, m) => (some .markBsstExists, m)
        | (true, m) =>
          match m.jb.DropLevel env.jbDropLevel with
          | .error e => (some (GErr.removingLeveldbIndex e), m)
          | .ok jb =>
            let m := { m with jb := jb, effects := m.effects ++ [Effect.miDrop] }
            match m.advanceState env .LevelIndexDropped with
            | (false, m) => (some .markLevelIndexDropped, m)
            | (true, m) => (none, m)

/-- Summed payload length of a list of blocks. -/
def payloadSum (bs : List Block) : Int :=
  (bs.map (fun blk => (blk.data.length : Int))).sum

/-! ## GenTopCar -/

/-- `mhToRawCid`: `cid.NewCidV1(cid.Raw, mh)`; `cid.Raw` is codec `0x55`. -/
def mhToRawCid (h : Multihash) : Cid :=
  { codec := 0x55, hash := h }

/-- The file system and encoder as `GenTopCar` meets them during one call: which calls
succeed, and `linkCid`, the CID `cbor.WrapObject(links, SHA2_256, -1)` gives the node
wrapping a list of links.
* `mkdir`: `os.Mkdir` of a directory that does not exist yet;
* `openFile level`: `os.OpenFile` of `layer<level>.cardata`;
* `writeBlock level i`: the write of block number `i` of that layer;
* `closeFile level`: `f.Close()`;
* `iterateFailsAt`: `some k` when `jb.Iterate` fails after handing out `k` entries;
* `wrap`: `cbor.WrapObject`;
* `writeLayers`, `writeArity`: the two `os.WriteFile` calls. -/
structure FsEnv where
  mkdir : Bool
  openFile : Nat → Bool
  writeBlock : Nat → Nat → Bool
  closeFile : Nat → Bool
  iterateFailsAt : Option Nat
  wrap : Bool
  writeLayers : Bool
  writeArity : Bool
  linkCid : List Cid → Cid

/-- The `arity` constant of `GenTopCar`. -/
def arity : Nat := 2048

/-- The variables of `GenTopCar` while one layer is written: the buffer `links`, the list
`nextLevelLinks`, and the blocks written to the layer file so far (`none` when the file
could not be opened and `f` is nil). -/
structure LayerState where
  links : List Cid
  nextLevelLinks : List Cid
  file : Option (List LinkBlock)
deriving DecidableEq, Repr

/-- The closure `makeLinkBlock` followed by `outCdata.writeBlock`: wrap the buffered links
into a node, empty the buffer, append the node's CID to `nextLevelLinks`, write the node to
the layer file. -/
def emitLinkBlock (fs : FsEnv) (level : Nat) (st : LayerState) : Option GErr × LayerState :=
  if fs.wrap then
    let nd : LinkBlock := { cid := fs.linkCid st.links, links := st.links }
    let st := { st with links := [], nextLevelLinks := st.nextLevelLinks ++ [nd.cid] }
    match st.file with
    | none => (some .writingLinkBlock, st)
    | some written =>
      if fs.writeBlock level written.length then
        (none, { st with file := some (written ++ [nd]) })
      else (some .writingLinkBlock, st)
  else (some .makeLinkBlock, st)

/-- The body shared by the `Iterate` callback and the upper-layer loop: append the link
to the buffer and emit a link block when the buffer holds `arity` links. -/
def feedLink (fs : FsEnv) (ar level : Nat) (st : LayerState) (link : Cid) :
    Option GErr × LayerState :=
  let st := { st with links := st.links ++ [link] }
  if st.links.length = ar then emitLinkBlock fs level st else (none, st)

/-- Feed the links in order, stopping at the first error. -/
def feedLinks (fs : FsEnv) (ar level : Nat) :
    List Cid → LayerState → Option GErr × LayerState
  | [], st => (none, st)
  | link :: rest, st =>
    match feedLink fs ar level st link with
    | (some e, st) => (some e, st)
    | (none, st) => feedLinks fs ar level rest st

/-- The tail of every layer: emit the links left in the buffer, if any, then close the
file. -/
def finishLayer (fs : FsEnv) (level : Nat) (st : LayerState) : Option GErr × LayerState :=
  match (if st.links.length > 0 then emitLinkBlock fs level st else (none, st)) with
  | (some e, st) => (some e, st)
  | (none, st) =>
    match st.file with
    | none => (some (.closeLevel level), st)
    | some _ => if fs.closeFile level then (none, st) else (some (.closeLevel level), st)

/-- The effect of `os.OpenFile(.., O_CREATE|O_APPEND|O_TRUNC|O_WRONLY)` followed by the
writes made through it: the layer file holds exactly the blocks written. -/
def VcarDir.setLayer (d : VcarDir) (level : Nat) (file : Option (List LinkBlock)) : VcarDir :=
  match file with
  | none => d
  | some blocks =>
    { d with layerFiles := d.layerFiles.filter (fun x => x.1 != level) ++ [(level, blocks)] }

/-- The `for` loop of `GenTopCar` over the upper layers, entered with `level` the last
layer written.  `none` when `fuel` iterations did not reach the `break`.  Returns the
error, the directory and the value of `level` at exit.  The slices are modelled as lists:
`nextLevelLinks` starts every layer empty and `prevLevelLinks` is read as it was when the
layer started. -/
def upperLayers (fs : FsEnv) (ar : Nat) :
    Nat → Nat → List Cid → VcarDir → Option (Option GErr × VcarDir × Nat)
  | 0, _, _, _ => none
  | fuel + 1, level, nextLevelLinks, dir =>
    let level := level + 1
    if fs.openFile level then
      let prevLevelLinks := nextLevelLinks
      let st : LayerState := { links := [], nextLevelLinks := [], file := some [] }
      match feedLinks fs ar level prevLevelLinks st with
      | (some e, st) => some (some e, dir.setLayer level st.file, level)
      | (none, st) =>
        match finishLayer fs level st with
        | (some e, st) => some (some e, dir.setLayer level st.file, level)
        | (none, st) =>
          let dir := dir.setLayer level st.file
          if prevLevelLinks.length = 1 then some (none, dir, level)
          else upperLayers fs ar fuel level st.nextLevelLinks dir
    else some (some .openCardataFile, dir, level)

/-- What `jb.Iterate` hands to its callback before it returns: all entries, or the first
`k` of them when it fails after `k`. -/
def iterated (fs : FsEnv) (jb : JBOB) : List (Multihash × List UInt8) :=
  match fs.iterateFailsAt with
  | none => jb.entries
  | some k => jb.entries.take k

/-- `Group.GenTopCar`.  `none` when the layer loop does not end within `fuel` iterations.
The read lock is taken on entry and, by the deferred call, taken again on return. -/
def Group.GenTopCar (env : Env) (fs : FsEnv) (fuel : Nat) (m : Group) :
    Option (Option GErr × Group) :=
  let m := { m with rlocks := m.rlocks + 1 }
  let ret := fun (r : Option GErr × Group) =>
    (some (r.1, { r.2 with rlocks := r.2.rlocks + 1 }) : Option (Option GErr × Group))
  if m.vcar.isSome || !fs.mkdir then ret (some .makeVcarDir, m)
  else
    let dir : VcarDir := { layerFiles := [], layersFile := none, arityFile := none }
    let m := { m with vcar := some dir }
    if m.state ≠ .LevelIndexDropped then ret (some (.notInStateForTopCar m.state), m)
    else
      let st : LayerState :=
        { links := [], nextLevelLinks := [],
          file := if fs.openFile 1 then some [] else none }
      match feedLinks fs arity 1 ((iterated fs m.jb).map (fun e => mhToRawCid e.1)) st with
      | (some _, st) => ret (some .iterateJbob, { m with vcar := some (dir.setLayer 1 st.file) })
      | (none, st) =>
        if fs.iterateFailsAt.isSome then
          ret (some .iterateJbob, { m with vcar := some (dir.setLayer 1 st.file) })
        else
          match finishLayer fs 1 st with
          | (some e, st) => ret (some e, { m with vcar := some (dir.setLayer 1 st.file) })
          | (none, st) =>
            match upperLayers fs arity fuel 1 st.nextLevelLinks (dir.setLayer 1 st.file) with
            | none => none
            | some (some e, dir, _) => ret (some e, { m with vcar := some dir })
            | some (none, dir, level) =>
              if fs.writeLayers then
                let dir := { dir with layersFile := some level }
                if fs.writeArity then
                  let dir := { dir with arityFile := some arity }
                  match ({ m with vcar := some dir } : Group).advanceState env .VRCARDone with
                  | (false, m) => ret (some .markVRCARDone, m)
                  | (true, m) => ret (none, m)
                else ret (some .writeArityFile, { m with vcar := some dir })
              else ret (some .writeLayersFile, { m with vcar := some dir })

/-! ## MakeMoreDeals -/

/-- A `dealProvider` row. -/
structure Provider where
  id : Int
  askPrice : Int
  askVerifPrice : Int
deriving DecidableEq, Repr

/-- The collaborators of `MakeMoreDeals` during one call: the results of the registry
queries (`none` for an error), whether the gateway client, the wallet, the deal parameters,
the JSON encoding and the piece CID conversion succeed, whether the host has an address
(`h.Addrs()[0]`), and for each provider whether `makeDealWith` returns `nil`. -/
structure DealEnv where
  selectDealProviders : Option (List Provider)
  nonFailedDealCount : Option Int
  gateway : Bool
  walletDefault : Bool
  dealParams : Bool
  hostHasAddr : Bool
  marshal : Bool
  pieceCid : Bool
  makeDealWith : Provider → Bool

/-- The loop `for _, prov := range provs` of `MakeMoreDeals`: returns `notFailed` and the
journal with one `makeDealWith` record per provider tried. -/
def dealLoop (deal : Provider → Bool) : List Provider → Int → List Effect → Int × List Effect
  | [], notFailed, journal => (notFailed, journal)
  | prov :: rest, notFailed, journal =>
    if deal prov then
      let notFailed := notFailed + 1
      if notFailed ≥ targetReplicaCount then
        (notFailed, journal ++ [Effect.makeDealWith prov.id true])
      else dealLoop deal rest notFailed (journal ++ [Effect.makeDealWith prov.id true])
    else dealLoop deal rest notFailed (journal ++ [Effect.makeDealWith prov.id false])

/-- How a call ends: it returns (an error or `nil`), or it panics. -/
inductive Outcome
  | returned (err : Option GErr)
  | panicked
deriving DecidableEq, Repr

/-- `Group.MakeMoreDeals`. -/
def Group.MakeMoreDeals (env : Env) (de : DealEnv) (m : Group) : Outcome × Group :=
  match de.selectDealProviders with
  | none => (.returned (some .selectDealProviders), m)
  | some provs =>
    match de.nonFailedDealCount with
    | none => (.returned (some .nonFailedDealCount), m)
    | some notFailed =>
      if !de.gateway then (.returned (some .gatewayClient), m)
      else if !de.walletDefault then (.returned (some .walletAddress), m)
      else if !de.dealParams then (.returned (some .dealParams), m)
      else if !de.hostHasAddr then (.panicked, m)
      else if !de.marshal then (.returned (some .marshalRequest), m)
      else if !de.pieceCid then (.returned (some .pieceCid), m)
      else
        let r := dealLoop de.makeDealWith provs notFailed m.effects
        let m := { m with effects := r.2 }
        match m.advanceState env .DealsInProgress with
        | (false, m) => (.returned (some .markDealsInProgress), m)
        | (true, m) => (.returned none, m)

/-- A file system on which every call succeeds, for a given link-block encoder. -/
def FsEnv.allOk (linkCid : List Cid → Cid) : FsEnv :=
  { mkdir := true, openFile := fun _ => true, writeBlock := fun _ _ => true,
    closeFile := fun _ => true, iterateFailsAt := none, wrap := true, writeLayers := true,
    writeArity := true, linkCid := linkCid }

/-- A stand-in encoder for concrete runs: the CID of a link block is the dag-cbor codec
`0x71` over the concatenated hashes of its links. -/
def concatCid (links : List Cid) : Cid :=
  { codec := 0x71, hash := (links.map (fun c => c.hash)).flatten }

/-- Deal collaborators that all succeed: the providers and non-failed count the registry
returns, and the outcome of `makeDealWith` per provider. -/
def DealEnv.allOk (provs : List Provider) (notFailed : Int) (deal : Provider → Bool) :
    DealEnv :=
  { selectDealProviders := some provs, nonFailedDealCount := some notFailed, gateway := true,
    walletDefault := true, dealParams := true, hostHasAddr := true, marshal := true,
    pieceCid := true, makeDealWith := deal }

/-- The order of effects the spec gives for `finalize`: mark the log read-only, commit
the log, build the static hash table, persist BSSTExists, drop the mutable index, persist
LevelIndexDropped. -/
def finalizeOrder (m : Group) : List Effect :=
  [.alMarkReadOnly, .alCommit m.jb.log.length, .shtBuild, .setGroupState m.id .BSSTExists,
   .miDrop, .setGroupState m.id .LevelIndexDropped]

/-- A sealed group for concrete runs: state LevelIndexDropped, one committed one-byte
block, log read-only, mutable index dropped, static hash table built. -/
def Group.sealedOne : Group :=
  { Group.fresh 1 with
    state := .LevelIndexDropped
    committedBlocks := 1
    committedSize := 1
    jb := { log := [{ hash := [1], data := [7] }], committedLen := 1, readOnly := true,
            mi := none, sht := some [{ hash := [1], offset := 0, length := 1 }] } }

/-! ## Store scripts (the scenario of `TestJbobBasic`) -/

/-- An operation on a writable store that succeeded: `Put` of a batch (keyed, as the group
does, by each block's own hash), `Commit`, or `Close` followed by `Open`. -/
inductive JOp
  | put (bs : List Block)
  | commit
  | reopen
deriving DecidableEq, Repr

/-- Run one store operation, with the disk I/O succeeding. -/
def JBOB.step (jb : JBOB) : JOp → Except JErr JBOB
  | .put bs => jb.Put true (bs.map (fun blk => blk.hash)) bs
  | .commit =>
    match jb.Commit true with
    | .ok r => .ok r.1
    | .error e => .error e
  | .reopen => .ok jb.reopen

/-- Run a script of store operations; the first failing operation ends the run. -/
def JBOB.run : JBOB → List JOp → Except JErr JBOB
  | jb, [] => .ok jb
  | jb, op :: ops =>
    match jb.step op with
    | .ok jb2 => JBOB.run jb2 ops
    | .error e => .error e

/-- The blocks an operation puts. -/
def JOp.blocks : JOp → List Block
  | .put bs => bs
  | .commit => []
  | .reopen => []

/-- All blocks a script puts, in order. -/
def scriptBlocks : List JOp → List Block
  | [] => []
  | op :: ops => op.blocks ++ scriptBlocks ops

/-- The finalization of `TestJbobBasic`: `MarkReadOnly`, `Finalize`, `DropLevel`, each
succeeding as far as the disk goes. -/
def JBOB.seal (jb : JBOB) : Except JErr JBOB :=
  match jb.MarkReadOnly true with
  | .error e => .error e
  | .ok jb1 =>
    match jb1.Finalize true with
    | .error e => .error e
    | .ok jb2 => jb2.DropLevel true

/-- Viewing `hash(B)` through `Group.View` returns no error, calls the callback exactly
once, with index 0 and `payload(B)`, and counts one block and its size as read. -/
def Group.readsBack (g : Group) (B : Block) : Prop :=
  g.View [B.hash]
    = (none, ({ g with
                readBlocks := g.readBlocks + 1
                readSize := g.readSize + (B.data.length : Int) },
              [(0, B.data)]))

instance (g : Group) (B : Block) : Decidable (g.readsBack B) := by
  unfold Group.readsBack
  infer_instance

/-- An index agrees with a log: every record points at an entry with its hash, every
entry of the log has a record under its hash, and no entry of a hash lies before the
offset recorded under that hash. -/
def IndexOk (idx : List IdxRec) (log : List Block) : Prop :=
  (∀ r ∈ idx, ∃ e, log.get? r.offset = some e ∧ e.hash = r.hash) ∧
  (∀ e ∈ log, ∃ r ∈ idx, r.hash = e.hash) ∧
  (∀ r ∈ idx, ∀ i e, log.get? i = some e → e.hash = r.hash → r.offset ≤ i)

/-- A store in its writable phase, with its index in agreement with its log. -/
def JBOB.WritableOk (jb : JBOB) : Prop :=
  ∃ mi, jb.mi = some mi ∧ jb.readOnly = false ∧ jb.sht = none ∧
    jb.committedLen ≤ jb.log.length ∧ IndexOk mi jb.log

/-! ## Sequences of calls -/

/-- One call on a group, with the outcome of its collaborator calls. -/
inductive GOp
  | put (env : Env) (b : List Block)
  | sync (env : Env)

/-- The group after one call (whatever the call returns). -/
def Group.apply (m : Group) : GOp → Group
  | .put env b => (m.Put env b).2
  | .sync env => (m.Sync env).2

/-- The group after a sequence of calls. -/
def Group.applyAll : Group → List GOp → Group
  | m, [] => m
  | m, op :: ops => Group.applyAll (m.apply op) ops

/-- The log write of the call, if it makes one, does not fail on I/O. -/
def GOp.logWriteOk : GOp → Prop
  | .put env _ => env.jbPut = true
  | .sync _ => True

/-- The counters agree with the log: the committed counters count the committed entries
and their payload, the inflight counters the entries appended since; and a Writable group
has a writable store. -/
def Group.Balanced (m : Group) : Prop :=
  m.committedBlocks = (m.jb.committed.length : Int) ∧
  m.committedSize = payloadSum m.jb.committed ∧
  m.inflightBlocks = ((m.jb.log.drop m.jb.committedLen).length : Int) ∧
  m.inflightSize = payloadSum (m.jb.log.drop m.jb.committedLen) ∧
  m.jb.committedLen ≤ m.jb.log.length ∧
  (m.state = .Writable → m.jb.readOnly = false ∧ m.jb.mi ≠ none)

/-- The block of `TestJbobBasic`: payload `hello world` under a sample multihash. -/
def helloWorld : Block :=
  { hash := [18, 32, 185, 77],
    data := [104, 101, 108, 108, 111, 32, 119, 111, 114, 108, 100] }

/-- A sealed group without any block: state LevelIndexDropped, empty log, empty static
hash table; what `Finalize` leaves of a group that became Full before it accepted a
block. -/
def Group.sealedEmpty : Group :=
  { Group.fresh 1 with
    state := .LevelIndexDropped
    jb := { log := [], committedLen := 0, readOnly := true, mi := none, sht := some [] } }

/-- The number of deals made according to a journal: its `makeDealWith` records with
outcome `true`. -/
def dealsMade (journal : List Effect) : Nat :=
  (journal.filter (fun e => match e with
    | .makeDealWith _ true => true
    | _ => false)).length

/-- The providers contacted according to a journal, in order. -/
def contacted (journal : List Effect) : List Int :=
  journal.filterMap (fun e => match e with
    | .makeDealWith prov _ => some prov
    | _ => none)

/-! ## The upper-layer loop on shared slices -/

/-- The variables of one pass of the upper-layer loop with the slices as Go has them.
`prevLevelLinks` and `nextLevelLinks` are two views of one backing array: `backing` holds
all its slots (the length of `backing` is the capacity), `prevLevelLinks` is its first
`len(prevLevelLinks)` slots and `nextLevelLinks` its first `nextLen` slots.  Once an
`append` outgrows the capacity Go moves `nextLevelLinks` to a new array: `moved` then holds
its contents and the backing array is written no more. -/
structure SliceState where
  backing : List Cid
  nextLen : Nat
  moved : Option (List Cid)
  links : List Cid
  file : Option (List LinkBlock)
deriving DecidableEq, Repr

/-- The contents of `nextLevelLinks`. -/
def SliceState.next (st : SliceState) : List Cid :=
  match st.moved with
  | some l => l
  | none => st.backing.take st.nextLen

/-- `nextLevelLinks = append(nextLevelLinks, c)`: within the capacity the slot after the
last is overwritten in the shared backing array, beyond it the slice moves. -/
def SliceState.appendNext (st : SliceState) (c : Cid) : SliceState :=
  match st.moved with
  | some l => { st with moved := some (l ++ [c]) }
  | none =>
    if st.nextLen < st.backing.length then
      { st with backing := st.backing.set st.nextLen c, nextLen := st.nextLen + 1 }
    else { st with moved := some (st.backing.take st.nextLen ++ [c]) }

/-- The list view of the variables. -/
def SliceState.toLayer (st : SliceState) : LayerState :=
  { links := st.links, nextLevelLinks := st.next, file := st.file }

/-- The closure `makeLinkBlock` followed by `outCdata.writeBlock`, on shared slices. -/
def emitLinkBlockInPlace (fs : FsEnv) (level : Nat) (st : SliceState) :
    Option GErr × SliceState :=
  if fs.wrap then
    let nd : LinkBlock := { cid := fs.linkCid st.links, links := st.links }
    let st := { st with links := [] }
    let st := st.appendNext nd.cid
    match st.file with
    | none => (some .writingLinkBlock, st)
    | some written =>
      if fs.writeBlock level written.length then
        (none, { st with file := some (written ++ [nd]) })
      else (some .writingLinkBlock, st)
  else (some .makeLinkBlock, st)

/-- The loop `for _, link := range prevLevelLinks` on shared slices: iteration `i` reads
slot `i` of the backing array as it is at that moment.  `remaining` counts the iterations
left.  A read outside the backing array is an index panic (it cannot happen: the slice is
never longer than its capacity). -/
def feedLinksInPlace (fs : FsEnv) (ar level : Nat) :
    Nat → Nat → SliceState → Option GErr × SliceState
  | _, 0, st => (none, st)
  | i, remaining + 1, st =>
    match st.backing.get? i with
    | none => (some .indexOutOfRange, st)
    | some link =>
      let st := { st with links := st.links ++ [link] }
      match (if st.links.length = ar then emitLinkBlockInPlace fs level st else (none, st)) with
      | (some e, st) => (some e, st)
      | (none, st) => feedLinksInPlace fs ar level (i + 1) remaining st

/-- The tail of the layer on shared slices: emit what is left in the buffer, close the
file. -/
def finishLayerInPlace (fs : FsEnv) (level : Nat) (st : SliceState) :
    Option GErr × SliceState :=
  match (if st.links.length > 0 then emitLinkBlockInPlace fs level st else (none, st)) with
  | (some e, st) => (some e, st)
  | (none, st) =>
    match st.file with
    | none => (some (.closeLevel level), st)
    | some _ => if fs.closeFile level then (none, st) else (some (.closeLevel level), st)

/-- One pass of the upper-layer loop as the source has it: `prevLevelLinks :=
nextLevelLinks; nextLevelLinks = nextLevelLinks[:0]`, the loop, the tail.  `prev` is the
contents of `prevLevelLinks` on entry and `spare` the slots of the backing array beyond
its length. -/
def layerInPlace (fs : FsEnv) (ar level : Nat) (prev spare : List Cid) :
    Option GErr × SliceState :=
  let st : SliceState :=
    { backing := prev ++ spare, nextLen := 0, moved := none, links := [], file := some [] }
  match feedLinksInPlace fs ar level 0 prev.length st with
  | (some e, st) => (some e, st)
  | (none, st) => finishLayerInPlace fs level st

/-- One pass of the upper-layer loop with `nextLevelLinks` built into a separate empty
list, as `upperLayers` runs it. -/
def layerFresh (fs : FsEnv) (ar level : Nat) (prev : List Cid) : Option GErr × LayerState :=
  let st : LayerState := { links := [], nextLevelLinks := [], file := some [] }
  match feedLinks fs ar level prev st with
  | (some e, st) => (some e, st)
  | (none, st) => finishLayer fs level st

/-- The shared-slice variables `st` agree with the list variables `ls` after `i` slots of
the original backing array `orig` have been read: same buffer, same file, same
`nextLevelLinks`; the slots from `i` on are untouched; and `nextLevelLinks` together with
the buffer is no longer than what was read. -/
def SliceRel (orig : List Cid) (i : Nat) (st : SliceState) (ls : LayerState) : Prop :=
  st.moved = none ∧ st.links = ls.links ∧ st.file = ls.file ∧
  st.backing.take st.nextLen = ls.nextLevelLinks ∧
  st.backing.drop i = orig.drop i ∧ st.backing.length = orig.length ∧
  st.nextLen + st.links.length ≤ i ∧ i ≤ orig.length

/-! ## The layers as chunks -/

/-- Cut `buf ++ xs` into runs of `ar` elements, `buf` being the run already begun; the
last run may be shorter. -/
def chunksFrom {α : Type} (ar : Nat) : List α → List α → List (List α)
  | [], buf => if buf.length > 0 then [buf] else []
  | x :: xs, buf =>
    if (buf ++ [x]).length = ar then (buf ++ [x]) :: chunksFrom ar xs []
    else chunksFrom ar xs (buf ++ [x])

/-- Cut a list into runs of `ar` elements; the last run may be shorter. -/
def chunks {α : Type} (ar : Nat) (xs : List α) : List (List α) :=
  chunksFrom ar xs []

/-- The link block wrapping a list of links. -/
def mkLinkBlock (linkCid : List Cid → Cid) (links : List Cid) : LinkBlock :=
  { cid := linkCid links, links := links }

/-- The layer over a list of CIDs: one link block per run of `ar` CIDs. -/
def layerOver (linkCid : List Cid → Cid) (ar : Nat) (cids : List Cid) : List LinkBlock :=
  (chunks ar cids).map (mkLinkBlock linkCid)

/-- The layers the upper loop writes over the CIDs of the previous layer when nothing
fails, `none` when `fuel` iterations do not reach the `break`. -/
def upperLayersOver (linkCid : List Cid → Cid) (ar : Nat) :
    Nat → List Cid → Option (List (List LinkBlock))
  | 0, _ => none
  | fuel + 1, prev =>
    let cur := layerOver linkCid ar prev
    if prev.length = 1 then some [cur]
    else (upperLayersOver linkCid ar fuel (cur.map (fun b => b.cid))).map (fun ls => cur :: ls)

/-- All layers over the leaf CIDs when nothing fails: layer 1, then the upper layers. -/
def dagLayers (linkCid : List Cid → Cid) (ar fuel : Nat) (leaves : List Cid) :
    Option (List (List LinkBlock)) :=
  (upperLayersOver linkCid ar fuel ((layerOver linkCid ar leaves).map (fun b => b.cid))).map
    (fun ls => layerOver linkCid ar leaves :: ls)

/-- The layer files of a list of layers: the first is `layer<from>.cardata`, the next
`layer<from+1>.cardata`, and so on. -/
def numbered {α : Type} : Nat → List α → List (Nat × α)
  | _, [] => []
  | k, x :: xs => (k, x) :: numbered (k + 1) xs

/-- The CIDs of the leaves in iteration order: `mhToRawCid` of every entry `jb.Iterate`
yields. -/
def Group.leafCids (m : Group) : List Cid :=
  m.jb.entries.map (fun e => mhToRawCid e.1)

/-- The CIDs that layer `i + 1` links to when the first layer is built over `prev`: `prev`
itself for `i = 0`, and otherwise the CIDs of the blocks of the layer below. -/
def levelInput (linkCid : List Cid → Cid) (ar : Nat) : Nat → List Cid → List Cid
  | 0, prev => prev
  | i + 1, prev => levelInput linkCid ar i ((layerOver linkCid ar prev).map (fun b => b.cid))

/-! ## writeCar -/

/-- One `carutil.LdWrite(w, cid, data)` of the CAR body: a link block read from a layer
file, or a block of the store under the raw-codec CID of its multihash. -/
inductive Frame
  | link (b : LinkBlock)
  | raw (c : Cid) (data : List UInt8)
deriving DecidableEq, Repr

/-- The `car.CarHeader` that `writeCar` writes. -/
structure CarHeader where
  roots : List Cid
  version : Nat
deriving DecidableEq, Repr

/-- The collaborators of `writeCar` during one call: whether `car.WriteHeader` and the
`Seek` on the last layer file succeed, whether the `k`-th `LdWrite` of the call
succeeds (counting from 0), after how many entries `jb.Iterate` fails by itself (`none`:
it does not), and the number of bytes of the header and of each frame. -/
structure CarEnv where
  writeHeader : Bool
  seek : Bool
  writeFrame : Nat → Bool
  iterateFailsAt : Option Nat
  headerSize : CarHeader → Nat
  frameSize : Frame → Nat

/-- The variables the `Iterate` callback of `writeCar` closes over: `atLayer`,
`layerWrote` (a slice of `layerCount + 1` counters), the readers `layers[i].br` as the
unread rest of layer file `i + 1`, and the frames written to `w` so far.  The slices are
functions of the index; their lengths are checked where they are indexed. -/
structure CarState where
  atLayer : Nat
  layerWrote : Nat → Nat
  readers : Nat → List LinkBlock
  out : List Frame

/-- The loop `for atLayer > 0` of the callback, run from `atLayer = a`: read the next node
of layer `atLayer`, write it, count it and go one layer down.  `layers[atLayer-1]` with
`atLayer - 1 ≥ layerCount` is the index panic. -/
def descendFrom (ce : CarEnv) (layerCount : Nat) : Nat → CarState → Option GErr × CarState
  | 0, s => (none, s)
  | a + 1, s =>
    if layerCount ≤ a then (some .indexOutOfRange, s)
    else
      match s.readers a with
      | [] => (some (.readingNode (a + 1)), s)
      | b :: rest =>
        let s := { s with readers := Function.update s.readers a rest }
        if ce.writeFrame s.out.length then
          descendFrom ce layerCount a
            { s with out := s.out ++ [.link b]
                     layerWrote :=
                       Function.update s.layerWrote (a + 1) (s.layerWrote (a + 1) + 1)
                     atLayer := a }
        else (some (.writingNode (a + 1)), s)

/-- The loop `for layerWrote[atLayer] == arity`, with `n` the number of counters from
`atLayer` to the end of the slice: none left is the index panic. -/
def propagateFrom (ar : Nat) : Nat → CarState → Option GErr × CarState
  | 0, s => (some .indexOutOfRange, s)
  | n + 1, s =>
    if s.layerWrote s.atLayer = ar then
      propagateFrom ar n
        { s with layerWrote := Function.update s.layerWrote s.atLayer 0
                 atLayer := s.atLayer + 1 }
    else (none, s)

/-- The loop `for layerWrote[atLayer] == arity` on a slice of `layerCount + 1` counters. -/
def propagate (ar layerCount : Nat) (s : CarState) : Option GErr × CarState :=
  propagateFrom ar (layerCount + 1 - s.atLayer) s

/-- The callback `writeCar` passes to `jb.Iterate`, on one entry. -/
def carCallback (ce : CarEnv) (ar layerCount : Nat) (s : CarState)
    (e : Multihash × List UInt8) : Option GErr × CarState :=
  match descendFrom ce layerCount s.atLayer s with
  | (some err, s) => (some err, s)
  | (none, s) =>
    if ce.writeFrame s.out.length then
      if layerCount + 1 ≤ s.atLayer then (some .indexOutOfRange, s)
      else
        propagate ar layerCount
          { s with out := s.out ++ [.raw (mhToRawCid e.1) e.2]
                   layerWrote :=
                     Function.update s.layerWrote s.atLayer (s.layerWrote s.atLayer + 1) }
    else (some .writingJbobBlock, s)

/-- The entries `jb.Iterate` hands to the callback, until the callback fails. -/
def carIterate (ce : CarEnv) (ar layerCount : Nat) :
    List (Multihash × List UInt8) → CarState → Option GErr × CarState
  | [], s => (none, s)
  | e :: es, s =>
    match carCallback ce ar layerCount s e with
    | (some err, s) => (some err, s)
    | (none, s) => carIterate ce ar layerCount es s

/-- The loop that opens `layer<i>.cardata` for `i = from .. from + count - 1`; `none` when
one of the files does not exist. -/
def openLayers (dir : VcarDir) : Nat → Nat → Option (List (List LinkBlock))
  | 0, _ => some []
  | count + 1, i =>
    match dir.layerFiles.lookup i with
    | none => none
    | some l => (openLayers dir count (i + 1)).map (fun ls => l :: ls)

/-- What a call of `writeCar` leaves: the error, the returned size and root CID (0 and
undefined on error), what `w` received (the header, then the frames), and the rest of
every layer file that was not read. -/
structure CarResult where
  err : Option GErr
  size : Nat
  root : Option Cid
  header : Option CarHeader
  body : List Frame
  unread : List (List LinkBlock)
deriving DecidableEq, Repr

/-- `Group.writeCar`.  The `layers` and `arity` files hold a number, so `strconv.Atoi`
does not fail; an error of the callback is reported by its cause. -/
def Group.writeCar (ce : CarEnv) (m : Group) : CarResult :=
  let fail := fun (e : GErr) (h : Option CarHeader) (body : List Frame)
      (unread : List (List LinkBlock)) =>
    ({ err := some e, size := 0, root := none, header := h, body := body,
       unread := unread } : CarResult)
  match m.vcar.bind (fun d => d.layersFile) with
  | none => fail .readLayersFile none [] []
  | some layerCount =>
    match m.vcar.bind (fun d => d.arityFile) with
    | none => fail .readArityFile none [] []
    | some ar =>
      match m.vcar.bind (fun d => openLayers d layerCount 1) with
      | none => fail .openCardataFile none [] []
      | some layers =>
        match layers.getLast? with
        | none => fail .indexOutOfRange none [] layers
        | some [] => fail .readingRootBlock none [] layers
        | some (rootBlock :: _) =>
          let rcid := rootBlock.cid
          let hdr : CarHeader := { roots := [rcid], version := 1 }
          if ce.writeHeader then
            if ce.seek then
              let s : CarState :=
                { atLayer := layerCount, layerWrote := fun _ => 0,
                  readers := fun i => layers.getD i [], out := [] }
              let entries := match ce.iterateFailsAt with
                | none => m.jb.entries
                | some k => m.jb.entries.take k
              let unread := fun (s : CarState) => (List.range layerCount).map s.readers
              match carIterate ce ar layerCount entries s with
              | (some e, s) => fail e (some hdr) s.out (unread s)
              | (none, s) =>
                if ce.iterateFailsAt.isSome then
                  fail .iterateJbob (some hdr) s.out (unread s)
                else
                  { err := none
                    size := ce.headerSize hdr + (s.out.map ce.frameSize).sum
                    root := some rcid
                    header := some hdr
                    body := s.out
                    unread := unread s }
            else fail .seekLastLayer (some hdr) [] layers
          else fail .writeCarHeader none [] layers

/-- Nothing fails; the header and every frame count as one byte. -/
def CarEnv.allOk : CarEnv :=
  { writeHeader := true, seek := true, writeFrame := fun _ => true, iterateFailsAt := none,
    headerSize := fun _ => 1, frameSize := fun _ => 1 }

/-! ## The DAG as a tree -/

/-- A subtree of the DAG rooted at level `L`: an entry of the store at level 0, above it a
link block with the subtrees of its children in link order. -/
def TreeAt : Nat → Type
  | 0 => Multihash × List UInt8
  | L + 1 => LinkBlock × List (TreeAt L)

/-- The CID of the root of a subtree. -/
def TreeAt.cid : (L : Nat) → TreeAt L → Cid
  | 0, (e : Multihash × List UInt8) => mhToRawCid e.1
  | _ + 1, (t : LinkBlock × List (TreeAt _)) => t.1.cid

/-- The pre-order traversal of a subtree: the root, then the traversals of the children's
subtrees in child order. -/
def TreeAt.pre : (L : Nat) → TreeAt L → List Frame
  | 0, (e : Multihash × List UInt8) => [.raw (mhToRawCid e.1) e.2]
  | L + 1, (t : LinkBlock × List (TreeAt L)) =>
    .link t.1 :: (t.2.map (TreeAt.pre L)).flatten

/-- The entries under a subtree, left to right. -/
def TreeAt.leaves : (L : Nat) → TreeAt L → List (Multihash × List UInt8)
  | 0, (e : Multihash × List UInt8) => [e]
  | L + 1, (t : LinkBlock × List (TreeAt L)) => (t.2.map (TreeAt.leaves L)).flatten

/-- The link blocks of level `i + 1` in a subtree, in pre-order. -/
def TreeAt.nodes : (L : Nat) → TreeAt L → Nat → List LinkBlock
  | 0, _, _ => []
  | L + 1, (t : LinkBlock × List (TreeAt L)), i =>
    (if i = L then [t.1] else []) ++ (t.2.map (fun k => TreeAt.nodes L k i)).flatten

/-- Every link block of the subtree links to the roots of its children, in order. -/
def TreeAt.linked : (L : Nat) → TreeAt L → Prop
  | 0, _ => True
  | L + 1, (t : LinkBlock × List (TreeAt L)) =>
    t.1.links = t.2.map (TreeAt.cid L) ∧ ∀ k ∈ t.2, TreeAt.linked L k

/-- Every link block of the subtree has exactly `ar` children. -/
def TreeAt.perfect (ar : Nat) : (L : Nat) → TreeAt L → Prop
  | 0, _ => True
  | L + 1, (t : LinkBlock × List (TreeAt L)) =>
    t.2.length = ar ∧ ∀ k ∈ t.2, TreeAt.perfect ar L k

/-- All subtrees of the list but the last are perfect, and in the last one the same holds
of the children of the root, which are between 1 and `ar`, and so on downwards. -/
def TreeAt.rightmost (ar : Nat) : (L : Nat) → TreeAt L → Prop
  | 0, _ => True
  | L + 1, (t : LinkBlock × List (TreeAt L)) =>
    1 ≤ t.2.length ∧ t.2.length ≤ ar ∧ (∀ k ∈ t.2.dropLast, TreeAt.perfect ar L k) ∧
      ∀ k ∈ t.2.getLast?, TreeAt.rightmost ar L k

/-- The subtrees of level `L` of the DAG over the entries: the entries themselves at level
0, and above them one link block over every run of `ar` subtrees of the level below. -/
def forestOver (linkCid : List Cid → Cid) (ar : Nat)
    (entries : List (Multihash × List UInt8)) : (L : Nat) → List (TreeAt L)
  | 0 => entries
  | L + 1 =>
    (chunks ar (forestOver linkCid ar entries L)).map
      (fun ks => ((mkLinkBlock linkCid (ks.map (TreeAt.cid L)), ks) : LinkBlock × List (TreeAt L)))

/-- The run of the callback over the entries of a perfect subtree of level `L`, started at
layer `L` with the counters below `L` at zero and the nodes of the subtree next in the
readers: it writes the subtree in pre-order, reads exactly its nodes, and ends as the
loop `for layerWrote[atLayer] == arity` does after one more node of level `L` is
counted. -/
def PerfectRun (ce : CarEnv) (ar layerCount L : Nat) : Prop :=
  ∀ (t : TreeAt L) (w : Nat → Nat) (r : Nat → List LinkBlock) (out : List Frame),
    TreeAt.perfect ar L t → (∀ i, i < L → w i = 0) →
    carIterate ce ar layerCount (TreeAt.leaves L t)
        { atLayer := L, layerWrote := w,
          readers := fun i => TreeAt.nodes L t i ++ r i, out := out }
      = propagate ar layerCount
          { atLayer := L, layerWrote := Function.update w L (w L + 1), readers := r,
            out := out ++ TreeAt.pre L t }

/-- A row of subtrees of one level of which all but the last are perfect and the last is
on the right edge. -/
def TreeAt.goodRow (ar L : Nat) : List (TreeAt L) → Prop
  | [] => True
  | [t] => TreeAt.rightmost ar L t
  | t :: t2 :: ts => TreeAt.perfect ar L t ∧ TreeAt.goodRow ar L (t2 :: ts)

/-! ## Lemmas on the reservation loop -/

theorem payloadSum_nil : payloadSum [] = 0 := rfl

theorem payloadSum_cons (blk : Block) (bs : List Block) :
    payloadSum (blk :: bs) = (blk.data.length : Int) + payloadSum bs := by
  simp [payloadSum]

theorem payloadSum_nonneg (bs : List Block) : 0 ≤ payloadSum bs := by
  induction bs with
  | nil => simp [payloadSum]
  | cons blk bs ih => rw [payloadSum_cons]; omega

theorem payloadSum_take_mono (bs : List Block) :
    ∀ i j : Nat, i ≤ j → payloadSum (bs.take i) ≤ payloadSum (bs.take j) := by
  induction bs with
  | nil => intro i j _; simp
  | cons blk bs ih =>
    intro i j hij
    cases i with
    | zero => simpa [payloadSum_nil] using payloadSum_nonneg _
    | succ i =>
      cases j with
      | zero => omega
      | succ j =>
        simp only [List.take_succ_cons, payloadSum_cons]
        have := ih i j (by omega)
        omega

/-- The reservation loop accepts some `k` blocks: it returns the running totals advanced
by the first `k` blocks, stops only at the end of the batch or at a block that does not
fit, and what it accepted fits as soon as anything was accepted or the start fitted. -/
theorem reserve_spec (avail : Int) :
    ∀ (b : List Block) (ws : Int) (wb : Nat),
      ∃ k, k ≤ b.length ∧
        reserve avail b ws wb = (ws + payloadSum (b.take k), wb + k) ∧
        (k = b.length ∨ avail < ws + payloadSum (b.take (k + 1))) ∧
        (ws ≤ avail ∨ 0 < k → ws + payloadSum (b.take k) ≤ avail) := by
  intro b
  induction b with
  | nil =>
    intro ws wb
    exact ⟨0, by simp, by simp [reserve, payloadSum_nil], Or.inl rfl, by
      intro h; rcases h with h | h
      · simpa [payloadSum_nil] using h
      · omega⟩
  | cons blk rest ih =>
    intro ws wb
    by_cases hfit : (blk.data.length : Int) + ws > avail
    · refine ⟨0, by simp, by simp [reserve, hfit, payloadSum_nil], Or.inr ?_, ?_⟩
      · simp only [Nat.zero_add, List.take_succ_cons, List.take_zero, payloadSum_cons,
          payloadSum_nil]
        omega
      · intro h; rcases h with h | h
        · simpa [payloadSum_nil] using h
        · omega
    · obtain ⟨k, hk, hres, hstop, hfits⟩ := ih (ws + (blk.data.length : Int)) (wb + 1)
      refine ⟨k + 1, by simp; omega, ?_, ?_, ?_⟩
      · simp only [reserve, hfit, if_false, hres, List.take_succ_cons, payloadSum_cons]
        congr 1 <;> omega
      · rcases hstop with h | h
        · left; simp [h]
        · right
          simp only [List.take_succ_cons, payloadSum_cons] at h ⊢
          omega
      · intro _
        have := hfits (Or.inl (by omega))
        simp only [List.take_succ_cons, payloadSum_cons]
        omega

/-! ## Lemmas on `sync` and `Put` -/

theorem sync_fields {env : Env} {m m2 : Group} {e : Option GErr} (h : m.sync env = (e, m2)) :
    m2.committedSize + m2.inflightSize = m.committedSize + m.inflightSize
    ∧ m2.state = m.state ∧ m2.id = m.id ∧ m2.vcar = m.vcar ∧ m2.rlocks = m.rlocks
    ∧ m2.jb.log = m.jb.log := by
  unfold Group.sync JBOB.Commit at h
  cases hc : env.jbCommit <;> cases hd : env.dbSetGroupHead <;> simp [hc, hd] at h <;>
    obtain ⟨_, rfl⟩ := h <;> simp

theorem appendEntries_log (es : List Block) :
    ∀ (log : List Block) (mi : List IdxRec), (appendEntries log mi es).1 = log ++ es := by
  induction es with
  | nil => intro log mi; simp [appendEntries]
  | cons e es ih => intro log mi; simp [appendEntries, ih]

theorem putEntries_take (b : List Block) (n : Nat) :
    putEntries ((b.map (fun blk => blk.hash)).take n) (b.take n) = b.take n := by
  induction b generalizing n with
  | nil => simp [putEntries]
  | cons blk rest ih =>
    cases n with
    | zero => simp [putEntries]
    | succ n =>
      have := ih n
      simp only [putEntries] at this
      simp [putEntries, this]

theorem JBOB.Put_log {io : Bool} {jb jb2 : JBOB} {c : List Multihash} {b : List Block}
    (h : jb.Put io c b = .ok jb2) : jb2.log = jb.log ++ putEntries c b := by
  unfold JBOB.Put at h
  split at h
  · simp at h
  · split at h
    · simp at h
    · split at h
      · simp only [Except.ok.injEq] at h
        subst h
        simp [appendEntries_log]
      · simp at h

/-- The backend write changes neither the state nor `committedSize + inflightSize`; when
it returns a count it is `writeBlocks` and the log grew by exactly the written entries. -/
theorem backendWrite_fields (env : Env) (m : Group) (c : List Multihash) (b : List Block)
    (n : Nat) :
    (m.backendWrite env c b n).2.committedSize + (m.backendWrite env c b n).2.inflightSize
      = m.committedSize + m.inflightSize
    ∧ (m.backendWrite env c b n).2.state = m.state
    ∧ (∀ k, (m.backendWrite env c b n).1 = .ok k →
        k = n ∧ (m.backendWrite env c b n).2.jb.log
          = m.jb.log ++ putEntries (c.take n) (b.take n)) := by
  unfold Group.backendWrite
  split
  · simp
  · next jb hput =>
    have hlog := JBOB.Put_log hput
    dsimp only
    split
    · split
      · split
        · next heq =>
          have hf := sync_fields heq
          simp at hf ⊢
          exact ⟨hf.1, hf.2.1⟩
        · next heq =>
          have hf := sync_fields heq
          simp only at hf
          split
          · simp only [reduceCtorEq, false_imp_iff, implies_true, and_true]
            exact ⟨hf.1, hf.2.1⟩
          · next jb2 hro =>
            simp only [Except.ok.injEq]
            refine ⟨hf.1, hf.2.1, ?_⟩
            intro k hk
            refine ⟨hk.symm, ?_⟩
            unfold JBOB.MarkReadOnly at hro
            split at hro
            · simp at hro
            · split at hro
              · simp only [Except.ok.injEq] at hro
                subst hro
                simp only
                rw [hf.2.2.2.2.2, hlog]
              · simp at hro
      · simp only [Except.ok.injEq, true_and]
        intro k hk
        exact ⟨hk.symm, hlog⟩
    · simp

/-- What the reservation step does to the counters and the state. -/
theorem reserveSpace_fields (m : Group) (b : List Block) :
    (m.reserveSpace b).2 = (reserve m.availSpace b 0 0).2
    ∧ (m.reserveSpace b).1.committedSize = m.committedSize
    ∧ (m.reserveSpace b).1.inflightSize = m.inflightSize + (reserve m.availSpace b 0 0).1
    ∧ (m.reserveSpace b).1.jb = m.jb
    ∧ (m.reserveSpace b).1.state
        = if (reserve m.availSpace b 0 0).2 < b.length then .Full else m.state := by
  unfold Group.reserveSpace
  dsimp only
  split <;> simp [*]

theorem Put_writable (env : Env) (m : Group) (b : List Block) (hw : m.state = .Writable)
    (hb : b ≠ []) :
    m.Put env b
      = (m.reserveSpace b).1.backendWrite env (b.map (fun blk => blk.hash)) b
          (m.reserveSpace b).2 := by
  have hlen : b.length ≠ 0 := by
    intro h; exact hb (List.length_eq_zero.mp h)
  unfold Group.Put
  simp [hlen, hw]

/-- The count a successful `Put` on a Writable group returns is the number of blocks the
reservation loop accepted, and the log grew by exactly those blocks. -/
theorem Put_ok_count {env : Env} {m : Group} {b : List Block} {n : Nat}
    (hw : m.state = .Writable) (hok : (m.Put env b).1 = .ok n) :
    n = (reserve m.availSpace b 0 0).2 ∧ (m.Put env b).2.jb.log = m.jb.log ++ b.take n := by
  by_cases hb : b = []
  · subst hb
    simp only [Group.Put, List.length_nil, if_true, Except.ok.injEq] at hok ⊢
    subst hok
    simp [reserve]
  · rw [Put_writable env m b hw hb] at hok ⊢
    obtain ⟨_, _, hk⟩ := backendWrite_fields env (m.reserveSpace b).1
      (b.map (fun blk => blk.hash)) b (m.reserveSpace b).2
    obtain ⟨hn, hlog⟩ := hk n hok
    obtain ⟨h1, _, _, h4, _⟩ := reserveSpace_fields m b
    refine ⟨by rw [hn, h1], ?_⟩
    rw [hlog, h4, ← hn, putEntries_take]

/-! ## Lemmas on the store -/

/-- A committed block is found through any index that agrees with the log, at an offset
below the committed length that holds an entry with the payload of the block, provided
every entry of the log under the hash of the block has its payload. -/
theorem lookup_committed {idx : List IdxRec} {log : List Block} {c : Nat} {B : Block}
    (hidx : IndexOk idx log) (hca : ∀ x ∈ log, x.hash = B.hash → x.data = B.data)
    (hB : B ∈ log.take c) :
    ∃ r e, idx.find? (fun r => r.hash == B.hash) = some r ∧ r.offset < c ∧
      log.get? r.offset = some e ∧ e.data = B.data := by
  obtain ⟨i, hi⟩ := List.mem_iff_getElem?.mp hB
  rw [List.getElem?_take] at hi
  split at hi
  · next hic =>
    have hBlog : B ∈ log := List.mem_of_mem_take hB
    obtain ⟨r0, hr0, hr0h⟩ := hidx.2.1 B hBlog
    cases hfind : idx.find? (fun r => r.hash == B.hash) with
    | none =>
      rw [List.find?_eq_none] at hfind
      exact absurd (by simpa using hr0h) (hfind r0 hr0)
    | some r =>
      have hrh : r.hash = B.hash := by simpa using List.find?_some hfind
      have hrm : r ∈ idx := List.mem_of_find?_eq_some hfind
      obtain ⟨e, he, heh⟩ := hidx.1 r hrm
      have hle : r.offset ≤ i :=
        hidx.2.2 r hrm i B (by rw [List.get?_eq_getElem?]; exact hi) hrh.symm
      have hemem : e ∈ log := by
        rw [List.get?_eq_getElem?] at he
        exact List.mem_iff_getElem?.mpr ⟨_, he⟩
      exact ⟨r, e, rfl, by omega, he, hca e hemem (by rw [heh, hrh])⟩
  · simp at hi

/-- A committed block is viewable: found, with its own payload. -/
theorem get_committed {jb : JBOB} (idx : List IdxRec) {B : Block}
    (hactive : jb.lookup B.hash = idx.find? (fun r => r.hash == B.hash))
    (hidx : IndexOk idx jb.log) (hca : ∀ x ∈ jb.log, x.hash = B.hash → x.data = B.data)
    (hB : B ∈ jb.committed) : jb.get B.hash = some B.data := by
  obtain ⟨r, e, hfind, hoff, hget, hdata⟩ := lookup_committed hidx hca hB
  unfold JBOB.get
  rw [hactive, hfind]
  simp only [hoff, if_true, hget, Option.map_some', hdata]

/-- `Group.View` of one hash whose payload the store yields. -/
theorem readsBack_of_get {g : Group} {B : Block} (h : g.jb.get B.hash = some B.data) :
    g.readsBack B := by
  unfold Group.readsBack Group.View JBOB.View
  simp [JBOB.viewFrom, h, viewCallback]

theorem indexOk_append_one {idx : List IdxRec} {log : List Block} (e : Block)
    (h : IndexOk idx log) :
    IndexOk (miPut idx ⟨e.hash, log.length, e.data.length⟩) (log ++ [e]) := by
  have hold : ∀ r ∈ idx, ∃ e2, (log ++ [e]).get? r.offset = some e2 ∧ e2.hash = r.hash := by
    intro r hr
    obtain ⟨e2, he2, hh⟩ := h.1 r hr
    refine ⟨e2, ?_, hh⟩
    rw [List.get?_eq_getElem?] at he2 ⊢
    have hlt : r.offset < log.length := (List.getElem?_eq_some_iff.mp he2).1
    rw [List.getElem?_append_left hlt]
    exact he2
  have hlt : ∀ r ∈ idx, r.offset < log.length := by
    intro r hr
    obtain ⟨e2, he2, _⟩ := h.1 r hr
    rw [List.get?_eq_getElem?] at he2
    exact (List.getElem?_eq_some_iff.mp he2).1
  have hpos : ∀ i e2, (log ++ [e]).get? i = some e2 →
      (i < log.length ∧ log.get? i = some e2) ∨ (i = log.length ∧ e2 = e) := by
    intro i e2 hi
    rw [List.get?_eq_getElem?] at hi
    by_cases hil : i < log.length
    · rw [List.getElem?_append_left hil] at hi
      exact Or.inl ⟨hil, by rw [List.get?_eq_getElem?]; exact hi⟩
    · have hlen : i < (log ++ [e]).length := (List.getElem?_eq_some_iff.mp hi).1
      simp only [List.length_append, List.length_singleton] at hlen
      have hieq : i = log.length := by omega
      subst hieq
      simp at hi
      exact Or.inr ⟨rfl, hi.symm⟩
  by_cases hany : idx.any (fun x => x.hash == e.hash) = true
  · -- the hash is known: the index is left as it is
    have hmi : miPut idx ⟨e.hash, log.length, e.data.length⟩ = idx := by
      simp only [miPut, hany, if_true]
    rw [hmi]
    obtain ⟨r0, hr0, hr0h⟩ := List.any_eq_true.mp hany
    have hr0h2 : r0.hash = e.hash := by simpa using hr0h
    refine ⟨hold, ?_, ?_⟩
    · intro e2 he2
      simp only [List.mem_append, List.mem_singleton] at he2
      rcases he2 with he2 | rfl
      · exact h.2.1 e2 he2
      · exact ⟨r0, hr0, hr0h2⟩
    · intro r hr i e2 hi hh
      rcases hpos i e2 hi with ⟨_, hi2⟩ | ⟨hi2, _⟩
      · exact h.2.2 r hr i e2 hi2 hh
      · have := hlt r hr
        omega
  · -- the hash is new: a record for the new entry is added
    have hmi : miPut idx ⟨e.hash, log.length, e.data.length⟩
        = ⟨e.hash, log.length, e.data.length⟩ :: idx := by
      simp only [miPut, hany, Bool.false_eq_true, if_false]
    rw [hmi]
    have hnone : ∀ r ∈ idx, r.hash ≠ e.hash := by
      intro r hr hh
      exact hany (List.any_eq_true.mpr ⟨r, hr, by simpa using hh⟩)
    refine ⟨?_, ?_, ?_⟩
    · intro r hr
      rcases List.mem_cons.mp hr with rfl | hr
      · exact ⟨e, by simp, rfl⟩
      · exact hold r hr
    · intro e2 he2
      simp only [List.mem_append, List.mem_singleton] at he2
      rcases he2 with he2 | rfl
      · obtain ⟨r, hr, hh⟩ := h.2.1 e2 he2
        exact ⟨r, List.mem_cons_of_mem _ hr, hh⟩
      · exact ⟨⟨e2.hash, log.length, e2.data.length⟩, List.mem_cons_self _ _, rfl⟩
    · intro r hr i e2 hi hh
      rcases List.mem_cons.mp hr with rfl | hr
      · rcases hpos i e2 hi with ⟨_, hi2⟩ | ⟨hi2, _⟩
        · exfalso
          have hmem : e2 ∈ log := by
            rw [List.get?_eq_getElem?] at hi2
            exact List.mem_iff_getElem?.mpr ⟨_, hi2⟩
          obtain ⟨r2, hr2, hh2⟩ := h.2.1 e2 hmem
          exact hnone r2 hr2 (by rw [hh2, hh])
        · exact le_of_eq hi2.symm
      · rcases hpos i e2 hi with ⟨_, hi2⟩ | ⟨hi2, _⟩
        · exact h.2.2 r hr i e2 hi2 hh
        · have := hlt r hr
          omega

theorem indexOk_appendEntries (es : List Block) :
    ∀ (log : List Block) (idx : List IdxRec), IndexOk idx log →
      IndexOk (appendEntries log idx es).2 (log ++ es) := by
  induction es with
  | nil => intro log idx h; simpa [appendEntries] using h
  | cons e es ih =>
    intro log idx h
    have := ih (log ++ [e]) _ (indexOk_append_one e h)
    simpa [appendEntries] using this

theorem indexOk_reopen {idx : List IdxRec} {log : List Block} (c : Nat)
    (h : IndexOk idx log) :
    IndexOk (idx.filter (fun r => decide (r.offset < c))) (log.take c) := by
  have hpos : ∀ i e, (log.take c).get? i = some e → i < c ∧ log.get? i = some e := by
    intro i e hi
    rw [List.get?_eq_getElem?, List.getElem?_take] at hi
    split at hi
    · next hic => exact ⟨hic, by rw [List.get?_eq_getElem?]; exact hi⟩
    · simp at hi
  refine ⟨?_, ?_, ?_⟩
  · intro r hr
    simp only [List.mem_filter, decide_eq_true_eq] at hr
    obtain ⟨e, he, hh⟩ := h.1 r hr.1
    refine ⟨e, ?_, hh⟩
    rw [List.get?_eq_getElem?] at he ⊢
    rw [List.getElem?_take_of_lt hr.2]
    exact he
  · intro e he
    obtain ⟨i, hi⟩ := List.mem_iff_getElem?.mp he
    obtain ⟨hic, hi2⟩ := hpos i e (by rw [List.get?_eq_getElem?]; exact hi)
    obtain ⟨r, hr, hh⟩ := h.2.1 e (List.mem_of_mem_take he)
    have hle := h.2.2 r hr i e hi2 hh.symm
    exact ⟨r, by simp only [List.mem_filter, decide_eq_true_eq]; exact ⟨hr, by omega⟩, hh⟩
  · intro r hr i e hi hh
    simp only [List.mem_filter, decide_eq_true_eq] at hr
    exact h.2.2 r hr.1 i e (hpos i e hi).2 hh

theorem putEntries_self (b : List Block) :
    putEntries (b.map (fun blk => blk.hash)) b = b := by
  induction b with
  | nil => simp [putEntries]
  | cons blk rest ih =>
    simp only [putEntries] at ih
    simp [putEntries, ih]

/-- One successful operation on a writable store keeps it writable with index and log in
agreement and keeps committed blocks committed; every entry of the log was there before
or is put by the operation; a put appends the batch to the log, a commit commits the
whole log, and only a reopen removes entries from the log. -/
theorem step_ok {jb jb2 : JBOB} {op : JOp} (hw : jb.WritableOk)
    (hs : jb.step op = .ok jb2) :
    jb2.WritableOk ∧
    (∀ B, B ∈ jb.committed → B ∈ jb2.committed) ∧
    (∀ e, e ∈ jb2.log → e ∈ jb.log ∨ e ∈ op.blocks) ∧
    (∀ bs, op = .put bs → jb2.log = jb.log ++ bs) ∧
    (op = .commit → jb2.committed = jb.log) ∧
    (op ≠ .reopen → ∀ e, e ∈ jb.log → e ∈ jb2.log) := by
  obtain ⟨mi, hmi, hro, hsht, hc, hidx⟩ := hw
  cases op with
  | put bs =>
    simp only [JBOB.step, JBOB.Put, hro, hmi, putEntries_self, if_true, Bool.false_eq_true,
      if_false, Except.ok.injEq] at hs
    subst hs
    refine ⟨⟨_, rfl, rfl, hsht, ?_, ?_⟩, ?_, ?_, ?_, ?_, ?_⟩
    · simp only [appendEntries_log, List.length_append]; omega
    · simpa only [appendEntries_log] using indexOk_appendEntries bs jb.log mi hidx
    · intro B hB
      simp only [JBOB.committed, appendEntries_log] at hB ⊢
      rw [List.take_append_of_le_length hc]
      exact hB
    · intro e he
      simp only [appendEntries_log, List.mem_append] at he
      exact he
    · intro bs2 h2
      simp only [JOp.put.injEq] at h2
      subst h2
      simp [appendEntries_log]
    · intro h; cases h
    · intro _ e he
      simp only [appendEntries_log, List.mem_append]
      exact Or.inl he
  | commit =>
    simp only [JBOB.step, JBOB.Commit, if_true, Except.ok.injEq] at hs
    subst hs
    refine ⟨⟨mi, hmi, hro, hsht, le_refl _, hidx⟩, ?_, ?_, ?_, ?_, ?_⟩
    · intro B hB
      simp only [JBOB.committed, List.take_length] at hB ⊢
      exact List.mem_of_mem_take hB
    · intro e he; exact Or.inl he
    · intro bs h; cases h
    · intro _
      simp [JBOB.committed]
    · intro _ e he; exact he
  | reopen =>
    simp only [JBOB.step, Except.ok.injEq] at hs
    subst hs
    refine ⟨⟨mi.filter (fun r => decide (r.offset < jb.committedLen)),
      by simp [JBOB.reopen, hmi], by simp [JBOB.reopen, hro],
      by simp [JBOB.reopen, hsht], ?_, ?_⟩, ?_, ?_, ?_, ?_, ?_⟩
    · simp [JBOB.reopen]
    · simpa [JBOB.reopen] using indexOk_reopen jb.committedLen hidx
    · intro B hB
      simp only [JBOB.committed, JBOB.reopen] at hB ⊢
      simpa [List.take_take, hc] using hB
    · intro e he
      exact Or.inl (List.mem_of_mem_take (by simpa [JBOB.reopen] using he))
    · intro bs h; cases h
    · intro h; cases h
    · intro h; exact absurd rfl h

theorem run_ok : ∀ (ops : List JOp) (jb jb2 : JBOB), jb.WritableOk →
    JBOB.run jb ops = .ok jb2 →
    jb2.WritableOk ∧ (∀ B, B ∈ jb.committed → B ∈ jb2.committed) ∧
      (∀ e, e ∈ jb2.log → e ∈ jb.log ∨ e ∈ scriptBlocks ops) ∧
      (JOp.reopen ∉ ops → ∀ e, e ∈ jb.log → e ∈ jb2.log) := by
  intro ops
  induction ops with
  | nil =>
    intro jb jb2 hw hrun
    simp only [JBOB.run, Except.ok.injEq] at hrun
    subst hrun
    exact ⟨hw, fun _ h => h, fun _ h => Or.inl h, fun _ _ h => h⟩
  | cons op ops ih =>
    intro jb jb2 hw hrun
    simp only [JBOB.run] at hrun
    cases hstep : jb.step op with
    | error e => simp [hstep] at hrun
    | ok jb1 =>
      simp only [hstep] at hrun
      obtain ⟨hw1, hc1, hl1, _, _, hk1⟩ := step_ok hw hstep
      obtain ⟨hw2, hc2, hl2, hk2⟩ := ih jb1 jb2 hw1 hrun
      refine ⟨hw2, fun B hB => hc2 B (hc1 B hB), ?_, ?_⟩
      · intro e he
        simp only [scriptBlocks, List.mem_append]
        rcases hl2 e he with h | h
        · rcases hl1 e h with h | h
          · exact Or.inl h
          · exact Or.inr (Or.inl h)
        · exact Or.inr (Or.inr h)
      · intro hno e he
        have hop : op ≠ .reopen := fun h => hno (by rw [h]; exact List.mem_cons_self _ _)
        exact hk2 (fun h => hno (List.mem_cons_of_mem _ h)) e (hk1 hop e he)

theorem run_append : ∀ (a b : List JOp) (jb jb2 : JBOB),
    JBOB.run jb (a ++ b) = .ok jb2 →
    ∃ jb1, JBOB.run jb a = .ok jb1 ∧ JBOB.run jb1 b = .ok jb2 := by
  intro a
  induction a with
  | nil => intro b jb jb2 h; exact ⟨jb, rfl, by simpa using h⟩
  | cons op a ih =>
    intro b jb jb2 h
    simp only [List.cons_append, JBOB.run] at h ⊢
    cases hstep : jb.step op with
    | error e => simp [hstep] at h
    | ok jb1 =>
      simp only [hstep] at h ⊢
      exact ih b jb1 jb2 h

theorem scriptBlocks_append (a b : List JOp) :
    scriptBlocks (a ++ b) = scriptBlocks a ++ scriptBlocks b := by
  induction a with
  | nil => simp [scriptBlocks]
  | cons op a ih => simp [scriptBlocks, ih]

theorem writableOk_create : JBOB.Create.WritableOk :=
  ⟨[], rfl, rfl, rfl, le_refl _, by simp [IndexOk, JBOB.Create]⟩

/-- A store that is writable and agrees with its index yields every committed block whose
hash stands for its payload in the log: now, after a reopen, after sealing, and after
reopening the sealed store. -/
theorem committed_survives {jb : JBOB} {B : Block} (hw : jb.WritableOk)
    (hca : ∀ x ∈ jb.log, x.hash = B.hash → x.data = B.data) (hB : B ∈ jb.committed) :
    jb.get B.hash = some B.data ∧ jb.reopen.get B.hash = some B.data ∧
    ∃ jb3, jb.seal = .ok jb3 ∧ jb3.get B.hash = some B.data ∧
      jb3.reopen.get B.hash = some B.data := by
  obtain ⟨mi, hmi, hro, hsht, hc, hidx⟩ := hw
  refine ⟨?_, ?_, ?_⟩
  · exact get_committed mi (by simp [JBOB.lookup, hmi]) hidx hca hB
  · refine get_committed (mi.filter (fun r => decide (r.offset < jb.committedLen)))
      (by simp [JBOB.lookup, JBOB.reopen, hmi]) ?_ ?_ ?_
    · simpa [JBOB.reopen] using indexOk_reopen jb.committedLen hidx
    · intro x hx
      exact hca x (List.mem_of_mem_take (by simpa [JBOB.reopen] using hx))
    · simp only [JBOB.committed, JBOB.reopen] at hB ⊢
      simpa [List.take_take, hc] using hB
  · refine ⟨{ jb with readOnly := true, committedLen := jb.log.length, sht := some mi,
                      mi := none }, ?_, ?_, ?_⟩
    · simp [JBOB.seal, JBOB.MarkReadOnly, JBOB.Finalize, JBOB.DropLevel, hro, hmi]
    · refine get_committed mi (by simp [JBOB.lookup]) hidx hca ?_
      simp only [JBOB.committed, List.take_length]
      exact List.mem_of_mem_take hB
    · refine get_committed mi (by simp [JBOB.lookup, JBOB.reopen]) ?_ ?_ ?_
      · simpa [JBOB.reopen] using hidx
      · simpa [JBOB.reopen] using hca
      · simp only [JBOB.committed, JBOB.reopen, List.take_length, Nat.min_self]
        exact List.mem_of_mem_take hB

/-! ## Lemmas on the gates and on the state -/

/-- `Put` on a group that is not Writable returns 0 without error and changes nothing. -/
theorem Put_not_writable (env : Env) (m : Group) (b : List Block) (hw : m.state ≠ .Writable) :
    m.Put env b = (.ok 0, m) := by
  unfold Group.Put
  by_cases hlen : b.length = 0
  · simp [hlen]
  · simp [hlen, hw]

/-- `Finalize` on a group that is not Full returns the state error and changes nothing. -/
theorem Finalize_rejects_other_states (env : Env) (m : Group) (h : m.state ≠ .Full) :
    m.Finalize env = (some (.notInStateForFinalization m.state), m) := by
  unfold Group.Finalize
  simp [h]

/-- `GenTopCar` on a group that is not in LevelIndexDropped returns an error and leaves
state, counters, store and journal alone; the directory is left alone only when `vcar`
exists already or `os.Mkdir` fails. -/
theorem GenTopCar_rejects_other_states (env : Env) (fs : FsEnv) (fuel : Nat) (m : Group)
    (h : m.state ≠ .LevelIndexDropped) :
    ∃ e, m.GenTopCar env fs fuel
      = some (some e,
          { m with
            rlocks := m.rlocks + 2
            vcar := if m.vcar.isSome || !fs.mkdir then m.vcar
                    else some { layerFiles := [], layersFile := none, arityFile := none } }) := by
  unfold Group.GenTopCar
  by_cases hv : (m.vcar.isSome || !fs.mkdir) = true
  · exact ⟨.makeVcarDir, by simp [hv]⟩
  · exact ⟨.notInStateForTopCar m.state, by simp [hv, h]⟩

theorem advanceState_state {env : Env} {m m2 : Group} {st : GroupState} {ok : Bool}
    (h : m.advanceState env st = (ok, m2)) : m2.state = st := by
  unfold Group.advanceState at h
  split at h <;> simp only [Prod.mk.injEq] at h <;> obtain ⟨_, rfl⟩ := h <;> rfl

/-- When `GenTopCar` returns, the state is the one it started with or VRCARDone, the
latter only from LevelIndexDropped. -/
theorem GenTopCar_state (env : Env) (fs : FsEnv) (fuel : Nat) (m : Group)
    (r : Option GErr × Group) (h : m.GenTopCar env fs fuel = some r) :
    r.2.state = m.state ∨ (m.state = .LevelIndexDropped ∧ r.2.state = .VRCARDone) := by
  unfold Group.GenTopCar at h
  dsimp only at h
  split at h
  · simp only [Option.some.injEq] at h; subst h; left; rfl
  · split at h
    · simp only [Option.some.injEq] at h; subst h; left; rfl
    · next hst =>
      simp only [ne_eq, not_not] at hst
      split at h
      · simp only [Option.some.injEq] at h; subst h; left; rfl
      · split at h
        · simp only [Option.some.injEq] at h; subst h; left; rfl
        · split at h
          · simp only [Option.some.injEq] at h; subst h; left; rfl
          · split at h
            · simp at h
            · simp only [Option.some.injEq] at h; subst h; left; rfl
            · split at h
              · split at h
                · split at h
                  · next hadv =>
                    simp only [Option.some.injEq] at h; subst h
                    right
                    have hs := advanceState_state hadv
                    exact ⟨hst, hs⟩
                  · next hadv =>
                    simp only [Option.some.injEq] at h; subst h
                    right
                    have hs := advanceState_state hadv
                    exact ⟨hst, hs⟩
                · simp only [Option.some.injEq] at h; subst h; left; rfl
              · simp only [Option.some.injEq] at h; subst h; left; rfl

/-- `Put`, `Sync` and `Finalize` never lower the state in the lifecycle order. -/
theorem storage_ops_never_regress (env : Env) (m : Group) (b : List Block) :
    m.state.rank ≤ (m.Put env b).2.state.rank ∧
    m.state.rank ≤ (m.Sync env).2.state.rank ∧
    m.state.rank ≤ (m.Finalize env).2.state.rank := by
  refine ⟨?_, ?_, ?_⟩
  · by_cases hw : m.state = .Writable
    · rw [hw]; exact Nat.zero_le _
    · rw [Put_not_writable env m b hw]
  · have hf := sync_fields (show m.sync env = ((m.sync env).1, (m.sync env).2) from rfl)
    unfold Group.Sync
    rw [hf.2.1]
  · by_cases hf : m.state = .Full
    · obtain ⟨id, state, ib, is, cb, cs, rb, rs, jb, effects, vcar, rlocks⟩ := m
      obtain ⟨log, clen, ro, mi, sht⟩ := jb
      simp only at hf
      subst hf
      unfold Group.Finalize Group.advanceState JBOB.MarkReadOnly JBOB.Finalize JBOB.DropLevel
      cases ro <;> cases mi <;> cases h1 : env.jbMarkReadOnly <;> cases h2 : env.jbFinalize <;>
        cases h3 : env.jbDropLevel <;> cases h4 : env.dbSetGroupState .BSSTExists <;>
        cases h5 : env.dbSetGroupState .LevelIndexDropped <;>
        simp [h1, h2, h3, h4, h5, GroupState.rank]
    · rw [Finalize_rejects_other_states env m hf]

/-! ## Lemmas on the counters -/

theorem payloadSum_append (a b : List Block) :
    payloadSum (a ++ b) = payloadSum a + payloadSum b := by
  simp [payloadSum]

theorem payloadSum_take_add_drop (l : List Block) (n : Nat) :
    payloadSum (l.take n) + payloadSum (l.drop n) = payloadSum l := by
  rw [← payloadSum_append, List.take_append_drop]

theorem sync_balanced {env : Env} {m m2 : Group} {e : Option GErr}
    (h : m.sync env = (e, m2)) (hb : m.Balanced) : m2.Balanced := by
  obtain ⟨h1, h2, h3, h4, h5, h6⟩ := hb
  unfold Group.sync JBOB.Commit at h
  cases hc : env.jbCommit with
  | false =>
    simp only [hc, Bool.false_eq_true, if_false, Prod.mk.injEq] at h
    obtain ⟨_, rfl⟩ := h
    exact ⟨h1, h2, h3, h4, h5, h6⟩
  | true =>
    have hsum := payloadSum_take_add_drop m.jb.log m.jb.committedLen
    have hlen : (m.jb.log.take m.jb.committedLen).length
        + (m.jb.log.drop m.jb.committedLen).length = m.jb.log.length := by
      simp; omega
    simp only [JBOB.committed] at h1 h2
    cases hd : env.dbSetGroupHead <;>
      simp only [hc, hd, if_true, Bool.false_eq_true, if_false, Prod.mk.injEq] at h <;>
      obtain ⟨_, rfl⟩ := h <;>
      refine ⟨?_, ?_, ?_, ?_, ?_, ?_⟩ <;>
      simp only [JBOB.committed, List.take_length, List.drop_length, List.length_nil,
        payloadSum_nil, le_refl] <;>
      first
        | omega
        | exact h6

theorem JBOB.Put_ok {jb : JBOB} {c : List Multihash} {b : List Block}
    (hro : jb.readOnly = false) (hmi : jb.mi ≠ none) :
    ∃ jb2, jb.Put true c b = .ok jb2 ∧ jb2.log = jb.log ++ putEntries c b ∧
      jb2.committedLen = jb.committedLen ∧ jb2.readOnly = false ∧ jb2.mi ≠ none := by
  cases hm : jb.mi with
  | none => exact absurd hm hmi
  | some mi =>
    refine ⟨{ jb with log := (appendEntries jb.log mi (putEntries c b)).1,
                      mi := some (appendEntries jb.log mi (putEntries c b)).2 },
      by simp only [JBOB.Put, hro, hm, Bool.false_eq_true, if_false, if_true],
      ?_, rfl, hro, by simp⟩
    simp [appendEntries_log]

/-- The backend write of `Put` restores the balance: if the log write does not fail and
the counters already count the entries about to be written as inflight, the group is
balanced afterwards, whatever else fails. -/
theorem backendWrite_balanced (env : Env) (m : Group) (c : List Multihash) (b : List Block)
    (n : Nat) (hio : env.jbPut = true) (hro : m.jb.readOnly = false) (hmi : m.jb.mi ≠ none)
    (h1 : m.committedBlocks = (m.jb.committed.length : Int))
    (h2 : m.committedSize = payloadSum m.jb.committed)
    (h3 : m.inflightBlocks = ((m.jb.log.drop m.jb.committedLen).length : Int)
      + ((putEntries (c.take n) (b.take n)).length : Int))
    (h4 : m.inflightSize = payloadSum (m.jb.log.drop m.jb.committedLen)
      + payloadSum (putEntries (c.take n) (b.take n)))
    (h5 : m.jb.committedLen ≤ m.jb.log.length) :
    (m.backendWrite env c b n).2.Balanced := by
  obtain ⟨jb2, hput, hlog, hclen, hro2, hmi2⟩ :=
    JBOB.Put_ok (c := c.take n) (b := b.take n) hro hmi
  have hbal : ∀ fx : List Effect,
      ({ m with jb := jb2, effects := fx } : Group).Balanced := by
    intro fx
    simp only [JBOB.committed] at h1 h2
    refine ⟨?_, ?_, ?_, ?_, ?_, fun _ => ⟨hro2, hmi2⟩⟩
    · simp only [JBOB.committed, hlog, hclen, List.take_append_of_le_length h5]; exact h1
    · simp only [JBOB.committed, hlog, hclen, List.take_append_of_le_length h5]; exact h2
    · simp only [hlog, hclen, List.drop_append_of_le_length h5, List.length_append]
      rw [h3]; push_cast; rfl
    · simp only [hlog, hclen, List.drop_append_of_le_length h5, payloadSum_append]
      exact h4
    · simp only [hlog, hclen, List.length_append]; omega
  unfold Group.backendWrite
  rw [hio, hput]
  dsimp only
  split
  · split
    · next hfull =>
      split
      · next heq => exact sync_balanced heq (hbal _)
      · next m2 heq =>
        have hb2 := sync_balanced heq (hbal _)
        have hst : m2.state = .Full := by
          rw [(sync_fields heq).2.1]; exact hfull
        split
        · exact hb2
        · next jb3 hm =>
          unfold JBOB.MarkReadOnly at hm
          split at hm
          · simp at hm
          · split at hm
            · simp only [Except.ok.injEq] at hm
              subst hm
              obtain ⟨a1, a2, a3, a4, a5, _⟩ := hb2
              exact ⟨a1, a2, a3, a4, a5, fun hw => by simp [hst] at hw⟩
            · simp at hm
    · exact hbal _
  · exact hbal _

theorem reserveSpace_counters (m : Group) (b : List Block) :
    ∃ k, k ≤ b.length ∧ (m.reserveSpace b).2 = k ∧
      (m.reserveSpace b).1.jb = m.jb ∧
      (m.reserveSpace b).1.committedBlocks = m.committedBlocks ∧
      (m.reserveSpace b).1.committedSize = m.committedSize ∧
      (m.reserveSpace b).1.inflightBlocks = m.inflightBlocks + (k : Int) ∧
      (m.reserveSpace b).1.inflightSize = m.inflightSize + payloadSum (b.take k) := by
  obtain ⟨k, hk, hres, _, _⟩ := reserve_spec m.availSpace b 0 0
  refine ⟨k, hk, ?_⟩
  unfold Group.reserveSpace
  dsimp only
  rw [hres]
  split <;> simp

/-- `Put` keeps the group balanced when its log write does not fail. -/
theorem Put_balanced (env : Env) (m : Group) (b : List Block) (hio : env.jbPut = true)
    (hb : m.Balanced) : (m.Put env b).2.Balanced := by
  by_cases hw : m.state = .Writable
  · by_cases hnil : b = []
    · subst hnil
      simpa [Group.Put] using hb
    · rw [Put_writable env m b hw hnil]
      obtain ⟨k, hk, hn, hjb, hcb, hcs, hib, his⟩ := reserveSpace_counters m b
      obtain ⟨h1, h2, h3, h4, h5, h6⟩ := hb
      obtain ⟨hro, hmi⟩ := h6 hw
      rw [hn]
      have hE : putEntries ((b.map (fun blk => blk.hash)).take k) (b.take k) = b.take k :=
        putEntries_take b k
      refine backendWrite_balanced env _ _ b k hio (by rw [hjb]; exact hro)
        (by rw [hjb]; exact hmi) (by rw [hjb, hcb]; exact h1) (by rw [hjb, hcs]; exact h2)
        ?_ ?_ (by rw [hjb]; exact h5)
      · rw [hE, hjb, hib, h3, List.length_take, Nat.min_eq_left hk]
      · rw [hE, hjb, his, h4]
  · rw [Put_not_writable env m b hw]
    exact hb

theorem fresh_balanced (id : Int) : (Group.fresh id).Balanced := by
  refine ⟨rfl, rfl, rfl, rfl, le_refl _, fun _ => ⟨rfl, by simp [Group.fresh, JBOB.Create]⟩⟩

/-- As long as no log write fails, after every sequence of `Put` and `Sync` calls on a
fresh group (index and registry writes may fail) the committed counters are the number and
the summed payload of the committed log entries. -/
theorem counters_match_log_without_write_failure (id : Int) (ops : List GOp)
    (h : ∀ op ∈ ops, op.logWriteOk) :
    ((Group.fresh id).applyAll ops).committedBlocks
      = (((Group.fresh id).applyAll ops).jb.committed.length : Int) ∧
    ((Group.fresh id).applyAll ops).committedSize
      = payloadSum ((Group.fresh id).applyAll ops).jb.committed := by
  have key : ∀ (ops : List GOp) (m : Group), m.Balanced → (∀ op ∈ ops, op.logWriteOk) →
      (m.applyAll ops).Balanced := by
    intro ops
    induction ops with
    | nil => intro m hb _; exact hb
    | cons op ops ih =>
      intro m hb hok
      simp only [Group.applyAll]
      refine ih _ ?_ (fun o ho => hok o (List.mem_cons_of_mem _ ho))
      have hop := hok op (List.mem_cons_self _ _)
      cases op with
      | put env b => exact Put_balanced env m b hop hb
      | sync env =>
        exact sync_balanced (show m.sync env = ((m.sync env).1, (m.sync env).2) from rfl) hb
  have hb := key ops (Group.fresh id) (fresh_balanced id) h
  exact ⟨hb.1, hb.2.1⟩

/-! ## Lemmas on the read lock, the empty group and the deal loop -/

/-- Every return of `GenTopCar` leaves two more read locks held than before the call. -/
theorem GenTopCar_rlocks (env : Env) (fs : FsEnv) (fuel : Nat) (m : Group)
    (r : Option GErr × Group) (h : m.GenTopCar env fs fuel = some r) :
    r.2.rlocks = m.rlocks + 2 := by
  unfold Group.GenTopCar at h
  dsimp only at h
  split at h
  · simp only [Option.some.injEq] at h; subst h; rfl
  · split at h
    · simp only [Option.some.injEq] at h; subst h; rfl
    · split at h
      · simp only [Option.some.injEq] at h; subst h; rfl
      · split at h
        · simp only [Option.some.injEq] at h; subst h; rfl
        · split at h
          · simp only [Option.some.injEq] at h; subst h; rfl
          · split at h
            · simp at h
            · simp only [Option.some.injEq] at h; subst h; rfl
            · split at h
              · split at h
                · split at h
                  · next hadv =>
                    simp only [Option.some.injEq] at h; subst h
                    unfold Group.advanceState at hadv
                    split at hadv <;> simp only [Prod.mk.injEq] at hadv <;>
                      obtain ⟨_, rfl⟩ := hadv <;> rfl
                  · next hadv =>
                    simp only [Option.some.injEq] at h; subst h
                    unfold Group.advanceState at hadv
                    split at hadv <;> simp only [Prod.mk.injEq] at hadv <;>
                      obtain ⟨_, rfl⟩ := hadv <;> rfl
                · simp only [Option.some.injEq] at h; subst h; rfl
              · simp only [Option.some.injEq] at h; subst h; rfl

/-- With nothing to link and every file call succeeding, the upper-layer loop never
reaches its `break`. -/
theorem upperLayers_nil_never_ends (linkCid : List Cid → Cid) (ar : Nat) :
    ∀ (fuel level : Nat) (dir : VcarDir),
      upperLayers (FsEnv.allOk linkCid) ar fuel level [] dir = none := by
  intro fuel
  induction fuel with
  | zero => intro level dir; rfl
  | succ fuel ih =>
    intro level dir
    simp only [upperLayers, FsEnv.allOk, feedLinks, finishLayer, if_true, List.length_nil,
      gt_iff_lt, lt_self_iff_false, if_false, zero_ne_one]
    exact ih _ _

/-- The deal loop never lowers the count and raises it by at most
`max 1 (targetReplicaCount - notFailed)`. -/
theorem dealLoop_bound (deal : Provider → Bool) :
    ∀ (provs : List Provider) (c : Int) (j : List Effect),
      c ≤ (dealLoop deal provs c j).1 ∧
      (dealLoop deal provs c j).1 - c ≤ max 1 (targetReplicaCount - c) := by
  intro provs
  induction provs with
  | nil => intro c j; simp [dealLoop]
  | cons p rest ih =>
    intro c j
    simp only [dealLoop]
    split
    · split
      · simp
      · next hlt =>
        obtain ⟨h1, h2⟩ := ih (c + 1) (j ++ [Effect.makeDealWith p.id true])
        have hlt' : c + 1 < targetReplicaCount := by omega
        constructor
        · omega
        · have : max 1 (targetReplicaCount - (c + 1)) = targetReplicaCount - (c + 1) := by
            apply max_eq_right; omega
          rw [this] at h2
          have : targetReplicaCount - c ≤ max 1 (targetReplicaCount - c) := le_max_right _ _
          omega
    · exact ih c _

/-! ## Lemmas on the shared slices -/

theorem take_succ_set {α : Type} (l : List α) (k : Nat) (c : α) (h : k < l.length) :
    (l.set k c).take (k + 1) = l.take k ++ [c] := by
  rw [List.take_succ, List.getElem?_set_self h]
  congr 1
  apply List.ext_getElem?
  intro j
  rw [List.getElem?_take, List.getElem?_take]
  split
  · next hj => rw [List.getElem?_set_ne (by omega)]
  · rfl

theorem SliceRel.toLayer {orig : List Cid} {i : Nat} {st : SliceState} {ls : LayerState}
    (h : SliceRel orig i st ls) : st.toLayer = ls := by
  obtain ⟨hm, hl, hf, hn, _⟩ := h
  cases ls
  simp only [SliceState.toLayer, SliceState.next, hm] at *
  simp [hl, hf, hn]

/-- Emitting a link block from a non-empty buffer keeps the agreement: the slot that
`append` overwrites has been read already. -/
theorem emit_rel (fs : FsEnv) (level : Nat) {orig : List Cid} {i : Nat} {st : SliceState}
    {ls : LayerState} (h : SliceRel orig i st ls) (hne : 0 < st.links.length) :
    (emitLinkBlockInPlace fs level st).1 = (emitLinkBlock fs level ls).1 ∧
    SliceRel orig i (emitLinkBlockInPlace fs level st).2 (emitLinkBlock fs level ls).2 := by
  obtain ⟨hm, hl, hf, hn, hd, hlen, hle, hi⟩ := h
  have hlt : st.nextLen < st.backing.length := by omega
  have hrel : ∀ f : Option (List LinkBlock),
      SliceRel orig i
        { backing := st.backing.set st.nextLen (fs.linkCid st.links),
          nextLen := st.nextLen + 1, moved := none, links := [], file := f }
        { links := [], nextLevelLinks := ls.nextLevelLinks ++ [fs.linkCid ls.links],
          file := f } := by
    intro f
    refine ⟨rfl, rfl, rfl, ?_, ?_, ?_, ?_, hi⟩
    · simp only
      rw [take_succ_set _ _ _ hlt, hn, hl]
    · simp only
      rw [List.drop_set_of_lt _ _ (by omega), hd]
    · simp [hlen]
    · simp only [List.length_nil]; omega
  unfold emitLinkBlockInPlace emitLinkBlock
  cases hw : fs.wrap with
  | false =>
    simp only [Bool.false_eq_true, if_false]
    exact ⟨trivial, hm, hl, hf, hn, hd, hlen, hle, hi⟩
  | true =>
    simp only [if_true, SliceState.appendNext, hm, hlt, ← hf]
    cases hfile : st.file with
    | none => exact ⟨rfl, by simpa [hfile] using hrel none⟩
    | some written =>
      simp only
      cases hwb : fs.writeBlock level written.length with
      | false =>
        simp only [Bool.false_eq_true, if_false]
        exact ⟨trivial, by simpa using hrel (some written)⟩
      | true =>
        simp only [if_true]
        refine ⟨trivial, ?_⟩
        have := hrel (some (written ++ [{ cid := fs.linkCid st.links, links := st.links }]))
        simpa [hl] using this

/-- The loop on shared slices and the loop on lists run in step: same error, and the
variables still agree. -/
theorem feed_rel (fs : FsEnv) (ar level : Nat) (prev spare : List Cid) :
    ∀ (remaining i : Nat) (st : SliceState) (ls : LayerState),
      SliceRel (prev ++ spare) i st ls → i + remaining = prev.length →
      (feedLinksInPlace fs ar level i remaining st).1
        = (feedLinks fs ar level (prev.drop i) ls).1 ∧
      ∃ j, SliceRel (prev ++ spare) j (feedLinksInPlace fs ar level i remaining st).2
        (feedLinks fs ar level (prev.drop i) ls).2 := by
  intro remaining
  induction remaining with
  | zero =>
    intro i st ls h hi
    have : prev.drop i = [] := List.drop_eq_nil_of_le (by omega)
    rw [this]
    exact ⟨rfl, i, h⟩
  | succ r ih =>
    intro i st ls h hi
    have hil : i < prev.length := by omega
    obtain ⟨hm, hl, hf, hn, hd, hlen, hle, hib⟩ := h
    have hprev : prev.drop i = prev[i] :: prev.drop (i + 1) := by
      rw [List.drop_eq_getElem_cons hil]
    have hget : st.backing.get? i = some prev[i] := by
      rw [List.get?_eq_getElem?]
      have h0 := congrArg (fun l => l[0]?) hd
      simp only [List.getElem?_drop, Nat.add_zero] at h0
      rw [h0, List.getElem?_append_left hil, List.getElem?_eq_getElem hil]
    have hstep : SliceRel (prev ++ spare) (i + 1)
        { st with links := st.links ++ [prev[i]] }
        { ls with links := ls.links ++ [prev[i]] } := by
      refine ⟨hm, by simp [hl], hf, hn, ?_, hlen, ?_, ?_⟩
      · have := congrArg (List.drop 1) hd
        simpa [List.drop_drop, Nat.add_comm] using this
      · simp only [List.length_append, List.length_singleton]; omega
      · simp only [List.length_append]; omega
    rw [hprev]
    simp only [feedLinksInPlace, hget, feedLinks, feedLink]
    have hlen2 : (st.links ++ [prev[i]]).length = (ls.links ++ [prev[i]]).length := by
      rw [hl]
    by_cases har : (st.links ++ [prev[i]]).length = ar
    · have har2 : (ls.links ++ [prev[i]]).length = ar := by rw [← hlen2]; exact har
      obtain ⟨he, hr⟩ := emit_rel fs level hstep (by simp)
      simp only [har, har2, if_true]
      generalize emitLinkBlockInPlace fs level { st with links := st.links ++ [prev[i]] } = a
        at he hr
      generalize emitLinkBlock fs level { ls with links := ls.links ++ [prev[i]] } = b
        at he hr
      obtain ⟨ae, ast⟩ := a
      obtain ⟨be, bst⟩ := b
      simp only at he hr
      subst he
      cases ae with
      | some e => exact ⟨rfl, i + 1, hr⟩
      | none => exact ih (i + 1) ast bst hr (by omega)
    · have har2 : ¬ (ls.links ++ [prev[i]]).length = ar := by rw [← hlen2]; exact har
      simp only [har, har2, if_false]
      exact ih (i + 1) _ _ hstep (by omega)

/-- The tail of the layer on shared slices and on lists: same error, same variables. -/
theorem finish_rel (fs : FsEnv) (level : Nat) {orig : List Cid} {i : Nat} {st : SliceState}
    {ls : LayerState} (h : SliceRel orig i st ls) :
    (finishLayerInPlace fs level st).1 = (finishLayer fs level ls).1 ∧
    (finishLayerInPlace fs level st).2.toLayer = (finishLayer fs level ls).2 := by
  have hl : st.links.length = ls.links.length := by rw [h.2.1]
  unfold finishLayerInPlace finishLayer
  have key : ∀ (a : Option GErr × SliceState) (b : Option GErr × LayerState),
      a.1 = b.1 → SliceRel orig i a.2 b.2 →
      (match a with
        | (some e, st) => (some e, st)
        | (none, st) =>
          match st.file with
          | none => (some (GErr.closeLevel level), st)
          | some _ =>
            if fs.closeFile level then (none, st) else (some (GErr.closeLevel level), st)).1
      = (match b with
        | (some e, st) => (some e, st)
        | (none, st) =>
          match st.file with
          | none => (some (GErr.closeLevel level), st)
          | some _ =>
            if fs.closeFile level then (none, st) else (some (GErr.closeLevel level), st)).1
      ∧ (match a with
        | (some e, st) => (some e, st)
        | (none, st) =>
          match st.file with
          | none => (some (GErr.closeLevel level), st)
          | some _ =>
            if fs.closeFile level then (none, st)
            else (some (GErr.closeLevel level), st)).2.toLayer
      = (match b with
        | (some e, st) => (some e, st)
        | (none, st) =>
          match st.file with
          | none => (some (GErr.closeLevel level), st)
          | some _ =>
            if fs.closeFile level then (none, st) else (some (GErr.closeLevel level), st)).2 := by
    intro a b he hr
    obtain ⟨ae, ast⟩ := a
    obtain ⟨be, bst⟩ := b
    simp only at he hr
    subst he
    have hf : ast.file = bst.file := hr.2.2.1
    have ht := hr.toLayer
    cases ae with
    | some e => exact ⟨rfl, ht⟩
    | none =>
      simp only [← hf]
      cases ast.file with
      | none => exact ⟨rfl, ht⟩
      | some w =>
        simp only
        split
        · exact ⟨rfl, ht⟩
        · exact ⟨rfl, ht⟩
  by_cases hpos : st.links.length > 0
  · have hpos2 : ls.links.length > 0 := by omega
    simp only [hpos, hpos2, if_true]
    obtain ⟨he, hr⟩ := emit_rel fs level h hpos
    exact key _ _ he hr
  · have hpos2 : ¬ ls.links.length > 0 := by omega
    simp only [hpos, hpos2, if_false]
    exact key (none, st) (none, ls) rfl h

/-- One iteration of `upperLayers` is one pass `layerFresh`. -/
theorem upperLayers_succ (fs : FsEnv) (ar fuel level : Nat) (prev : List Cid) (dir : VcarDir) :
    upperLayers fs ar (fuel + 1) level prev dir
      = if fs.openFile (level + 1) then
          match layerFresh fs ar (level + 1) prev with
          | (some e, st) => some (some e, dir.setLayer (level + 1) st.file, level + 1)
          | (none, st) =>
            if prev.length = 1 then some (none, dir.setLayer (level + 1) st.file, level + 1)
            else upperLayers fs ar fuel (level + 1) st.nextLevelLinks
              (dir.setLayer (level + 1) st.file)
        else some (some .openCardataFile, dir, level + 1) := by
  simp only [upperLayers, layerFresh]
  split
  · generalize feedLinks fs ar (level + 1) prev
      { links := [], nextLevelLinks := [], file := some [] } = a
    obtain ⟨ae, ast⟩ := a
    cases ae with
    | some e => rfl
    | none =>
      generalize finishLayer fs (level + 1) ast = b
      obtain ⟨be, bst⟩ := b
      cases be <;> rfl
  · rfl

/-! ## Lemmas on chunks -/

theorem chunksFrom_flatten {α : Type} (ar : Nat) (xs : List α) :
    ∀ buf, (chunksFrom ar xs buf).flatten = buf ++ xs := by
  induction xs with
  | nil =>
    intro buf
    simp only [chunksFrom]
    split
    · simp
    · have : buf = [] := List.length_eq_zero.mp (by omega)
      simp [this]
  | cons x xs ih =>
    intro buf
    simp only [chunksFrom]
    split
    · simp [ih]
    · simp [ih]

/-- Every run has between 1 and `ar` elements. -/
theorem chunksFrom_length_bounds {α : Type} (ar : Nat) (xs : List α) :
    ∀ buf, buf.length < ar → ∀ c ∈ chunksFrom ar xs buf, 1 ≤ c.length ∧ c.length ≤ ar := by
  induction xs with
  | nil =>
    intro buf hb c hc
    simp only [chunksFrom] at hc
    split at hc
    · simp only [List.mem_singleton] at hc; subst hc; omega
    · simp at hc
  | cons x xs ih =>
    intro buf hb c hc
    simp only [chunksFrom] at hc
    split at hc
    · next hlen =>
      simp only [List.mem_cons] at hc
      rcases hc with rfl | hc
      · omega
      · exact ih [] (by simp; omega) c hc
    · next hlen =>
      refine ih (buf ++ [x]) ?_ c hc
      simp only [List.length_append, List.length_singleton] at hlen ⊢
      omega

/-- Every run but the last has exactly `ar` elements. -/
theorem chunksFrom_dropLast_length {α : Type} (ar : Nat) (xs : List α) :
    ∀ buf, ∀ c ∈ (chunksFrom ar xs buf).dropLast, c.length = ar := by
  induction xs with
  | nil =>
    intro buf c hc
    simp only [chunksFrom] at hc
    split at hc <;> simp at hc
  | cons x xs ih =>
    intro buf c hc
    simp only [chunksFrom] at hc
    split at hc
    · next hlen =>
      cases hrest : chunksFrom ar xs [] with
      | nil => simp [hrest] at hc
      | cons d ds =>
        rw [hrest, List.dropLast_cons_of_ne_nil (by simp)] at hc
        simp only [List.mem_cons] at hc
        rcases hc with rfl | hc
        · exact hlen
        · exact ih [] c (by rw [hrest]; exact hc)
    · exact ih _ c hc

/-- The number of runs is the ceiling of the number of elements over `ar`. -/
theorem chunksFrom_length {α : Type} (ar : Nat) (xs : List α) :
    ∀ buf, buf.length < ar →
      (chunksFrom ar xs buf).length = (buf.length + xs.length + ar - 1) / ar := by
  induction xs with
  | nil =>
    intro buf hb
    simp only [chunksFrom, List.length_nil, Nat.add_zero]
    split
    · symm
      apply Nat.div_eq_of_lt_le
      · simp; omega
      · simp; omega
    · have h0 : buf.length = 0 := by omega
      rw [h0]
      symm
      apply Nat.div_eq_of_lt
      omega
  | cons x xs ih =>
    intro buf hb
    simp only [chunksFrom]
    split
    · next hlen =>
      simp only [List.length_append, List.length_singleton] at hlen
      rw [List.length_cons, ih [] (by simp; omega)]
      simp only [List.length_nil, List.length_cons, Nat.zero_add]
      have : buf.length + (xs.length + 1) + ar - 1 = (xs.length + ar - 1) + ar := by omega
      rw [this, Nat.add_div_right _ (by omega)]
    · next hlen =>
      simp only [List.length_append, List.length_singleton] at hlen
      rw [ih (buf ++ [x]) (by simp; omega)]
      simp only [List.length_append, List.length_singleton, List.length_cons, List.length_nil]
      congr 1
      omega

/-- With runs of at least two elements there are at most half as many runs as elements,
rounded up. -/
theorem chunksFrom_length_le {α : Type} (ar : Nat) (har : 2 ≤ ar) (xs : List α) :
    ∀ buf, 2 * (chunksFrom ar xs buf).length ≤ buf.length + xs.length + 1 := by
  induction xs with
  | nil =>
    intro buf
    simp only [chunksFrom]
    split
    · simp only [List.length_cons, List.length_nil]
      omega
    · simp
  | cons x xs ih =>
    intro buf
    simp only [chunksFrom]
    split
    · next hlen =>
      simp only [List.length_append, List.length_singleton] at hlen
      have := ih []
      simp only [List.length_cons, List.length_nil] at this ⊢
      omega
    · have := ih (buf ++ [x])
      simp only [List.length_append, List.length_singleton, List.length_cons,
        List.length_nil] at this ⊢
      omega

/-! ## Lemmas on the layers `GenTopCar` writes -/

/-- With nothing failing, feeding `xs` and finishing the layer writes one link block per
run of `buf ++ xs` and appends their CIDs to `nextLevelLinks`. -/
theorem feed_finish_ok (linkCid : List Cid → Cid) (ar level : Nat) (xs : List Cid) :
    ∀ (buf nx : List Cid) (w : List LinkBlock),
      ∃ st, feedLinks (FsEnv.allOk linkCid) ar level xs
              { links := buf, nextLevelLinks := nx, file := some w } = (none, st) ∧
        finishLayer (FsEnv.allOk linkCid) level st
          = (none, { links := [],
                     nextLevelLinks :=
                       nx ++ ((chunksFrom ar xs buf).map (mkLinkBlock linkCid)).map
                         (fun b => b.cid),
                     file := some (w ++ (chunksFrom ar xs buf).map (mkLinkBlock linkCid)) }) := by
  induction xs with
  | nil =>
    intro buf nx w
    refine ⟨_, rfl, ?_⟩
    simp only [finishLayer, chunksFrom, emitLinkBlock, FsEnv.allOk, if_true]
    by_cases hb : buf.length > 0
    · simp [hb, mkLinkBlock]
    · have : buf = [] := List.length_eq_zero.mp (by omega)
      subst this
      simp
  | cons x xs ih =>
    intro buf nx w
    by_cases hlen : (buf ++ [x]).length = ar
    · simp only [feedLinks, feedLink, chunksFrom, if_pos hlen]
      obtain ⟨st, h1, h2⟩ := ih [] (nx ++ [linkCid (buf ++ [x])])
        (w ++ [mkLinkBlock linkCid (buf ++ [x])])
      refine ⟨st, ?_, ?_⟩
      · simp only [emitLinkBlock, FsEnv.allOk, if_true]
        exact h1
      · rw [h2]
        simp [mkLinkBlock]
    · simp only [feedLinks, feedLink, chunksFrom, if_neg hlen]
      exact ih (buf ++ [x]) nx w

theorem numbered_append {α : Type} (xs ys : List α) :
    ∀ k, numbered k (xs ++ ys) = numbered k xs ++ numbered (k + xs.length) ys := by
  induction xs with
  | nil => intro k; simp [numbered]
  | cons x xs ih =>
    intro k
    have h : k + 1 + xs.length = k + (xs.length + 1) := by omega
    show (k, x) :: numbered (k + 1) (xs ++ ys)
      = (k, x) :: numbered (k + 1) xs ++ numbered (k + (xs.length + 1)) ys
    rw [ih, h, List.cons_append]

theorem numbered_fst_lt {α : Type} (xs : List α) :
    ∀ k, ∀ p ∈ numbered k xs, k ≤ p.1 ∧ p.1 < k + xs.length := by
  induction xs with
  | nil => intro k p hp; simp [numbered] at hp
  | cons x xs ih =>
    intro k p hp
    simp only [numbered, List.mem_cons] at hp
    rcases hp with rfl | hp
    · refine ⟨le_refl _, ?_⟩
      show k < k + (xs.length + 1)
      omega
    · have := ih (k + 1) p hp
      simp only [List.length_cons]
      omega

/-- Writing the next layer file to a directory that holds layers `1..k` appends it. -/
theorem setLayer_numbered (pre : List (List LinkBlock)) (blocks : List LinkBlock)
    (lf : Option Nat) (af : Option Nat) :
    VcarDir.setLayer { layerFiles := numbered 1 pre, layersFile := lf, arityFile := af }
        (pre.length + 1) (some blocks)
      = { layerFiles := numbered 1 (pre ++ [blocks]), layersFile := lf, arityFile := af } := by
  simp only [VcarDir.setLayer, numbered_append, numbered]
  congr 2
  · apply List.filter_eq_self.mpr
    intro p hp
    have := numbered_fst_lt pre 1 p hp
    simp only [bne_iff_ne, ne_eq]
    omega
  · simp [Nat.add_comm]

/-- With nothing failing the upper-layer loop writes exactly the layers `upperLayersOver`
lists, after the layers the directory holds already, and stops when and only when
`upperLayersOver` does. -/
theorem upperLayers_ok (linkCid : List Cid → Cid) (ar : Nat) :
    ∀ (fuel : Nat) (prev : List Cid) (pre : List (List LinkBlock)),
      upperLayers (FsEnv.allOk linkCid) ar fuel pre.length prev
          { layerFiles := numbered 1 pre, layersFile := none, arityFile := none }
        = (upperLayersOver linkCid ar fuel prev).map (fun ls =>
            (none, { layerFiles := numbered 1 (pre ++ ls), layersFile := none,
                     arityFile := none }, pre.length + ls.length)) := by
  intro fuel
  induction fuel with
  | zero => intro prev pre; rfl
  | succ fuel ih =>
    intro prev pre
    obtain ⟨st, h1, h2⟩ := feed_finish_ok linkCid ar (pre.length + 1) prev [] [] []
    have hopen : (FsEnv.allOk linkCid).openFile (pre.length + 1) = true := rfl
    simp only [upperLayers, upperLayersOver, hopen, if_true]
    rw [h1]
    simp only [h2, List.nil_append]
    have hset := setLayer_numbered pre (layerOver linkCid ar prev) none none
    simp only [layerOver, chunks] at hset ⊢
    rw [hset]
    by_cases hone : prev.length = 1
    · simp [hone]
    · simp only [hone, if_false]
      have := ih ((chunksFrom ar prev []).map (mkLinkBlock linkCid) |>.map (fun b => b.cid))
        (pre ++ [(chunksFrom ar prev []).map (mkLinkBlock linkCid)])
      simp only [List.length_append, List.length_singleton] at this
      rw [this]
      cases upperLayersOver linkCid ar fuel
        (((chunksFrom ar prev []).map (mkLinkBlock linkCid)).map (fun b => b.cid)) with
      | none => rfl
      | some ls =>
        simp only [Option.map_some', List.append_assoc, List.singleton_append,
          List.length_cons]
        congr 3
        omega

/-- With nothing failing in the file system, `GenTopCar` on a sealed group without a `vcar`
directory returns exactly when `dagLayers` does, and then the directory holds the layers
of `dagLayers` as files `1..K`, `K` in the `layers` file and the arity in the `arity`
file; the store is untouched and the call fails only if the state write does. -/
theorem GenTopCar_ok (env : Env) (linkCid : List Cid → Cid) (fuel : Nat) (m : Group)
    (hs : m.state = .LevelIndexDropped) (hv : m.vcar = none)
    (ls : List (List LinkBlock)) (hd : dagLayers linkCid arity fuel m.leafCids = some ls) :
    ∃ e m2, m.GenTopCar env (FsEnv.allOk linkCid) fuel = some (e, m2) ∧
      m2.vcar = some { layerFiles := numbered 1 ls, layersFile := some ls.length,
                       arityFile := some arity } ∧
      m2.jb = m.jb ∧
      (env.dbSetGroupState .VRCARDone = true → e = none ∧ m2.state = .VRCARDone) := by
  obtain ⟨st, h1, h2⟩ := feed_finish_ok linkCid arity 1 m.leafCids [] [] []
  have hup := upperLayers_ok linkCid arity fuel
    ((layerOver linkCid arity m.leafCids).map (fun b => b.cid))
    [layerOver linkCid arity m.leafCids]
  have hset := setLayer_numbered [] (layerOver linkCid arity m.leafCids) none none
  simp only [dagLayers] at hd
  cases hu : upperLayersOver linkCid arity fuel
      ((layerOver linkCid arity m.leafCids).map (fun b => b.cid)) with
  | none => rw [hu] at hd; simp at hd
  | some us =>
    rw [hu] at hd hup
    simp only [Option.map_some', Option.some.injEq] at hd hup
    subst hd
    simp only [List.length_nil, Nat.zero_add, List.nil_append] at hset
    have hn : numbered 1 ([] : List (List LinkBlock)) = [] := rfl
    rw [hn] at hset
    simp only [List.length_singleton, List.singleton_append] at hup
    have hopen : (FsEnv.allOk linkCid).openFile 1 = true := rfl
    have hmk : (FsEnv.allOk linkCid).mkdir = true := rfl
    have hit : (FsEnv.allOk linkCid).iterateFailsAt = none := rfl
    have hwl : (FsEnv.allOk linkCid).writeLayers = true := rfl
    have hwa : (FsEnv.allOk linkCid).writeArity = true := rfl
    simp only [List.nil_append, layerOver, chunks] at h1 h2 hup hset ⊢
    unfold Group.GenTopCar
    simp only [Group.leafCids] at h1 h2 hup hset
    simp only [hv, hs, hopen, hmk, hit, hwl, hwa, iterated]
    simp only [Option.isSome_none, Bool.not_true, Bool.or_self, Bool.false_eq_true, if_false,
      ne_eq, not_true_eq_false, if_true, h1, h2, hset, hup]
    cases hdb : env.dbSetGroupState .VRCARDone
    · simp only [Group.advanceState, hdb, Bool.false_eq_true, if_false, false_implies,
        and_true, Group.leafCids, Nat.add_comm 1 us.length, List.length_cons]
      exact ⟨_, _, rfl, rfl, rfl⟩
    · simp only [Group.advanceState, hdb, if_true, true_implies, Group.leafCids,
        Nat.add_comm 1 us.length, List.length_cons]
      exact ⟨_, _, rfl, rfl, rfl, rfl, rfl⟩

theorem layerOver_links (linkCid : List Cid → Cid) (ar : Nat) (cids : List Cid) :
    ((layerOver linkCid ar cids).map (fun b => b.links)).flatten = cids := by
  have h := chunksFrom_flatten ar cids []
  simp only [layerOver, chunks, List.map_map]
  have hf : ((fun b => b.links) ∘ mkLinkBlock linkCid) = id := by
    funext c; rfl
  rw [hf, List.map_id]
  simpa using h

theorem layerOver_links_length (linkCid : List Cid → Cid) (ar : Nat) (har : 0 < ar)
    (cids : List Cid) :
    ∀ b ∈ layerOver linkCid ar cids, 1 ≤ b.links.length ∧ b.links.length ≤ ar := by
  intro b hb
  simp only [layerOver, chunks, List.mem_map] at hb
  obtain ⟨c, hc, rfl⟩ := hb
  exact chunksFrom_length_bounds ar cids [] har c hc

theorem layerOver_dropLast (linkCid : List Cid → Cid) (ar : Nat) (cids : List Cid) :
    ∀ b ∈ (layerOver linkCid ar cids).dropLast, b.links.length = ar := by
  intro b hb
  simp only [layerOver, chunks, List.dropLast_eq_take, List.length_map] at hb
  rw [← List.map_take] at hb
  obtain ⟨c, hc, rfl⟩ := List.mem_map.mp hb
  rw [← List.dropLast_eq_take] at hc
  exact chunksFrom_dropLast_length ar cids [] c hc

theorem layerOver_length (linkCid : List Cid → Cid) (ar : Nat) (har : 0 < ar)
    (cids : List Cid) :
    (layerOver linkCid ar cids).length = (cids.length + ar - 1) / ar := by
  have h := chunksFrom_length ar cids [] har
  simpa [layerOver, chunks] using h

theorem layerOver_singleton (linkCid : List Cid → Cid) (ar : Nat) (c : Cid) :
    layerOver linkCid ar [c] = [mkLinkBlock linkCid [c]] := by
  simp only [layerOver, chunks, chunksFrom]
  split <;> simp

theorem levelInput_succ (linkCid : List Cid → Cid) (ar : Nat) :
    ∀ (i : Nat) (prev : List Cid),
      levelInput linkCid ar (i + 1) prev
        = (layerOver linkCid ar (levelInput linkCid ar i prev)).map (fun b => b.cid) := by
  intro i
  induction i with
  | zero => intro prev; rfl
  | succ i ih =>
    intro prev
    show levelInput linkCid ar (i + 1) ((layerOver linkCid ar prev).map (fun b => b.cid)) = _
    rw [ih]
    rfl

/-- The upper layers `upperLayersOver` lists are the chunked layers over the successive
inputs, and the last of them is the first whose input is a single CID. -/
theorem upperLayersOver_get (linkCid : List Cid → Cid) (ar : Nat) :
    ∀ (fuel : Nat) (prev : List Cid) (us : List (List LinkBlock)),
      upperLayersOver linkCid ar fuel prev = some us →
      1 ≤ us.length ∧
      ∀ i, i < us.length →
        us.getD i [] = layerOver linkCid ar (levelInput linkCid ar i prev) ∧
        ((levelInput linkCid ar i prev).length = 1 ↔ i + 1 = us.length) := by
  intro fuel
  induction fuel with
  | zero => intro prev us h; simp [upperLayersOver] at h
  | succ fuel ih =>
    intro prev us h
    simp only [upperLayersOver] at h
    by_cases hone : prev.length = 1
    · simp only [hone, if_true, Option.some.injEq] at h
      subst h
      refine ⟨by simp, ?_⟩
      intro i hi
      simp only [List.length_singleton, Nat.lt_one_iff] at hi
      subst hi
      simp [levelInput, hone]
    · simp only [hone, if_false, Option.map_eq_some'] at h
      obtain ⟨rest, hrest, rfl⟩ := h
      obtain ⟨hlen, hget⟩ := ih _ rest hrest
      refine ⟨by simp, ?_⟩
      intro i hi
      cases i with
      | zero =>
        refine ⟨rfl, ?_⟩
        simp only [levelInput, List.length_cons]
        constructor
        · intro h1; exact absurd h1 hone
        · intro h1; omega
      | succ i =>
        simp only [List.length_cons, Nat.add_lt_add_iff_right] at hi
        obtain ⟨h1, h2⟩ := hget i hi
        refine ⟨?_, ?_⟩
        · simpa [levelInput] using h1
        · simp only [levelInput, List.length_cons, Nat.add_right_cancel_iff]
          exact h2

/-- The layer loop ends within as many iterations as it is given CIDs, when there is at
least one and the arity is at least 2. -/
theorem upperLayersOver_isSome (linkCid : List Cid → Cid) (ar : Nat) (har : 2 ≤ ar) :
    ∀ (fuel : Nat) (prev : List Cid), 1 ≤ prev.length → prev.length ≤ fuel →
      ∃ us, upperLayersOver linkCid ar fuel prev = some us := by
  intro fuel
  induction fuel with
  | zero => intro prev h1 h2; omega
  | succ fuel ih =>
    intro prev h1 h2
    simp only [upperLayersOver]
    by_cases hone : prev.length = 1
    · exact ⟨[layerOver linkCid ar prev], by simp [hone]⟩
    · have hlen := layerOver_length linkCid ar (by omega) prev
      have hle := chunksFrom_length_le ar har prev []
      have hc : (layerOver linkCid ar prev).length = (chunksFrom ar prev []).length := by
        simp [layerOver, chunks]
      simp only [List.length_nil, Nat.zero_add] at hle
      have hpos : 1 ≤ (layerOver linkCid ar prev).length := by
        rw [hlen]
        exact (Nat.le_div_iff_mul_le (by omega)).mpr (by omega)
      obtain ⟨us, hus⟩ := ih ((layerOver linkCid ar prev).map (fun b => b.cid))
        (by simpa using hpos) (by simp only [List.length_map]; omega)
      exact ⟨layerOver linkCid ar prev :: us, by simp [hone, hus]⟩

theorem dagLayers_isSome (linkCid : List Cid → Cid) (ar : Nat) (har : 2 ≤ ar) (fuel : Nat)
    (leaves : List Cid) (h1 : 1 ≤ leaves.length) (h2 : leaves.length ≤ fuel) :
    ∃ ls, dagLayers linkCid ar fuel leaves = some ls := by
  have hlen := layerOver_length linkCid ar (by omega) leaves
  have hle := chunksFrom_length_le ar har leaves []
  have hc : (layerOver linkCid ar leaves).length = (chunksFrom ar leaves []).length := by
    simp [layerOver, chunks]
  simp only [List.length_nil, Nat.zero_add] at hle
  have hpos : 1 ≤ (layerOver linkCid ar leaves).length := by
    rw [hlen]
    exact (Nat.le_div_iff_mul_le (by omega)).mpr (by omega)
  obtain ⟨us, hus⟩ := upperLayersOver_isSome linkCid ar har fuel
    ((layerOver linkCid ar leaves).map (fun b => b.cid))
    (by simpa using hpos) (by simp only [List.length_map]; omega)
  exact ⟨layerOver linkCid ar leaves :: us, by simp [dagLayers, hus]⟩

/-- The layers of `dagLayers`: layer `i + 1` is the chunked layer over `levelInput i`, there
are at least two layers, and the top layer is the first above layer 1 whose input is a
single CID. -/
theorem dagLayers_get (linkCid : List Cid → Cid) (ar fuel : Nat) (leaves : List Cid)
    (ls : List (List LinkBlock)) (h : dagLayers linkCid ar fuel leaves = some ls) :
    2 ≤ ls.length ∧
    ∀ i, i < ls.length →
      ls.getD i [] = layerOver linkCid ar (levelInput linkCid ar i leaves) ∧
      (1 ≤ i → ((levelInput linkCid ar i leaves).length = 1 ↔ i + 1 = ls.length)) := by
  simp only [dagLayers, Option.map_eq_some'] at h
  obtain ⟨us, hus, rfl⟩ := h
  obtain ⟨hlen, hget⟩ := upperLayersOver_get linkCid ar fuel _ us hus
  refine ⟨by simp only [List.length_cons]; omega, ?_⟩
  intro i hi
  cases i with
  | zero => exact ⟨rfl, fun h0 => absurd h0 (by omega)⟩
  | succ i =>
    simp only [List.length_cons, Nat.add_lt_add_iff_right] at hi
    obtain ⟨h1, h2⟩ := hget i hi
    refine ⟨?_, fun _ => ?_⟩
    · simpa [levelInput] using h1
    · simp only [levelInput, List.length_cons, Nat.add_right_cancel_iff]
      exact h2

/-- The block counts of the layers of `dagLayers`, the place of the first one-block layer
and the shape of the two top layers. -/
theorem dagLayers_counts (linkCid : List Cid → Cid) (ar : Nat) (har : 0 < ar) (fuel : Nat)
    (leaves : List Cid) (ls : List (List LinkBlock))
    (h : dagLayers linkCid ar fuel leaves = some ls) :
    2 ≤ ls.length ∧
    (ls.getD 0 []).length = (leaves.length + ar - 1) / ar ∧
    (∀ L, L + 1 < ls.length →
      (ls.getD (L + 1) []).length = ((ls.getD L []).length + ar - 1) / ar) ∧
    (∀ L, L + 1 < ls.length → ((ls.getD L []).length = 1 ↔ L + 2 = ls.length)) ∧
    (∃ root child, ls.getD (ls.length - 1) [] = [root] ∧
      ls.getD (ls.length - 2) [] = [child] ∧ root.links = [child.cid]) := by
  obtain ⟨h2, hget⟩ := dagLayers_get linkCid ar fuel leaves ls h
  have hin : ∀ L, L + 1 < ls.length →
      levelInput linkCid ar (L + 1) leaves = (ls.getD L []).map (fun b => b.cid) := by
    intro L hL
    rw [(hget L (by omega)).1]
    exact levelInput_succ linkCid ar L leaves
  have hiff : ∀ L, L + 1 < ls.length → ((ls.getD L []).length = 1 ↔ L + 2 = ls.length) := by
    intro L hL
    have := (hget (L + 1) hL).2 (by omega)
    rw [hin L hL, List.length_map] at this
    exact this
  refine ⟨h2, ?_, ?_, hiff, ?_⟩
  · rw [(hget 0 (by omega)).1]
    exact layerOver_length linkCid ar har leaves
  · intro L hL
    rw [(hget (L + 1) hL).1, layerOver_length linkCid ar har, hin L hL, List.length_map]
  · have hK : ls.length - 2 + 1 < ls.length := by omega
    have hone := (hiff (ls.length - 2) hK).mpr (by omega)
    obtain ⟨child, hchild⟩ := List.length_eq_one.mp hone
    have htop := (hget (ls.length - 2 + 1) hK).1
    rw [hin _ hK, hchild] at htop
    have hidx : ls.length - 2 + 1 = ls.length - 1 := by omega
    rw [hidx] at htop
    refine ⟨mkLinkBlock linkCid [child.cid], child, ?_, hchild, rfl⟩
    rw [htop]
    exact layerOver_singleton linkCid ar child.cid

/-- The layers over 2049 leaves: three layers, holding 2048 and 1, then 2, then 1 links. -/
theorem dagLayers_2049 (linkCid : List Cid → Cid) (fuel : Nat) (leaves : List Cid)
    (ls : List (List LinkBlock)) (h : dagLayers linkCid arity fuel leaves = some ls)
    (hn : leaves.length = 2049) :
    ls.length = 3 ∧
    ls.map (fun l => l.map (fun b => b.links.length)) = [[2048, 1], [2], [1]] := by
  obtain ⟨h2, h0, hstep, hiff, root, child, hroot, hchild, hlinks⟩ :=
    dagLayers_counts linkCid arity (by decide) fuel leaves ls h
  obtain ⟨_, hget⟩ := dagLayers_get linkCid arity fuel leaves ls h
  have ha : (ls.getD 0 []).length = 2 := by rw [h0, hn]; rfl
  have h3 : ls.length = 3 := by
    by_cases hK : ls.length = 2
    · have := (hiff 0 (by omega)).mpr (by omega)
      omega
    · have hb : (ls.getD 1 []).length = 1 := by
        rw [hstep 0 (by omega), ha]; rfl
      have := (hiff 1 (by omega)).mp hb
      omega
  refine ⟨h3, ?_⟩
  match ls, h3 with
  | [a, b, c], _ =>
    simp only [List.getD_cons_zero, List.getD_cons_succ, List.length_cons, List.length_nil,
      Nat.zero_add, Nat.reduceAdd, Nat.reduceSub] at ha hroot hchild hget
    have hga := (hget 0 (by omega)).1
    have hgb := (hget 1 (by omega)).1
    simp only [List.getD_cons_zero, List.getD_cons_succ] at hga hgb
    have hfa : (a.map (fun b => b.links)).flatten = leaves := by
      rw [hga]; exact layerOver_links linkCid arity _
    have hda : ∀ x ∈ a.dropLast, x.links.length = arity := by
      rw [hga]; exact layerOver_dropLast linkCid arity _
    have hfb : (b.map (fun b => b.links)).flatten = a.map (fun b => b.cid) := by
      rw [hgb, layerOver_links, levelInput_succ, ← hga]
    obtain ⟨x, y, rfl⟩ := List.length_eq_two.mp ha
    · have hx : x.links.length = 2048 := hda x (by simp)
      have hxy : x.links.length + y.links.length = 2049 := by
        rw [← hn, ← hfa]; simp
      subst hchild hroot
      have hz : child.links.length = 2 := by
        have := congrArg List.length hfb
        simpa using this
      simp only [List.map_cons, List.map_nil, hx, hz, hlinks, List.length_singleton]
      have hy : y.links.length = 1 := by omega
      rw [hy]

/-! ## Lemmas on the callback of writeCar -/

theorem propagate_stop (ar layerCount : Nat) (s : CarState) (h : s.atLayer ≤ layerCount)
    (hne : s.layerWrote s.atLayer ≠ ar) : propagate ar layerCount s = (none, s) := by
  unfold propagate
  have hf : layerCount + 1 - s.atLayer = (layerCount - s.atLayer) + 1 := by omega
  rw [hf]
  simp only [propagateFrom, hne, if_false]

theorem propagate_climb (ar layerCount : Nat) (s : CarState) (h : s.atLayer ≤ layerCount)
    (heq : s.layerWrote s.atLayer = ar) :
    propagate ar layerCount s
      = propagate ar layerCount
          { s with layerWrote := Function.update s.layerWrote s.atLayer 0
                   atLayer := s.atLayer + 1 } := by
  unfold propagate
  have hf : layerCount + 1 - s.atLayer = (layerCount + 1 - (s.atLayer + 1)) + 1 := by omega
  rw [hf]
  simp only [propagateFrom, heq, if_true]

theorem carIterate_append (ce : CarEnv) (ar layerCount : Nat)
    (xs ys : List (Multihash × List UInt8)) :
    ∀ s, carIterate ce ar layerCount (xs ++ ys) s
      = match carIterate ce ar layerCount xs s with
        | (some err, s2) => (some err, s2)
        | (none, s2) => carIterate ce ar layerCount ys s2 := by
  induction xs with
  | nil => intro s; rfl
  | cons x xs ih =>
    intro s
    simp only [List.cons_append, carIterate]
    generalize carCallback ce ar layerCount s x = a
    obtain ⟨ae, ast⟩ := a
    cases ae with
    | some e => rfl
    | none => exact ih ast

/-- Reading one node in the descent: the callback from `atLayer = a + 1` does what it does
from `atLayer = a` once the next node of layer `a + 1` is read, written and counted. -/
theorem carCallback_descend_one (ce : CarEnv) (hw : ∀ k, ce.writeFrame k = true)
    (ar layerCount a : Nat) (w : Nat → Nat) (rd : Nat → List LinkBlock) (out : List Frame)
    (b : LinkBlock) (rest : List LinkBlock) (ha : a < layerCount) (hrd : rd a = b :: rest)
    (e : Multihash × List UInt8) :
    carCallback ce ar layerCount { atLayer := a + 1, layerWrote := w, readers := rd, out := out } e
      = carCallback ce ar layerCount
          { atLayer := a, layerWrote := Function.update w (a + 1) (w (a + 1) + 1),
            readers := Function.update rd a rest, out := out ++ [.link b] } e := by
  have hna : ¬ layerCount ≤ a := by omega
  simp only [carCallback, descendFrom, hna, if_false, hrd, hw, if_true]

theorem carIterate_descend_one (ce : CarEnv) (hw : ∀ k, ce.writeFrame k = true)
    (ar layerCount a : Nat) (w : Nat → Nat) (rd : Nat → List LinkBlock) (out : List Frame)
    (b : LinkBlock) (rest : List LinkBlock) (ha : a < layerCount) (hrd : rd a = b :: rest)
    (es : List (Multihash × List UInt8)) (hes : es ≠ []) :
    carIterate ce ar layerCount es
        { atLayer := a + 1, layerWrote := w, readers := rd, out := out }
      = carIterate ce ar layerCount es
          { atLayer := a, layerWrote := Function.update w (a + 1) (w (a + 1) + 1),
            readers := Function.update rd a rest, out := out ++ [.link b] } := by
  cases es with
  | nil => exact absurd rfl hes
  | cons e es =>
    simp only [carIterate]
    rw [carCallback_descend_one ce hw ar layerCount a w rd out b rest ha hrd e]

/-- The callback on an entry when it is at layer 0. -/
theorem carIterate_leaf (ce : CarEnv) (hw : ∀ k, ce.writeFrame k = true)
    (ar layerCount : Nat) (w : Nat → Nat) (rd : Nat → List LinkBlock) (out : List Frame)
    (e : Multihash × List UInt8) :
    carIterate ce ar layerCount [e]
        { atLayer := 0, layerWrote := w, readers := rd, out := out }
      = propagate ar layerCount
          { atLayer := 0, layerWrote := Function.update w 0 (w 0 + 1), readers := rd,
            out := out ++ [.raw (mhToRawCid e.1) e.2] } := by
  simp only [carIterate, carCallback, descendFrom, hw, if_true, Nat.le_zero_eq,
    Nat.add_one_ne_zero, if_false]
  generalize propagate ar layerCount _ = a
  obtain ⟨ae, ast⟩ := a
  cases ae <;> rfl

/-! ## Lemmas on subtrees -/

theorem TreeAt.nodes_ge : ∀ (L : Nat) (t : TreeAt L) (i : Nat), L ≤ i → TreeAt.nodes L t i = []
  | 0, _, _, _ => rfl
  | L + 1, t, i, h => by
    obtain ⟨b, ks⟩ := t
    have hne : ¬ i = L := by omega
    simp only [TreeAt.nodes, hne, if_false, List.nil_append, List.flatten_eq_nil_iff,
      List.mem_map, forall_exists_index, and_imp, forall_apply_eq_imp_iff₂]
    intro k _
    exact TreeAt.nodes_ge L k i (by omega)

theorem TreeAt.perfect_rightmost (ar : Nat) (har : 1 ≤ ar) :
    ∀ (L : Nat) (t : TreeAt L), TreeAt.perfect ar L t → TreeAt.rightmost ar L t
  | 0, _, _ => trivial
  | L + 1, t, h => by
    obtain ⟨b, ks⟩ := t
    obtain ⟨hlen, hall⟩ := h
    have hlen2 : ks.length = ar := hlen
    refine ⟨(by omega : 1 ≤ ks.length), (by omega : ks.length ≤ ar), ?_, ?_⟩
    · intro k hk
      exact hall k (List.mem_of_mem_dropLast hk)
    · intro k hk
      exact TreeAt.perfect_rightmost ar har L k (hall k (List.mem_of_mem_getLast? hk))

theorem TreeAt.rightmost_leaves_ne (ar : Nat) :
    ∀ (L : Nat) (t : TreeAt L), TreeAt.rightmost ar L t → TreeAt.leaves L t ≠ []
  | 0, _, _ => by simp [TreeAt.leaves]
  | L + 1, t, h => by
    obtain ⟨b, ks⟩ := t
    obtain ⟨h1, _, _, hlast⟩ := h
    simp only at h1 hlast
    have hne : ks ≠ [] := by
      intro h0; rw [h0] at h1; simp at h1
    have hmem := List.getLast?_eq_getLast ks hne
    have hk := hlast (ks.getLast hne) (by rw [hmem]; rfl)
    have := TreeAt.rightmost_leaves_ne ar L _ hk
    simp only [TreeAt.leaves, ne_eq, List.flatten_eq_nil_iff, List.mem_map,
      forall_exists_index, and_imp, forall_apply_eq_imp_iff₂, not_forall]
    exact ⟨ks.getLast hne, List.getLast_mem hne, this⟩

/-- A run of perfect siblings of level `L` that does not exceed the arity. -/
theorem perfect_siblings (ce : CarEnv) (ar layerCount L : Nat) (hL : L ≤ layerCount)
    (hA : PerfectRun ce ar layerCount L) :
    ∀ (ts : List (TreeAt L)) (w : Nat → Nat) (r : Nat → List LinkBlock) (out : List Frame),
      ts ≠ [] → (∀ t ∈ ts, TreeAt.perfect ar L t) → w L + ts.length ≤ ar →
      (∀ i, i < L → w i = 0) →
      carIterate ce ar layerCount (ts.map (TreeAt.leaves L)).flatten
          { atLayer := L, layerWrote := w,
            readers := fun i => (ts.map (fun t => TreeAt.nodes L t i)).flatten ++ r i,
            out := out }
        = propagate ar layerCount
            { atLayer := L, layerWrote := Function.update w L (w L + ts.length),
              readers := r, out := out ++ (ts.map (TreeAt.pre L)).flatten } := by
  intro ts
  induction ts with
  | nil => intro w r out h; exact absurd rfl h
  | cons t ts ih =>
    intro w r out _ hp hlen hz
    by_cases hts : ts = []
    · subst hts
      have := hA t w r out (hp t (by simp)) hz
      simpa using this
    · have h1 := hA t w (fun i => (ts.map (fun t => TreeAt.nodes L t i)).flatten ++ r i) out
        (hp t (by simp)) hz
      have hlen2 : 0 < ts.length := List.length_pos.mpr hts
      simp only [List.length_cons] at hlen
      simp only [List.map_cons, List.flatten_cons, List.append_assoc]
      rw [carIterate_append, h1, propagate_stop ar layerCount _ hL
        (by simp only [Function.update_same]; omega)]
      simp only
      have h2 := ih (Function.update w L (w L + 1)) r (out ++ TreeAt.pre L t) hts
        (fun t ht => hp t (by simp [ht]))
        (by simp only [Function.update_same]; omega)
        (fun i hi => by
          rw [Function.update_noteq (by omega)]
          exact hz i hi)
      rw [h2]
      simp only [Function.update_same, Function.update_idem, List.append_assoc,
        List.length_cons]
      have : w L + 1 + ts.length = w L + (ts.length + 1) := by omega
      rw [this]

/-- The readers once the root of a subtree is read: the nodes of the children come next. -/
theorem readers_after_root (L : Nat) (b : LinkBlock) (ks : List (TreeAt L))
    (r : Nat → List LinkBlock) :
    Function.update
        (fun i => TreeAt.nodes (L + 1) ((b, ks) : LinkBlock × List (TreeAt L)) i ++ r i) L (r L)
      = fun i => (ks.map (fun t => TreeAt.nodes L t i)).flatten ++ r i := by
  funext i
  by_cases hi : i = L
  · subst hi
    have : (ks.map (fun t => TreeAt.nodes i t i)).flatten = [] := by
      simp only [List.flatten_eq_nil_iff, List.mem_map, forall_exists_index, and_imp,
        forall_apply_eq_imp_iff₂]
      intro k _
      exact TreeAt.nodes_ge i k i (le_refl _)
    simp only [Function.update_same, this, List.nil_append]
  · rw [Function.update_noteq hi]
    simp only [TreeAt.nodes, hi, if_false, List.nil_append]

theorem readers_at_root (L : Nat) (b : LinkBlock) (ks : List (TreeAt L))
    (r : Nat → List LinkBlock) :
    (fun i => TreeAt.nodes (L + 1) ((b, ks) : LinkBlock × List (TreeAt L)) i ++ r i) L
      = b :: r L := by
  have : (ks.map (fun t => TreeAt.nodes L t L)).flatten = [] := by
    simp only [List.flatten_eq_nil_iff, List.mem_map, forall_exists_index, and_imp,
      forall_apply_eq_imp_iff₂]
    intro k _
    exact TreeAt.nodes_ge L k L (le_refl _)
  simp only [TreeAt.nodes, if_true, this, List.append_nil, List.singleton_append]

/-- The callback writes every perfect subtree in pre-order. -/
theorem perfect_run (ce : CarEnv) (hw : ∀ k, ce.writeFrame k = true) (ar layerCount : Nat)
    (har : 1 ≤ ar) :
    ∀ L, L ≤ layerCount → PerfectRun ce ar layerCount L := by
  intro L
  induction L with
  | zero =>
    intro _ t w r out _ _
    have hr : (fun i => TreeAt.nodes 0 t i ++ r i) = r := by
      funext i; rfl
    rw [hr]
    exact carIterate_leaf ce hw ar layerCount w r out t
  | succ L ih =>
    intro hL t w r out hp hz
    obtain ⟨b, ks⟩ := t
    obtain ⟨hlen, hall⟩ := hp
    have hlen2 : ks.length = ar := hlen
    have hne : ks ≠ [] := by
      intro h0; rw [h0] at hlen2; simp at hlen2; omega
    have hleaves := TreeAt.rightmost_leaves_ne ar (L + 1) ((b, ks) : LinkBlock × List (TreeAt L))
      (TreeAt.perfect_rightmost ar har (L + 1) _ ⟨hlen, hall⟩)
    rw [carIterate_descend_one ce hw ar layerCount L w _ out b (r L) (by omega)
      (readers_at_root L b ks r) _ hleaves, readers_after_root]
    have hB := perfect_siblings ce ar layerCount L (by omega) (ih (by omega)) ks
      (Function.update w (L + 1) (w (L + 1) + 1)) r (out ++ [.link b]) hne hall
      (by
        rw [Function.update_noteq (by omega), hz L (by omega)]
        omega)
      (fun i hi => by
        rw [Function.update_noteq (by omega)]
        exact hz i (by omega))
    show carIterate ce ar layerCount (ks.map (TreeAt.leaves L)).flatten _ = _
    rw [hB, propagate_climb ar layerCount _ (by simp only; omega)
      (by
        simp only [Function.update_same]
        rw [Function.update_noteq (by omega), hz L (by omega)]
        omega)]
    congr 1
    have hw0 : Function.update (Function.update (Function.update w (L + 1) (w (L + 1) + 1)) L
        (Function.update w (L + 1) (w (L + 1) + 1) L + ks.length)) L 0
        = Function.update w (L + 1) (w (L + 1) + 1) := by
      rw [Function.update_idem]
      funext i
      by_cases hi : i = L
      · subst hi
        rw [Function.update_same, Function.update_noteq (by omega), hz i (by omega)]
      · rw [Function.update_noteq hi]
    simp only [hw0, TreeAt.pre, List.append_assoc, List.singleton_append]

/-- The callback writes in pre-order every subtree on the right edge of the DAG that is
not perfect, reads exactly its nodes and fails nowhere. -/
theorem rightmost_run (ce : CarEnv) (hw : ∀ k, ce.writeFrame k = true) (ar layerCount : Nat)
    (har : 1 ≤ ar) :
    ∀ L, L ≤ layerCount →
      ∀ (t : TreeAt L) (w : Nat → Nat) (r : Nat → List LinkBlock) (out : List Frame),
        TreeAt.rightmost ar L t → ¬ TreeAt.perfect ar L t → (∀ i, i < L → w i = 0) →
        ∃ a w2,
          carIterate ce ar layerCount (TreeAt.leaves L t)
              { atLayer := L, layerWrote := w,
                readers := fun i => TreeAt.nodes L t i ++ r i, out := out }
            = (none, { atLayer := a, layerWrote := w2, readers := r,
                       out := out ++ TreeAt.pre L t }) := by
  intro L
  induction L with
  | zero => intro _ t w r out _ hnp; exact absurd trivial hnp
  | succ L ih =>
    intro hL t w r out hr hnp hz
    obtain ⟨b, ks⟩ := t
    have hleaves := TreeAt.rightmost_leaves_ne ar (L + 1)
      ((b, ks) : LinkBlock × List (TreeAt L)) hr
    obtain ⟨h1, h2, hinit, hlast⟩ := hr
    have h1b : 1 ≤ ks.length := h1
    have h2b : ks.length ≤ ar := h2
    have hinit2 : ∀ k ∈ ks.dropLast, TreeAt.perfect ar L k := hinit
    have hlast2 : ∀ k ∈ ks.getLast?, TreeAt.rightmost ar L k := hlast
    have hne : ks ≠ [] := by
      intro h0; rw [h0] at h1b; simp at h1b
    rw [carIterate_descend_one ce hw ar layerCount L w _ out b (r L) (by omega)
      (readers_at_root L b ks r) _ hleaves, readers_after_root]
    show ∃ a w2, carIterate ce ar layerCount (ks.map (TreeAt.leaves L)).flatten _ = _
    have hw1 : Function.update w (L + 1) (w (L + 1) + 1) L = 0 := by
      rw [Function.update_noteq (by omega), hz L (by omega)]
    have hz1 : ∀ i, i < L → Function.update w (L + 1) (w (L + 1) + 1) i = 0 := by
      intro i hi
      rw [Function.update_noteq (by omega)]
      exact hz i (by omega)
    have hA := perfect_run ce hw ar layerCount har L (by omega)
    by_cases hlp : TreeAt.perfect ar L (ks.getLast hne)
    · -- all children are perfect, so there are fewer than `ar` of them
      have hall : ∀ k ∈ ks, TreeAt.perfect ar L k := by
        intro k hk
        rw [← List.dropLast_append_getLast hne] at hk
        rcases List.mem_append.mp hk with h | h
        · exact hinit2 k h
        · rw [List.mem_singleton.mp h]; exact hlp
      have hlt : ks.length ≠ ar := fun h => hnp ⟨h, hall⟩
      have hB := perfect_siblings ce ar layerCount L (by omega) hA ks
        (Function.update w (L + 1) (w (L + 1) + 1)) r (out ++ [.link b]) hne hall
        (by rw [hw1]; omega) hz1
      rw [hB, propagate_stop ar layerCount _ (by simp only; omega)
        (by simp only [Function.update_same, hw1]; omega)]
      have hout : out ++ [.link b] ++ (ks.map (TreeAt.pre L)).flatten
          = out ++ TreeAt.pre (L + 1) ((b, ks) : LinkBlock × List (TreeAt L)) := by
        simp only [TreeAt.pre, List.append_assoc, List.singleton_append]
      rw [hout]
      exact ⟨_, _, rfl⟩
    · -- the last child is not perfect
      have hlr : TreeAt.rightmost ar L (ks.getLast hne) :=
        hlast2 _ (by rw [List.getLast?_eq_getLast ks hne]; rfl)
      have hsplit := List.dropLast_append_getLast hne
      have hlenI : ks.dropLast.length + 1 = ks.length := by
        have := congrArg List.length hsplit
        simpa using this
      by_cases hi0 : ks.dropLast = []
      · rw [hi0, List.nil_append] at hsplit
        obtain ⟨a, w2, h⟩ := ih (by omega) (ks.getLast hne)
          (Function.update w (L + 1) (w (L + 1) + 1)) r (out ++ [.link b]) hlr hlp hz1
        refine ⟨a, w2, ?_⟩
        rw [← hsplit]
        simp only [List.map_cons, List.map_nil, List.flatten_cons, List.flatten_nil,
          List.append_nil, TreeAt.pre] at h ⊢
        rw [h]
        simp only [List.append_assoc, List.singleton_append]
      · have hB := perfect_siblings ce ar layerCount L (by omega) hA ks.dropLast
          (Function.update w (L + 1) (w (L + 1) + 1))
          (fun i => TreeAt.nodes L (ks.getLast hne) i ++ r i) (out ++ [.link b]) hi0 hinit2
          (by rw [hw1]; omega) hz1
        obtain ⟨a, w2, h⟩ := ih (by omega) (ks.getLast hne)
          (Function.update (Function.update w (L + 1) (w (L + 1) + 1)) L
            (Function.update w (L + 1) (w (L + 1) + 1) L + ks.dropLast.length)) r
          (out ++ [.link b] ++ (ks.dropLast.map (TreeAt.pre L)).flatten) hlr hlp
          (fun i hi => by
            rw [Function.update_noteq (by omega)]
            exact hz1 i hi)
        refine ⟨a, w2, ?_⟩
        have hrd : (fun i => (ks.map (fun t => TreeAt.nodes L t i)).flatten ++ r i)
            = fun i => (ks.dropLast.map (fun t => TreeAt.nodes L t i)).flatten ++
                (TreeAt.nodes L (ks.getLast hne) i ++ r i) := by
          funext i
          conv_lhs => rw [← hsplit]
          simp only [List.map_append, List.flatten_append, List.map_cons, List.map_nil,
            List.flatten_cons, List.flatten_nil, List.append_nil, List.append_assoc]
        have hlv : (ks.map (TreeAt.leaves L)).flatten
            = (ks.dropLast.map (TreeAt.leaves L)).flatten
                ++ TreeAt.leaves L (ks.getLast hne) := by
          conv_lhs => rw [← hsplit]
          simp only [List.map_append, List.flatten_append, List.map_cons, List.map_nil,
            List.flatten_cons, List.flatten_nil, List.append_nil]
        have hpre : (ks.map (TreeAt.pre L)).flatten
            = (ks.dropLast.map (TreeAt.pre L)).flatten
                ++ TreeAt.pre L (ks.getLast hne) := by
          conv_lhs => rw [← hsplit]
          simp only [List.map_append, List.flatten_append, List.map_cons, List.map_nil,
            List.flatten_cons, List.flatten_nil, List.append_nil]
        rw [hrd, hlv, carIterate_append, hB, propagate_stop ar layerCount _
          (by simp only; omega) (by simp only [Function.update_same, hw1]; omega)]
        simp only
        rw [h]
        simp only [TreeAt.pre, hpre, List.append_assoc, List.singleton_append,
          List.cons_append, List.nil_append]

/-! ## Lemmas on the DAG over the entries -/

theorem chunksFrom_map {α β : Type} (f : α → β) (ar : Nat) (xs : List α) :
    ∀ buf, chunksFrom ar (xs.map f) (buf.map f) = (chunksFrom ar xs buf).map (List.map f) := by
  induction xs with
  | nil =>
    intro buf
    simp only [List.map_nil, chunksFrom, List.length_map]
    split <;> rfl
  | cons x xs ih =>
    intro buf
    have h1 : buf.map f ++ [f x] = (buf ++ [x]).map f := by simp
    have h2 : ([] : List β) = ([] : List α).map f := rfl
    simp only [List.map_cons, chunksFrom, h1, List.length_map]
    split
    · rw [List.map_cons, h2, ih]
    · rw [ih]

theorem flatten_map_flatten {α β : Type} (f : α → List β) (cs : List (List α)) :
    (cs.map (fun c => (c.map f).flatten)).flatten = (cs.flatten.map f).flatten := by
  induction cs with
  | nil => rfl
  | cons c cs ih =>
    simp only [List.map_cons, List.flatten_cons, ih, List.map_append, List.flatten_append]

theorem TreeAt.goodRow_cons (ar : Nat) (har : 1 ≤ ar) (L : Nat) (t : TreeAt L)
    (ts : List (TreeAt L)) (ht : TreeAt.perfect ar L t) (hts : TreeAt.goodRow ar L ts) :
    TreeAt.goodRow ar L (t :: ts) := by
  cases ts with
  | nil => exact TreeAt.perfect_rightmost ar har L t ht
  | cons t2 ts => exact ⟨ht, hts⟩

theorem TreeAt.goodRow_zero (ar : Nat) :
    ∀ (xs : List (TreeAt 0)), TreeAt.goodRow ar 0 xs
  | [] => trivial
  | [_] => trivial
  | _ :: t2 :: ts => ⟨trivial, TreeAt.goodRow_zero ar (t2 :: ts)⟩

/-- A run of perfect subtrees followed by a good row, cut into runs of `ar` and put under
link blocks, is a good row of the level above. -/
theorem TreeAt.goodRow_chunks (ar : Nat) (har : 1 ≤ ar) (L : Nat)
    (wrap : List (TreeAt L) → LinkBlock) :
    ∀ (xs buf : List (TreeAt L)), (∀ k ∈ buf, TreeAt.perfect ar L k) → buf.length < ar →
      TreeAt.goodRow ar L xs →
      TreeAt.goodRow ar (L + 1)
        ((chunksFrom ar xs buf).map
          (fun ks => ((wrap ks, ks) : LinkBlock × List (TreeAt L))))
  | [], buf, hb, hlen, _ => by
    simp only [chunksFrom]
    split
    · rename_i hpos
      show TreeAt.rightmost ar (L + 1) ((wrap buf, buf) : LinkBlock × List (TreeAt L))
      refine ⟨(by omega : 1 ≤ buf.length), (by omega : buf.length ≤ ar), ?_, ?_⟩
      · intro k hk
        exact hb k (List.mem_of_mem_dropLast hk)
      · intro k hk
        exact TreeAt.perfect_rightmost ar har L k (hb k (List.mem_of_mem_getLast? hk))
    · trivial
  | [x], buf, hb, hlen, hx => by
    have hx2 : TreeAt.rightmost ar L x := hx
    have hr : TreeAt.rightmost ar (L + 1)
        ((wrap (buf ++ [x]), buf ++ [x]) : LinkBlock × List (TreeAt L)) := by
      refine ⟨(by simp : 1 ≤ (buf ++ [x]).length),
        (by simp only [List.length_append, List.length_singleton]; omega :
          (buf ++ [x]).length ≤ ar), ?_, ?_⟩
      · intro k hk
        have hk2 : k ∈ (buf ++ [x]).dropLast := hk
        rw [List.dropLast_concat] at hk2
        exact hb k hk2
      · intro k hk
        have hk2 : k ∈ (buf ++ [x]).getLast? := hk
        rw [List.getLast?_concat] at hk2
        cases hk2
        exact hx2
    simp only [chunksFrom]
    split
    · simpa using hr
    · simpa using hr
  | x :: x2 :: xs, buf, hb, hlen, hx => by
    obtain ⟨hxp, hrest⟩ := hx
    simp only [chunksFrom]
    by_cases hfull : (buf ++ [x]).length = ar
    · rw [if_pos hfull]
      have ih := TreeAt.goodRow_chunks ar har L wrap (x2 :: xs) [] (by simp) (by simp; omega)
        hrest
      simp only [chunksFrom] at ih
      rw [List.map_cons]
      refine TreeAt.goodRow_cons ar har (L + 1) _ _ ?_ ih
      refine ⟨hfull, ?_⟩
      intro k hk
      have hk2 : k ∈ buf ++ [x] := hk
      rcases List.mem_append.mp hk2 with h | h
      · exact hb k h
      · rw [List.mem_singleton.mp h]; exact hxp
    · rw [if_neg hfull]
      have ih := TreeAt.goodRow_chunks ar har L wrap (x2 :: xs) (buf ++ [x])
        (by
          intro k hk
          rcases List.mem_append.mp hk with h | h
          · exact hb k h
          · rw [List.mem_singleton.mp h]; exact hxp)
        (by simp only [List.length_append, List.length_singleton] at hfull ⊢; omega)
        hrest
      simp only [chunksFrom] at ih
      exact ih

theorem forestOver_goodRow (linkCid : List Cid → Cid) (ar : Nat) (har : 1 ≤ ar)
    (entries : List (Multihash × List UInt8)) :
    ∀ L, TreeAt.goodRow ar L (forestOver linkCid ar entries L)
  | 0 => TreeAt.goodRow_zero ar entries
  | L + 1 =>
    TreeAt.goodRow_chunks ar har L (fun ks => mkLinkBlock linkCid (ks.map (TreeAt.cid L)))
      (forestOver linkCid ar entries L) [] (by simp) (by simp; omega)
      (forestOver_goodRow linkCid ar har entries L)

/-- The link blocks at the roots of level `L + 1` are the chunked layer over the CIDs of
level `L`. -/
theorem forestOver_tops (linkCid : List Cid → Cid) (ar : Nat)
    (entries : List (Multihash × List UInt8)) (L : Nat) :
    (forestOver linkCid ar entries (L + 1)).map
        (fun (t : LinkBlock × List (TreeAt L)) => t.1)
      = layerOver linkCid ar ((forestOver linkCid ar entries L).map (TreeAt.cid L)) := by
  have h := chunksFrom_map (TreeAt.cid L) ar (forestOver linkCid ar entries L) []
  simp only [List.map_nil] at h
  simp only [forestOver, layerOver, chunks, h, List.map_map]
  rfl

theorem forestOver_cids (linkCid : List Cid → Cid) (ar : Nat)
    (entries : List (Multihash × List UInt8)) :
    ∀ L, (forestOver linkCid ar entries L).map (TreeAt.cid L)
      = levelInput linkCid ar L (entries.map (fun e => mhToRawCid e.1))
  | 0 => rfl
  | L + 1 => by
    rw [levelInput_succ, ← forestOver_cids linkCid ar entries L, ← forestOver_tops,
      List.map_map]
    rfl

theorem forestOver_leaves (linkCid : List Cid → Cid) (ar : Nat)
    (entries : List (Multihash × List UInt8)) :
    ∀ L, ((forestOver linkCid ar entries L).map (TreeAt.leaves L)).flatten = entries
  | 0 => by
    show (List.map (fun e => [e]) entries).flatten = entries
    induction entries with
    | nil => rfl
    | cons e es ih => simp only [List.map_cons, List.flatten_cons, ih, List.singleton_append]
  | L + 1 => by
    have ih := forestOver_leaves linkCid ar entries L
    have hf := chunksFrom_flatten ar (forestOver linkCid ar entries L) []
    simp only [List.nil_append] at hf
    simp only [forestOver, chunks, List.map_map]
    have : (TreeAt.leaves (L + 1) ∘ fun ks =>
        ((mkLinkBlock linkCid (ks.map (TreeAt.cid L)), ks) : LinkBlock × List (TreeAt L)))
        = fun ks => (ks.map (TreeAt.leaves L)).flatten := by
      funext ks; rfl
    rw [this, flatten_map_flatten, hf, ih]

/-- The link blocks of level `i + 1` under the subtrees of level `L`, taken subtree by
subtree, are the roots of level `i + 1` in order. -/
theorem forestOver_nodes (linkCid : List Cid → Cid) (ar : Nat)
    (entries : List (Multihash × List UInt8)) (i : Nat) :
    ∀ L, i < L →
      ((forestOver linkCid ar entries L).map (fun t => TreeAt.nodes L t i)).flatten
        = (forestOver linkCid ar entries (i + 1)).map
            (fun (t : LinkBlock × List (TreeAt i)) => t.1)
  | 0, h => absurd h (by omega)
  | L + 1, h => by
    have hf := chunksFrom_flatten ar (forestOver linkCid ar entries L) []
    simp only [List.nil_append] at hf
    by_cases hi : i = L
    · subst hi
      simp only [forestOver, chunks, List.map_map]
      generalize chunksFrom ar (forestOver linkCid ar entries i) [] = cs
      induction cs with
      | nil => rfl
      | cons c cs ihc =>
        have : (c.map (fun k => TreeAt.nodes i k i)).flatten = [] := by
          simp only [List.flatten_eq_nil_iff, List.mem_map, forall_exists_index, and_imp,
            forall_apply_eq_imp_iff₂]
          intro k _
          exact TreeAt.nodes_ge i k i (le_refl _)
        rw [List.map_cons, List.flatten_cons, ihc, List.map_cons]
        simp only [Function.comp_apply, TreeAt.nodes, if_true, this, List.append_nil,
          List.singleton_append]
    · have ih := forestOver_nodes linkCid ar entries i L (by omega)
      rw [← ih]
      conv_rhs => rw [← hf]
      rw [← flatten_map_flatten]
      simp only [forestOver, chunks, List.map_map]
      congr 1
      apply List.map_congr_left
      intro ks _
      simp only [Function.comp_apply, TreeAt.nodes, hi, if_false, List.nil_append]

theorem forestOver_linked (linkCid : List Cid → Cid) (ar : Nat)
    (entries : List (Multihash × List UInt8)) :
    ∀ L, ∀ t ∈ forestOver linkCid ar entries L, TreeAt.linked L t
  | 0, _, _ => trivial
  | L + 1, t, ht => by
    have hf := chunksFrom_flatten ar (forestOver linkCid ar entries L) []
    simp only [List.nil_append] at hf
    simp only [forestOver, chunks, List.mem_map] at ht
    obtain ⟨ks, hks, rfl⟩ := ht
    refine ⟨rfl, ?_⟩
    intro k hk
    apply forestOver_linked linkCid ar entries L k
    rw [← hf]
    exact List.mem_flatten.mpr ⟨ks, hks, hk⟩

theorem flatten_cons_perm {α β : Type} (g : α → β) (h : α → List β) (cs : List α) :
    List.Perm (cs.map (fun c => g c :: h c)).flatten (cs.map g ++ (cs.map h).flatten) := by
  induction cs with
  | nil => exact List.Perm.refl _
  | cons c cs ih =>
    simp only [List.map_cons, List.flatten_cons, List.cons_append]
    refine List.Perm.cons _ ?_
    refine List.Perm.trans (List.Perm.append_left _ ih) ?_
    rw [← List.append_assoc, ← List.append_assoc]
    exact List.Perm.append_right _ List.perm_append_comm

/-- The pre-order traversals of the subtrees of level `L` hold every entry and every link
block of the levels `1..L` exactly once. -/
theorem forestOver_pre_perm (linkCid : List Cid → Cid) (ar : Nat)
    (entries : List (Multihash × List UInt8)) :
    ∀ L, List.Perm ((forestOver linkCid ar entries L).map (TreeAt.pre L)).flatten
      (entries.map (fun e => Frame.raw (mhToRawCid e.1) e.2) ++
        (((List.range L).map (fun i => (forestOver linkCid ar entries (i + 1)).map
          (fun (t : LinkBlock × List (TreeAt i)) => t.1))).flatten).map Frame.link)
  | 0 => by
    have : ((forestOver linkCid ar entries 0).map (TreeAt.pre 0)).flatten
        = entries.map (fun e => Frame.raw (mhToRawCid e.1) e.2) := by
      show (List.map (fun e => [Frame.raw (mhToRawCid e.1) e.2]) entries).flatten = _
      induction entries with
      | nil => rfl
      | cons e es ih =>
        simp only [List.map_cons, List.flatten_cons, ih, List.singleton_append]
    rw [this]
    simp
  | L + 1 => by
    have ih := forestOver_pre_perm linkCid ar entries L
    have hf := chunksFrom_flatten ar (forestOver linkCid ar entries L) []
    simp only [List.nil_append] at hf
    have h1 : ((forestOver linkCid ar entries (L + 1)).map (TreeAt.pre (L + 1))).flatten
        = ((chunksFrom ar (forestOver linkCid ar entries L) []).map
            (fun ks => Frame.link (mkLinkBlock linkCid (ks.map (TreeAt.cid L))) ::
              (ks.map (TreeAt.pre L)).flatten)).flatten := by
      simp only [forestOver, chunks, List.map_map]
      rfl
    have h2 : (forestOver linkCid ar entries (L + 1)).map
          (fun (t : LinkBlock × List (TreeAt L)) => t.1)
        = (chunksFrom ar (forestOver linkCid ar entries L) []).map
            (fun ks => mkLinkBlock linkCid (ks.map (TreeAt.cid L))) := by
      simp only [forestOver, chunks, List.map_map]
      rfl
    rw [h1, List.range_succ, List.map_append, List.flatten_append, List.map_append]
    simp only [List.map_cons, List.map_nil, List.flatten_cons, List.flatten_nil,
      List.append_nil]
    rw [h2]
    refine List.Perm.trans (flatten_cons_perm _ _ _) ?_
    rw [flatten_map_flatten, hf, List.map_map]
    refine List.Perm.trans List.perm_append_comm ?_
    rw [← List.append_assoc]
    exact List.Perm.append_right _ ih

theorem range_map_getD {α : Type} (d : α) (ls : List α) :
    (List.range ls.length).map (fun i => ls.getD i d) = ls := by
  apply List.ext_getElem
  · simp
  · intro i h1 h2
    simp only [List.getElem_map, List.getElem_range, List.getD_eq_getElem?_getD]
    rw [List.getElem?_eq_getElem h2]
    rfl

/-! ## Lemmas on writeCar -/

theorem lookup_numbered {α : Type} (x : α) (rest : List α) :
    ∀ (pre : List α) (k : Nat),
      List.lookup (k + pre.length) (numbered k (pre ++ x :: rest)) = some x
  | [], k => by
    simp [numbered, List.lookup]
  | p :: pre, k => by
    have hne : (k + (pre.length + 1) == k) = false := by
      simp
    have h := lookup_numbered x rest pre (k + 1)
    have hk : k + 1 + pre.length = k + (pre.length + 1) := by omega
    rw [hk] at h
    simp only [List.cons_append, numbered, List.length_cons, List.lookup, hne]
    exact h

/-- The layer files `GenTopCar` left are all there to open. -/
theorem openLayers_numbered (lf af : Option Nat) (k : Nat) :
    ∀ (post pre : List (List LinkBlock)),
      openLayers { layerFiles := numbered k (pre ++ post), layersFile := lf, arityFile := af }
        post.length (k + pre.length) = some post
  | [], _ => rfl
  | x :: post, pre => by
    have h := openLayers_numbered lf af k post (pre ++ [x])
    simp only [List.append_assoc, List.singleton_append, List.length_append,
      List.length_singleton] at h
    simp only [List.length_cons, openLayers, lookup_numbered x post pre k]
    have hk : k + pre.length + 1 = k + (pre.length + 1) := by omega
    rw [hk, h]
    rfl

/-- The layers of `dagLayers` are the roots of the levels of the DAG over the entries. -/
theorem forestOver_layers (linkCid : List Cid → Cid) (ar fuel : Nat)
    (entries : List (Multihash × List UInt8)) (ls : List (List LinkBlock))
    (hd : dagLayers linkCid ar fuel (entries.map (fun e => mhToRawCid e.1)) = some ls)
    (L : Nat) (hL : L < ls.length) :
    (forestOver linkCid ar entries (L + 1)).map
        (fun (t : LinkBlock × List (TreeAt L)) => t.1) = ls.getD L [] := by
  rw [forestOver_tops, forestOver_cids,
    (( dagLayers_get linkCid ar fuel _ ls hd).2 L hL).1]

/-- The top of the DAG: with `K + 2` layers, level `K + 1` is one subtree and level
`K + 2` is the root over it. -/
theorem forestOver_root (linkCid : List Cid → Cid) (ar fuel : Nat)
    (entries : List (Multihash × List UInt8)) (ls : List (List LinkBlock))
    (hd : dagLayers linkCid ar fuel (entries.map (fun e => mhToRawCid e.1)) = some ls)
    (K : Nat) (hK : ls.length = K + 2) :
    ∃ child : TreeAt (K + 1),
      forestOver linkCid ar entries (K + 2)
        = [((mkLinkBlock linkCid [TreeAt.cid (K + 1) child], [child]) :
            LinkBlock × List (TreeAt (K + 1)))] := by
  have hcnt := (dagLayers_get linkCid ar fuel _ ls hd).2
  have htop := forestOver_layers linkCid ar fuel entries ls hd K (by omega)
  have hone : (ls.getD K []).length = 1 := by
    have h1 := (hcnt (K + 1) (by omega)).2 (by omega)
    have h2 := (hcnt K (by omega)).1
    rw [levelInput_succ, List.length_map, ← h2] at h1
    exact h1.mpr (by omega)
  have hlen : (forestOver linkCid ar entries (K + 1)).length = 1 := by
    have h3 := congrArg List.length htop
    rw [List.length_map] at h3
    omega
  obtain ⟨child, hchild⟩ := List.length_eq_one.mp hlen
  refine ⟨child, ?_⟩
  show (chunks ar (forestOver linkCid ar entries (K + 1))).map _ = _
  rw [hchild]
  simp only [chunks, chunksFrom]
  split <;> simp

/-- On the files `GenTopCar` leaves, with nothing failing, `writeCar` returns the CID of
the single block of the top layer, writes it as the only root of a version 1 header,
writes the pre-order traversal of the DAG over the entries as the body, and reads every
layer file to its end. -/
theorem writeCar_ok (linkCid : List Cid → Cid) (fuel : Nat) (m : Group)
    (ls : List (List LinkBlock))
    (hd : dagLayers linkCid arity fuel (m.jb.entries.map (fun e => mhToRawCid e.1)) = some ls)
    (hv : m.vcar = some { layerFiles := numbered 1 ls, layersFile := some ls.length,
                          arityFile := some arity })
    (K : Nat) (hK : ls.length = K + 2) :
    ∃ (b : LinkBlock) (child : TreeAt (K + 1)),
      forestOver linkCid arity m.jb.entries (K + 2)
        = [((b, [child]) : LinkBlock × List (TreeAt (K + 1)))] ∧
      ls.getD (K + 1) [] = [b] ∧
      (m.writeCar CarEnv.allOk).err = none ∧
      (m.writeCar CarEnv.allOk).root = some b.cid ∧
      (m.writeCar CarEnv.allOk).header = some { roots := [b.cid], version := 1 } ∧
      (m.writeCar CarEnv.allOk).body
        = TreeAt.pre (K + 2) ((b, [child]) : LinkBlock × List (TreeAt (K + 1))) ∧
      (m.writeCar CarEnv.allOk).unread = (List.range (K + 2)).map (fun _ => []) := by
  obtain ⟨child, hroot⟩ := forestOver_root linkCid arity fuel m.jb.entries ls hd K hK
  have hgood : TreeAt.rightmost arity (K + 2)
      ((mkLinkBlock linkCid [TreeAt.cid (K + 1) child], [child]) :
        LinkBlock × List (TreeAt (K + 1))) := by
    have h := forestOver_goodRow linkCid arity (by decide) m.jb.entries (K + 2)
    rw [hroot] at h
    exact h
  have hnp : ¬ TreeAt.perfect arity (K + 2)
      ((mkLinkBlock linkCid [TreeAt.cid (K + 1) child], [child]) :
        LinkBlock × List (TreeAt (K + 1))) := by
    intro h
    have h1 : [child].length = arity := h.1
    simp [arity] at h1
  have htopB : ls.getD (K + 1) [] = [mkLinkBlock linkCid [TreeAt.cid (K + 1) child]] := by
    rw [← forestOver_layers linkCid arity fuel m.jb.entries ls hd (K + 1) (by omega), hroot]
    rfl
  have hnodes : (fun i => ls.getD i [])
      = fun i => TreeAt.nodes (K + 2)
          ((mkLinkBlock linkCid [TreeAt.cid (K + 1) child], [child]) :
            LinkBlock × List (TreeAt (K + 1))) i ++ (fun _ => ([] : List LinkBlock)) i := by
    funext i
    simp only [List.append_nil]
    by_cases hi : i < K + 2
    · have h := forestOver_nodes linkCid arity m.jb.entries i (K + 2) hi
      rw [hroot, forestOver_layers linkCid arity fuel m.jb.entries ls hd i (by omega)] at h
      simpa using h.symm
    · rw [TreeAt.nodes_ge (K + 2) _ i (by omega)]
      exact List.getD_eq_default _ _ (by omega)
  have hleaves : TreeAt.leaves (K + 2)
      ((mkLinkBlock linkCid [TreeAt.cid (K + 1) child], [child]) :
        LinkBlock × List (TreeAt (K + 1))) = m.jb.entries := by
    have h := forestOver_leaves linkCid arity m.jb.entries (K + 2)
    rw [hroot] at h
    simpa using h
  obtain ⟨a, w2, hrun⟩ := rightmost_run CarEnv.allOk (fun _ => rfl) arity (K + 2) (by decide)
    (K + 2) (le_refl _) _ (fun _ => 0) (fun _ => []) [] hgood hnp (fun _ _ => rfl)
  rw [hleaves, ← hnodes] at hrun
  have hopen := openLayers_numbered (some ls.length) (some arity) 1 ls []
  simp only [List.nil_append, List.length_nil, Nat.add_zero] at hopen
  have hlast : ls.getLast? = some [mkLinkBlock linkCid [TreeAt.cid (K + 1) child]] := by
    rw [List.getLast?_eq_getElem?, hK, ← htopB, List.getD_eq_getElem?_getD]
    have hlt : K + 1 < ls.length := by omega
    simp only [Nat.add_sub_cancel, show K + 2 - 1 = K + 1 from rfl,
      List.getElem?_eq_getElem hlt, Option.getD_some]
  have hres : m.writeCar CarEnv.allOk
      = { err := none
          size := CarEnv.allOk.headerSize
              { roots := [(mkLinkBlock linkCid [TreeAt.cid (K + 1) child]).cid], version := 1 }
            + ((TreeAt.pre (K + 2)
                ((mkLinkBlock linkCid [TreeAt.cid (K + 1) child], [child]) :
                  LinkBlock × List (TreeAt (K + 1)))).map CarEnv.allOk.frameSize).sum
          root := some (mkLinkBlock linkCid [TreeAt.cid (K + 1) child]).cid
          header := some
            { roots := [(mkLinkBlock linkCid [TreeAt.cid (K + 1) child]).cid], version := 1 }
          body := TreeAt.pre (K + 2)
            ((mkLinkBlock linkCid [TreeAt.cid (K + 1) child], [child]) :
              LinkBlock × List (TreeAt (K + 1)))
          unread := (List.range (K + 2)).map (fun _ => []) } := by
    unfold Group.writeCar
    rw [hK] at hv hopen
    simp only [hv, Option.some_bind, hopen, hlast]
    have hce1 : CarEnv.allOk.writeHeader = true := rfl
    have hce2 : CarEnv.allOk.seek = true := rfl
    have hce3 : CarEnv.allOk.iterateFailsAt = none := rfl
    simp only [hce1, hce2, hce3, if_true, hrun, Option.isSome_none, Bool.false_eq_true,
      if_false, List.nil_append]
  rw [hres]
  exact ⟨_, child, hroot, htopB, rfl, rfl, rfl, rfl, rfl⟩

/-- The frames of the pre-order traversal of the root are the entries and the link blocks
of all layer files, each exactly once. -/
theorem root_pre_perm (linkCid : List Cid → Cid) (fuel : Nat)
    (entries : List (Multihash × List UInt8)) (ls : List (List LinkBlock))
    (hd : dagLayers linkCid arity fuel (entries.map (fun e => mhToRawCid e.1)) = some ls)
    (K : Nat) (hK : ls.length = K + 2) (root : TreeAt (K + 2))
    (hroot : forestOver linkCid arity entries (K + 2) = [root]) :
    List.Perm (TreeAt.pre (K + 2) root)
      (entries.map (fun e => Frame.raw (mhToRawCid e.1) e.2) ++ ls.flatten.map Frame.link) := by
  have h := forestOver_pre_perm linkCid arity entries (K + 2)
  rw [hroot] at h
  simp only [List.map_cons, List.map_nil, List.flatten_cons, List.flatten_nil,
    List.append_nil] at h
  have hl : (List.range (K + 2)).map (fun i => (forestOver linkCid arity entries (i + 1)).map
      (fun (t : LinkBlock × List (TreeAt i)) => t.1)) = ls := by
    have h1 : (List.range (K + 2)).map (fun i =>
        (forestOver linkCid arity entries (i + 1)).map
          (fun (t : LinkBlock × List (TreeAt i)) => t.1))
        = (List.range (K + 2)).map (fun i => ls.getD i []) := by
      apply List.map_congr_left
      intro i hi
      exact forestOver_layers linkCid arity fuel entries ls hd i
        (by rw [hK]; exact List.mem_range.mp hi)
    rw [h1, ← hK]
    exact range_map_getD [] ls
  rw [hl] at h
  exact h

/-! ## Claims -/

/-- C1, as stated, fails on a Writable group whose committed size already exceeds
`maxGroupSize`: `Put` succeeds and accepts 0 blocks, yet the empty run of blocks has summed
payload 0, which is more than the available space of -1, so what was accepted does not
fit. -/
theorem Put_accepted_not_fitting_when_overfull :
    ({ Group.fresh 1 with committedSize := maxGroupSize + 1 } : Group).state = .Writable ∧
    (Group.Put Env.allOk { Group.fresh 1 with committedSize := maxGroupSize + 1 }
        [{ hash := [1], data := [7] }]).1 = .ok 0 ∧
    ¬ payloadSum (List.take 0 [({ hash := [1], data := [7] } : Block)])
        ≤ Group.availSpace { Group.fresh 1 with committedSize := maxGroupSize + 1 } := by
  decide

/-- C1 (amended): for every Writable group and every batch, the count `n` a successful
`Put` returns is at most the batch length, the log grows by exactly the first `n` blocks
(whole blocks, none split), and the run stopped at the whole batch or at a block that
would exceed the available space `maxGroupSize - committedSize - inflightSize`.  When the
available space is not negative, the accepted blocks fit and `n` is the greatest length of
a fitting initial run; when it is negative, `n = 0`. -/
theorem Put_accepts_longest_fitting_run (env : Env) (m : Group) (b : List Block) (n : Nat)
    (hw : m.state = .Writable) (hok : (m.Put env b).1 = .ok n) :
    n ≤ b.length ∧
    (m.Put env b).2.jb.log = m.jb.log ++ b.take n ∧
    (n = b.length ∨ m.availSpace < payloadSum (b.take (n + 1))) ∧
    (0 ≤ m.availSpace →
      payloadSum (b.take n) ≤ m.availSpace ∧
      ∀ k, k ≤ b.length → payloadSum (b.take k) ≤ m.availSpace → k ≤ n) ∧
    (m.availSpace < 0 → n = 0) := by
  obtain ⟨hn, hlog⟩ := Put_ok_count hw hok
  obtain ⟨k, hk, hres, hstop, hfits⟩ := reserve_spec m.availSpace b 0 0
  have hnk : n = k := by rw [hn, hres]; simp
  subst hnk
  simp only [zero_add] at hstop hfits
  refine ⟨hk, hlog, hstop, ?_, ?_⟩
  · intro h0
    refine ⟨hfits (Or.inl h0), ?_⟩
    intro j hj hjfit
    by_contra hlt
    rcases hstop with h | h
    · omega
    · have := payloadSum_take_mono b (n + 1) j (by omega)
      omega
  · intro hneg
    by_contra h0
    have := hfits (Or.inr (by omega))
    have := payloadSum_nonneg (b.take n)
    omega

/-- Witness for C1: a fresh group accepts both blocks of a two-block batch. -/
theorem Put_accepts_longest_fitting_run_witness :
    (Group.fresh 7).state = .Writable ∧
    (Group.Put Env.allOk (Group.fresh 7)
        [{ hash := [1], data := [104, 105] }, { hash := [2], data := [1, 2, 3] }]).1 = .ok 2 ∧
    (2 : Nat) ≤ [({ hash := [1], data := [104, 105] } : Block),
        { hash := [2], data := [1, 2, 3] }].length ∧
    (Group.Put Env.allOk (Group.fresh 7)
        [{ hash := [1], data := [104, 105] }, { hash := [2], data := [1, 2, 3] }]).2.jb.log
      = (Group.fresh 7).jb.log ++ List.take 2
          [({ hash := [1], data := [104, 105] } : Block), { hash := [2], data := [1, 2, 3] }] :=
  let h := Put_accepts_longest_fitting_run Env.allOk (Group.fresh 7)
    [{ hash := [1], data := [104, 105] }, { hash := [2], data := [1, 2, 3] }] 2
    (by decide) (by decide)
  ⟨by decide, by decide, h.1, h.2.1⟩

/-- C2: `committedSize + inflightSize ≤ maxGroupSize` is preserved by `Put` and by `Sync`,
for every batch, every state and every outcome of the collaborator calls (so also when the
call returns an error). -/
theorem size_bound_preserved (env : Env) (m : Group) (b : List Block)
    (h : m.committedSize + m.inflightSize ≤ maxGroupSize) :
    (m.Put env b).2.committedSize + (m.Put env b).2.inflightSize ≤ maxGroupSize ∧
    (m.Sync env).2.committedSize + (m.Sync env).2.inflightSize ≤ maxGroupSize := by
  constructor
  · by_cases hb : b = []
    · subst hb; simpa [Group.Put] using h
    · by_cases hw : m.state = .Writable
      · rw [Put_writable env m b hw hb]
        obtain ⟨hsum, _, _⟩ := backendWrite_fields env (m.reserveSpace b).1
          (b.map (fun blk => blk.hash)) b (m.reserveSpace b).2
        obtain ⟨_, h2, h3, _, _⟩ := reserveSpace_fields m b
        rw [hsum, h2, h3]
        obtain ⟨k, _, hres, _, hfits⟩ := reserve_spec m.availSpace b 0 0
        have hav : 0 ≤ m.availSpace := by unfold Group.availSpace; omega
        have := hfits (Or.inl hav)
        rw [hres]
        simp only [zero_add] at this ⊢
        unfold Group.availSpace at this
        omega
      · have hlen : b.length ≠ 0 := by
          intro h0; exact hb (List.length_eq_zero.mp h0)
        simpa [Group.Put, hlen, hw] using h
  · have hf := sync_fields (show m.sync env = ((m.sync env).1, (m.sync env).2) from rfl)
    unfold Group.Sync
    omega

/-- Witness for C2: a group one byte short of `maxGroupSize` offered a two-byte block. -/
theorem size_bound_preserved_witness :
    ({ Group.fresh 1 with committedSize := maxGroupSize - 1 } : Group).committedSize
        + ({ Group.fresh 1 with committedSize := maxGroupSize - 1 } : Group).inflightSize
      ≤ maxGroupSize ∧
    (Group.Put Env.allOk { Group.fresh 1 with committedSize := maxGroupSize - 1 }
        [{ hash := [1], data := [7, 8] }]).2.committedSize
      + (Group.Put Env.allOk { Group.fresh 1 with committedSize := maxGroupSize - 1 }
        [{ hash := [1], data := [7, 8] }]).2.inflightSize ≤ maxGroupSize :=
  ⟨by decide,
    (size_bound_preserved Env.allOk { Group.fresh 1 with committedSize := maxGroupSize - 1 }
      [{ hash := [1], data := [7, 8] }] (by decide)).1⟩

/-- C3, as stated, fails for a `Put` on a group that is already Full: the call returns
without error a count of 0, smaller than the batch length 1, and the group did not go from
Writable to Full during the call (it was Full before). -/
theorem Put_on_full_group_returns_less_without_transition :
    (Group.Put Env.allOk { Group.fresh 1 with state := .Full }
        [{ hash := [1], data := [7] }]).1 = .ok 0 ∧
    0 < [({ hash := [1], data := [7] } : Block)].length ∧
    ¬ (({ Group.fresh 1 with state := .Full } : Group).state = .Writable ∧
        (Group.Put Env.allOk { Group.fresh 1 with state := .Full }
          [{ hash := [1], data := [7] }]).2.state = .Full) := by
  decide

/-- C3 (amended): for a `Put` on a Writable group that returns without error, the count
is smaller than the batch length exactly when the group is Full after the call; and a
`Put` on a group in any other state returns 0 without error, for every batch, and leaves
the group as it was. -/
theorem Put_short_iff_became_full (env : Env) (m : Group) (b : List Block) :
    (m.state = .Writable → ∀ n, (m.Put env b).1 = .ok n →
      (n < b.length ↔ (m.Put env b).2.state = .Full)) ∧
    (m.state ≠ .Writable → m.Put env b = (.ok 0, m)) := by
  constructor
  · intro hw n hok
    obtain ⟨hn, _⟩ := Put_ok_count hw hok
    by_cases hb : b = []
    · subst hb
      simp [Group.Put, hw]
    · rw [Put_writable env m b hw hb]
      obtain ⟨_, hst, _⟩ := backendWrite_fields env (m.reserveSpace b).1
        (b.map (fun blk => blk.hash)) b (m.reserveSpace b).2
      obtain ⟨_, _, _, _, h5⟩ := reserveSpace_fields m b
      rw [hst, h5, ← hn]
      by_cases hlt : n < b.length
      · simp [hlt]
      · simp [hlt, hw]
  · exact Put_not_writable env m b

/-- Witness for C3: a group two bytes short of `maxGroupSize` takes the first block of a
batch of two and becomes Full; the Full group then accepts nothing. -/
theorem Put_short_iff_became_full_witness :
    (({ Group.fresh 7 with committedSize := maxGroupSize - 2 } : Group).state = .Writable ∧
      (Group.Put Env.allOk { Group.fresh 7 with committedSize := maxGroupSize - 2 }
        [{ hash := [1], data := [10, 11] }, { hash := [2], data := [3] }]).1 = .ok 1 ∧
      (Group.Put Env.allOk { Group.fresh 7 with committedSize := maxGroupSize - 2 }
        [{ hash := [1], data := [10, 11] }, { hash := [2], data := [3] }]).2.state = .Full) ∧
    (({ Group.fresh 7 with state := .Full } : Group).state ≠ .Writable ∧
      Group.Put Env.allOk { Group.fresh 7 with state := .Full } [{ hash := [2], data := [3] }]
        = (.ok 0, { Group.fresh 7 with state := .Full })) :=
  ⟨⟨by decide, by decide,
      ((Put_short_iff_became_full Env.allOk
          { Group.fresh 7 with committedSize := maxGroupSize - 2 }
          [{ hash := [1], data := [10, 11] }, { hash := [2], data := [3] }]).1
        (by decide) 1 (by decide)).1 (by decide)⟩,
    ⟨by decide,
      (Put_short_iff_became_full Env.allOk { Group.fresh 7 with state := .Full }
        [{ hash := [2], data := [3] }]).2 (by decide)⟩⟩

/-- C4: round trip.  Take any run of successful store operations from `Create` in which a
batch containing `B` is put and a later commit follows with no `Close` and `Open` in
between (other batches, the same block again, and other commits may come before, in
between and after), and in which the hash of `B` stands for its payload: no block put
under `hash(B)` has another payload.  Then viewing `hash(B)` finds `payload(B)`, and
`Group.View` calls the callback with that payload and returns no error: on the store as
it is, after `Close` and `Open`, after `MarkReadOnly`, `Finalize` and `DropLevel` (which
succeed), and after `Close` and `Open` of the finalized store. -/
theorem committed_block_reads_back (pre mid post : List JOp) (bs : List Block) (B : Block)
    (jb : JBOB) (g : Group)
    (hrun : JBOB.run JBOB.Create (pre ++ JOp.put bs :: (mid ++ JOp.commit :: post)) = .ok jb)
    (hB : B ∈ bs) (hmid : JOp.reopen ∉ mid)
    (hhash : ∀ x ∈ scriptBlocks (pre ++ JOp.put bs :: (mid ++ JOp.commit :: post)),
      x.hash = B.hash → x.data = B.data) :
    (jb.get B.hash = some B.data ∧ ({ g with jb := jb } : Group).readsBack B) ∧
    (jb.reopen.get B.hash = some B.data ∧
      ({ g with jb := jb.reopen } : Group).readsBack B) ∧
    ∃ jb3, jb.seal = .ok jb3 ∧
      (jb3.get B.hash = some B.data ∧ ({ g with jb := jb3 } : Group).readsBack B) ∧
      (jb3.reopen.get B.hash = some B.data ∧
        ({ g with jb := jb3.reopen } : Group).readsBack B) := by
  have hall := run_ok _ JBOB.Create jb writableOk_create hrun
  obtain ⟨jb1, hpre, hrest⟩ := run_append pre _ _ _ hrun
  obtain ⟨hw1, _, _, _⟩ := run_ok pre JBOB.Create jb1 writableOk_create hpre
  simp only [JBOB.run] at hrest
  cases hput : jb1.step (.put bs) with
  | error e => simp [hput] at hrest
  | ok jb2 =>
    simp only [hput] at hrest
    obtain ⟨hw2, _, _, hlog2, _, _⟩ := step_ok hw1 hput
    obtain ⟨jb3, hmidrun, hrest2⟩ := run_append mid _ _ _ hrest
    obtain ⟨hw3, _, _, hkeep3⟩ := run_ok mid jb2 jb3 hw2 hmidrun
    have hB3 : B ∈ jb3.log := by
      apply hkeep3 hmid
      rw [hlog2 bs rfl]
      exact List.mem_append_right _ hB
    simp only [JBOB.run] at hrest2
    cases hcom : jb3.step .commit with
    | error e => simp [hcom] at hrest2
    | ok jb4 =>
      simp only [hcom] at hrest2
      obtain ⟨hw4, _, _, _, hcomm4, _⟩ := step_ok hw3 hcom
      have hB4 : B ∈ jb4.committed := by rw [hcomm4 rfl]; exact hB3
      obtain ⟨hw, hkeep, _, _⟩ := run_ok post jb4 jb hw4 hrest2
      have hca : ∀ x ∈ jb.log, x.hash = B.hash → x.data = B.data := by
        intro x hx
        rcases hall.2.2.1 x hx with h | h
        · simp [JBOB.Create] at h
        · exact hhash x h
      obtain ⟨h1, h2, jbs, hseal, h3, h4⟩ := committed_survives hw hca (hkeep B hB4)
      exact ⟨⟨h1, readsBack_of_get h1⟩, ⟨h2, readsBack_of_get h2⟩, jbs, hseal,
        ⟨h3, readsBack_of_get h3⟩, ⟨h4, readsBack_of_get h4⟩⟩

/-- Witness for C4: the run of `TestJbobBasic` (create, put `hello world`, commit),
followed by a second put of the same block that is not committed. -/
theorem committed_block_reads_back_witness :
    JBOB.run JBOB.Create
        ([] ++ JOp.put [helloWorld] :: ([] ++ JOp.commit :: [JOp.put [helloWorld]]))
      = .ok { log := [helloWorld, helloWorld], committedLen := 1, readOnly := false,
              mi := some [{ hash := helloWorld.hash, offset := 0, length := 11 }],
              sht := none } ∧
    helloWorld ∈ [helloWorld] ∧
    JOp.reopen ∉ ([] : List JOp) ∧
    (∀ x ∈ scriptBlocks
        ([] ++ JOp.put [helloWorld] :: ([] ++ JOp.commit :: [JOp.put [helloWorld]])),
      x.hash = helloWorld.hash → x.data = helloWorld.data) ∧
    (JBOB.get { log := [helloWorld, helloWorld], committedLen := 1, readOnly := false,
                mi := some [{ hash := helloWorld.hash, offset := 0, length := 11 }],
                sht := none } helloWorld.hash = some helloWorld.data ∧
      ({ Group.fresh 1 with
          jb := { log := [helloWorld, helloWorld], committedLen := 1, readOnly := false,
                  mi := some [{ hash := helloWorld.hash, offset := 0, length := 11 }],
                  sht := none } } : Group).readsBack helloWorld) :=
  ⟨by decide, by decide, by decide, by decide,
    (committed_block_reads_back [] [] [JOp.put [helloWorld]] [helloWorld] helloWorld _
      (Group.fresh 1) (by decide) (by decide) (by decide) (by decide)).1⟩

/-- C5: a `sync` that returns no error has committed the log at some offset `off`, has
folded the inflight counters into the committed ones and reset them to 0, has left the
state alone, and has added to the journal exactly the commit and one registry write
`(group id, state, new committedBlocks, new committedSize, off)`. -/
theorem sync_folds_and_writes_head (env : Env) (m m2 : Group)
    (h : m.sync env = (none, m2)) :
    ∃ jb off, m.jb.Commit env.jbCommit = .ok (jb, off) ∧
      m2.jb = jb ∧
      m2.committedBlocks = m.committedBlocks + m.inflightBlocks ∧
      m2.committedSize = m.committedSize + m.inflightSize ∧
      m2.inflightBlocks = 0 ∧ m2.inflightSize = 0 ∧
      m2.state = m.state ∧ m2.id = m.id ∧
      m2.effects = m.effects ++
        [Effect.alCommit off,
         Effect.setGroupHead m.id m.state m2.committedBlocks m2.committedSize off] := by
  unfold Group.sync at h
  cases hc : m.jb.Commit env.jbCommit with
  | error e => simp [hc] at h
  | ok r =>
    obtain ⟨jb, off⟩ := r
    refine ⟨jb, off, rfl, ?_⟩
    cases hd : env.dbSetGroupHead with
    | false => simp [hc, hd] at h
    | true =>
      simp only [hc, hd, if_true, Prod.mk.injEq, true_and] at h
      subst h
      simp

/-- Witness for C5: sync of a fresh group holding one uncommitted two-byte block. -/
theorem sync_folds_and_writes_head_witness :
    Group.sync Env.allOk
        (Group.Put Env.allOk (Group.fresh 7) [{ hash := [1], data := [10, 11] }]).2
      = (none, (Group.sync Env.allOk
          (Group.Put Env.allOk (Group.fresh 7) [{ hash := [1], data := [10, 11] }]).2).2) ∧
    (Group.sync Env.allOk
        (Group.Put Env.allOk (Group.fresh 7) [{ hash := [1], data := [10, 11] }]).2).2.committedSize
      = (Group.Put Env.allOk (Group.fresh 7) [{ hash := [1], data := [10, 11] }]).2.committedSize
        + (Group.Put Env.allOk (Group.fresh 7)
            [{ hash := [1], data := [10, 11] }]).2.inflightSize ∧
    (Group.sync Env.allOk
        (Group.Put Env.allOk (Group.fresh 7) [{ hash := [1], data := [10, 11] }]).2).2.inflightSize
      = 0 :=
  ⟨by decide,
    let ⟨_, _, _, _, _, h4, _, h6, _⟩ := sync_folds_and_writes_head Env.allOk
      (Group.Put Env.allOk (Group.fresh 7) [{ hash := [1], data := [10, 11] }]).2 _ (by decide)
    ⟨h4, h6⟩⟩

/-- C6, the failing run: on a fresh group a `Put` of one one-byte block whose log write
fails returns an error but keeps the block in the inflight counters; the `Sync` that
follows succeeds and reports one committed block of one byte, while the append log holds
no entry at all. -/
theorem committed_counters_exceed_log_after_failed_write :
    (Group.Put { Env.allOk with jbPut := false } (Group.fresh 1)
        [{ hash := [1], data := [7] }]).1 = .error (.writingToJbob .Io) ∧
    (Group.Sync Env.allOk (Group.Put { Env.allOk with jbPut := false } (Group.fresh 1)
        [{ hash := [1], data := [7] }]).2).1 = none ∧
    (Group.Sync Env.allOk (Group.Put { Env.allOk with jbPut := false } (Group.fresh 1)
        [{ hash := [1], data := [7] }]).2).2.committedBlocks = 1 ∧
    (Group.Sync Env.allOk (Group.Put { Env.allOk with jbPut := false } (Group.fresh 1)
        [{ hash := [1], data := [7] }]).2).2.committedSize = 1 ∧
    (Group.Sync Env.allOk (Group.Put { Env.allOk with jbPut := false } (Group.fresh 1)
        [{ hash := [1], data := [7] }]).2).2.jb.log = [] ∧
    (Group.Sync Env.allOk (Group.Put { Env.allOk with jbPut := false } (Group.fresh 1)
        [{ hash := [1], data := [7] }]).2).2.jb.committed.length = 0 ∧
    payloadSum (Group.Sync Env.allOk (Group.Put { Env.allOk with jbPut := false }
        (Group.fresh 1) [{ hash := [1], data := [7] }]).2).2.jb.committed = 0 := by
  decide

/-- C7, the failing run: `GenTopCar` on a group in state Full whose directory has no
`vcar` yet returns the state error, as the claim says, but only after `os.Mkdir`: the
`vcar` directory has been created in the group directory. -/
theorem GenTopCar_creates_vcar_before_state_check :
    ({ Group.fresh 1 with state := .Full } : Group).vcar = none ∧
    Group.GenTopCar Env.allOk (FsEnv.allOk concatCid) 1 { Group.fresh 1 with state := .Full }
      = some (some (.notInStateForTopCar .Full),
          { Group.fresh 1 with
            state := .Full
            vcar := some { layerFiles := [], layersFile := none, arityFile := none }
            rlocks := 2 }) := by
  decide

/-- C8: `Finalize` on a Full group performs its effects in the order mark read-only,
commit, build the hash table, persist BSSTExists, drop the index, persist
LevelIndexDropped.  Whatever fails, what it added to the journal is an initial run of that
sequence (so BSSTExists is persisted only after the table build, LevelIndexDropped only
after the index drop); when it returns no error it added the whole sequence and the state
is LevelIndexDropped; and it returns no error when every collaborator call succeeds and
the mutable index is present. -/
theorem Finalize_effects_in_order (env : Env) (m : Group) (hst : m.state = .Full) :
    (∃ k, (m.Finalize env).2.effects = m.effects ++ (finalizeOrder m).take k) ∧
    ((m.Finalize env).1 = none →
      (m.Finalize env).2.effects = m.effects ++ finalizeOrder m ∧
      (m.Finalize env).2.state = .LevelIndexDropped) ∧
    (env.jbMarkReadOnly = true → env.jbFinalize = true → env.jbDropLevel = true →
      env.dbSetGroupState .BSSTExists = true →
      env.dbSetGroupState .LevelIndexDropped = true → m.jb.mi ≠ none →
      (m.Finalize env).1 = none) := by
  obtain ⟨id, state, ib, is, cb, cs, rb, rs, jb, effects, vcar, rlocks⟩ := m
  obtain ⟨log, clen, ro, mi, sht⟩ := jb
  simp only at hst
  subst hst
  unfold Group.Finalize Group.advanceState JBOB.MarkReadOnly JBOB.Finalize JBOB.DropLevel
    finalizeOrder
  cases ro <;> cases mi <;> cases h1 : env.jbMarkReadOnly <;> cases h2 : env.jbFinalize <;>
    cases h3 : env.jbDropLevel <;> cases h4 : env.dbSetGroupState .BSSTExists <;>
    cases h5 : env.dbSetGroupState .LevelIndexDropped <;>
    simp [h1, h2, h3, h4, h5] <;>
    first
      | done
      | exact ⟨0, rfl⟩
      | exact ⟨1, rfl⟩
      | exact ⟨3, rfl⟩
      | exact ⟨4, rfl⟩
      | exact ⟨5, rfl⟩
      | exact ⟨6, rfl⟩
      | exact ⟨6, le_refl _⟩


/-- Witness for C8: `Finalize` of a Full group with every call succeeding. -/
theorem Finalize_effects_in_order_witness :
    ({ Group.fresh 1 with state := .Full } : Group).state = .Full ∧
    (Group.Finalize Env.allOk { Group.fresh 1 with state := .Full }).1 = none ∧
    (Group.Finalize Env.allOk { Group.fresh 1 with state := .Full }).2.effects
      = ({ Group.fresh 1 with state := .Full } : Group).effects
          ++ finalizeOrder { Group.fresh 1 with state := .Full } :=
  let h := Finalize_effects_in_order Env.allOk { Group.fresh 1 with state := .Full }
    (by decide)
  ⟨by decide, h.2.2 rfl rfl rfl rfl rfl (by decide),
    (h.2.1 (h.2.2 rfl rfl rfl rfl rfl (by decide))).1⟩

/-- C9, as stated, fails for both phases.  `Finalize` whose index drop fails has persisted
BSSTExists; invoked again with every call succeeding it returns the state error and the
group stays in BSSTExists.  `GenTopCar` whose write of the `layers` file fails has created
`vcar` and the layer files; invoked again with every call succeeding it fails at `os.Mkdir`
and the group stays in LevelIndexDropped. -/
theorem phases_do_not_resume_after_failure :
    ((Group.Finalize { Env.allOk with jbDropLevel := false }
        { Group.fresh 1 with state := .Full }).1 = some (.removingLeveldbIndex .Io) ∧
      Effect.setGroupState 1 .BSSTExists ∈
        (Group.Finalize { Env.allOk with jbDropLevel := false }
          { Group.fresh 1 with state := .Full }).2.effects ∧
      Group.Finalize Env.allOk
          (Group.Finalize { Env.allOk with jbDropLevel := false }
            { Group.fresh 1 with state := .Full }).2
        = (some (.notInStateForFinalization .BSSTExists),
            (Group.Finalize { Env.allOk with jbDropLevel := false }
              { Group.fresh 1 with state := .Full }).2) ∧
      (Group.Finalize { Env.allOk with jbDropLevel := false }
          { Group.fresh 1 with state := .Full }).2.state = .BSSTExists) ∧
    ((Group.GenTopCar Env.allOk { FsEnv.allOk concatCid with writeLayers := false } 3
          Group.sealedOne).map (fun r => r.1)
        = some (some .writeLayersFile) ∧
      (((Group.GenTopCar Env.allOk { FsEnv.allOk concatCid with writeLayers := false } 3
          Group.sealedOne).bind
        (fun r => Group.GenTopCar Env.allOk (FsEnv.allOk concatCid) 3 r.2)).map
          (fun r => (r.1, r.2.state)))
        = some (some .makeVcarDir, .LevelIndexDropped)) := by
  decide

/-- C9 (amended, `Finalize` only): on a Full group whose mutable index is present, a first
`Finalize` leaves the group Full exactly when it failed at marking the log read-only or at
the jbob finalize (before anything was persisted).  In that case a second `Finalize` in
which every call succeeds returns no error and ends in LevelIndexDropped.  Otherwise the
group has left Full and every further `Finalize` returns the state error and changes
nothing. -/
theorem Finalize_retry (env1 : Env) (m : Group) (hst : m.state = .Full)
    (hmi : m.jb.mi ≠ none) :
    ((m.Finalize env1).2.state = .Full ↔
      (env1.jbFinalize = false ∨ (m.jb.readOnly = false ∧ env1.jbMarkReadOnly = false))) ∧
    ((m.Finalize env1).2.state = .Full →
      ((m.Finalize env1).2.Finalize Env.allOk).1 = none ∧
      ((m.Finalize env1).2.Finalize Env.allOk).2.state = .LevelIndexDropped) ∧
    ((m.Finalize env1).2.state ≠ .Full → ∀ env2,
      (m.Finalize env1).2.Finalize env2
        = (some (.notInStateForFinalization (m.Finalize env1).2.state),
            (m.Finalize env1).2)) := by
  refine ⟨?_, ?_, ?_⟩
  · obtain ⟨id, state, ib, is, cb, cs, rb, rs, jb, effects, vcar, rlocks⟩ := m
    obtain ⟨log, clen, ro, mi, sht⟩ := jb
    simp only at hst hmi
    subst hst
    cases mi with
    | none => exact absurd rfl hmi
    | some mi =>
      unfold Group.Finalize Group.advanceState JBOB.MarkReadOnly JBOB.Finalize JBOB.DropLevel
      cases ro <;> cases h1 : env1.jbMarkReadOnly <;> cases h2 : env1.jbFinalize <;>
        cases h3 : env1.jbDropLevel <;> cases h4 : env1.dbSetGroupState .BSSTExists <;>
        cases h5 : env1.dbSetGroupState .LevelIndexDropped <;>
        simp [h1, h2, h3, h4, h5]
  · obtain ⟨id, state, ib, is, cb, cs, rb, rs, jb, effects, vcar, rlocks⟩ := m
    obtain ⟨log, clen, ro, mi, sht⟩ := jb
    simp only at hst hmi
    subst hst
    cases mi with
    | none => exact absurd rfl hmi
    | some mi =>
      unfold Group.Finalize Group.advanceState JBOB.MarkReadOnly JBOB.Finalize JBOB.DropLevel
      cases ro <;> cases h1 : env1.jbMarkReadOnly <;> cases h2 : env1.jbFinalize <;>
        cases h3 : env1.jbDropLevel <;> cases h4 : env1.dbSetGroupState .BSSTExists <;>
        cases h5 : env1.dbSetGroupState .LevelIndexDropped <;>
        simp [h1, h2, h3, h4, h5, Env.allOk]
  · intro hne env2
    generalize (m.Finalize env1).2 = m1 at hne ⊢
    unfold Group.Finalize
    simp [hne]

/-- Witness for C9: a first `Finalize` whose jbob finalize fails, then a second one. -/
theorem Finalize_retry_witness :
    (({ Group.fresh 1 with state := .Full } : Group).state = .Full ∧
      ({ Group.fresh 1 with state := .Full } : Group).jb.mi ≠ none ∧
      (Group.Finalize { Env.allOk with jbFinalize := false }
        { Group.fresh 1 with state := .Full }).2.state = .Full) ∧
    ((Group.Finalize { Env.allOk with jbFinalize := false }
        { Group.fresh 1 with state := .Full }).2.Finalize Env.allOk).1 = none ∧
    ((Group.Finalize { Env.allOk with jbFinalize := false }
        { Group.fresh 1 with state := .Full }).2.Finalize Env.allOk).2.state
      = .LevelIndexDropped :=
  ⟨⟨by decide, by decide, by decide⟩,
    (Finalize_retry { Env.allOk with jbFinalize := false }
      { Group.fresh 1 with state := .Full } (by decide) (by decide)).2.1 (by decide)⟩

/-- C10, the failing run: `MakeMoreDeals` has no state gate.  On a group in state
Offloaded, with every collaborator call succeeding and no candidate provider, it returns
no error, sets the state to DealsInProgress and persists it: the state went down in the
lifecycle order. -/
theorem MakeMoreDeals_regresses_from_Offloaded :
    (Group.MakeMoreDeals Env.allOk (DealEnv.allOk [] 0 (fun _ => true))
        { Group.fresh 3 with state := .Offloaded }).1 = .returned none ∧
    (Group.MakeMoreDeals Env.allOk (DealEnv.allOk [] 0 (fun _ => true))
        { Group.fresh 3 with state := .Offloaded }).2.state = .DealsInProgress ∧
    (Group.MakeMoreDeals Env.allOk (DealEnv.allOk [] 0 (fun _ => true))
        { Group.fresh 3 with state := .Offloaded }).2.effects
      = [Effect.setGroupState 3 .DealsInProgress] ∧
    GroupState.rank (Group.MakeMoreDeals Env.allOk (DealEnv.allOk [] 0 (fun _ => true))
        { Group.fresh 3 with state := .Offloaded }).2.state
      < GroupState.rank ({ Group.fresh 3 with state := .Offloaded } : Group).state := by
  decide

/-- C15, the failing runs: `GenTopCar` takes the read lock on entry and its deferred call
takes it again instead of releasing it.  A successful call on a sealed group that held no
read lock returns with two read locks held, and so does a call rejected by the state
check. -/
theorem GenTopCar_returns_with_read_locks_held :
    Group.sealedOne.rlocks = 0 ∧
    (Group.GenTopCar Env.allOk (FsEnv.allOk concatCid) 3 Group.sealedOne).map
        (fun r => (r.1, r.2.rlocks)) = some (none, 2) ∧
    (Group.GenTopCar Env.allOk (FsEnv.allOk concatCid) 3
        { Group.fresh 1 with state := .Full }).map
        (fun r => (r.1, r.2.rlocks)) = some (some (.notInStateForTopCar .Full), 2) := by
  decide

/-- C17, the failing run: on a sealed group without any block, with every collaborator
call succeeding, the layer loop of `GenTopCar` does not end: whatever the number of
iterations allowed, the call has not returned (it never reaches the write of the `layers`
file).  Such a group is what `Finalize` makes of a Full group whose store is empty. -/
theorem GenTopCar_never_ends_on_empty_group (fuel : Nat) :
    Group.sealedEmpty.jb.entries = [] ∧
    Group.sealedEmpty.state = .LevelIndexDropped ∧
    (Group.Finalize Env.allOk { Group.fresh 1 with state := .Full }).2.jb.entries = [] ∧
    Group.GenTopCar Env.allOk (FsEnv.allOk concatCid) fuel Group.sealedEmpty = none := by
  refine ⟨by decide, by decide, by decide, ?_⟩
  have h := upperLayers_nil_never_ends concatCid arity fuel 1
    { layerFiles := [(1, [])], layersFile := none, arityFile := none }
  simp only [Group.GenTopCar, Group.sealedEmpty, Group.fresh, FsEnv.allOk, iterated,
    JBOB.entries, feedLinks, finishLayer, VcarDir.setLayer] at h ⊢
  simp [h]

/-- C18, the failing run: with the non-failed count already at the target of 5 and one
candidate provider that accepts, `MakeMoreDeals` still contacts the provider and makes a
deal: one deal made, where `max(0, targetReplicaCount - c)` is 0. -/
theorem MakeMoreDeals_deals_beyond_target :
    (Group.MakeMoreDeals Env.allOk
        (DealEnv.allOk [{ id := 7, askPrice := 0, askVerifPrice := 0 }] 5 (fun _ => true))
        { Group.fresh 3 with state := .DealsInProgress }).1 = .returned none ∧
    (Group.MakeMoreDeals Env.allOk
        (DealEnv.allOk [{ id := 7, askPrice := 0, askVerifPrice := 0 }] 5 (fun _ => true))
        { Group.fresh 3 with state := .DealsInProgress }).2.effects
      = [Effect.makeDealWith 7 true, Effect.setGroupState 3 .DealsInProgress] ∧
    contacted (Group.MakeMoreDeals Env.allOk
        (DealEnv.allOk [{ id := 7, askPrice := 0, askVerifPrice := 0 }] 5 (fun _ => true))
        { Group.fresh 3 with state := .DealsInProgress }).2.effects = [7] ∧
    dealsMade (Group.MakeMoreDeals Env.allOk
        (DealEnv.allOk [{ id := 7, askPrice := 0, askVerifPrice := 0 }] 5 (fun _ => true))
        { Group.fresh 3 with state := .DealsInProgress }).2.effects = 1 ∧
    max 0 (targetReplicaCount - 5) = 0 := by
  decide

/-- C16: one pass of the upper-layer loop with `nextLevelLinks` sharing the backing array
of `prevLevelLinks` (for every arity, every previous-layer CID list, every spare capacity
and every outcome of the file calls) ends with the same error, the same link blocks in the
layer file, the same buffer and the same `nextLevelLinks` as the pass that builds
`nextLevelLinks` into a separate empty list. -/
theorem layer_in_place_eq_fresh (fs : FsEnv) (ar level : Nat) (prev spare : List Cid) :
    (layerInPlace fs ar level prev spare).1 = (layerFresh fs ar level prev).1 ∧
    (layerInPlace fs ar level prev spare).2.toLayer = (layerFresh fs ar level prev).2 := by
  have h0 : SliceRel (prev ++ spare) 0
      { backing := prev ++ spare, nextLen := 0, moved := none, links := [], file := some [] }
      { links := [], nextLevelLinks := [], file := some [] } :=
    ⟨rfl, rfl, rfl, by simp, rfl, rfl, by simp, Nat.zero_le _⟩
  obtain ⟨he, j, hr⟩ := feed_rel fs ar level prev spare prev.length 0 _ _ h0 (by simp)
  simp only [List.drop_zero] at he hr
  unfold layerInPlace layerFresh
  dsimp only
  generalize feedLinksInPlace fs ar level 0 prev.length
    { backing := prev ++ spare, nextLen := 0, moved := none, links := [], file := some [] } = a
    at he hr
  generalize feedLinks fs ar level prev { links := [], nextLevelLinks := [], file := some [] }
    = b at he hr
  obtain ⟨ae, ast⟩ := a
  obtain ⟨be, bst⟩ := b
  simp only at he hr
  subst he
  cases ae with
  | some e => exact ⟨rfl, hr.toLayer⟩
  | none => exact finish_rel fs level hr

/-- C11: on a sealed group with `n ≥ 1` blocks and no `vcar` directory, with nothing
failing in the file system, `GenTopCar` returns and leaves layer files `1..K`, `K ≥ 1`,
in which, for every layer, the child lists of its link blocks concatenated in file order
are the CIDs of the layer below (for layer 1 the raw-codec CIDs of the blocks in
iteration order), every block but the last of its layer holds exactly `arity` children
and every block holds between 1 and `arity`. -/
theorem GenTopCar_layers_chunk_their_input (env : Env) (linkCid : List Cid → Cid)
    (fuel : Nat) (m : Group) (hs : m.state = .LevelIndexDropped) (hv : m.vcar = none)
    (hn : 1 ≤ m.jb.entries.length) (hf : m.jb.entries.length ≤ fuel) :
    ∃ e m2 ls, m.GenTopCar env (FsEnv.allOk linkCid) fuel = some (e, m2) ∧
      m2.vcar = some { layerFiles := numbered 1 ls, layersFile := some ls.length,
                       arityFile := some arity } ∧
      1 ≤ ls.length ∧
      ∀ L, L < ls.length →
        ((ls.getD L []).map (fun b => b.links)).flatten
            = (if L = 0 then m.jb.entries.map (fun e => mhToRawCid e.1)
               else (ls.getD (L - 1) []).map (fun b => b.cid)) ∧
        (∀ b ∈ (ls.getD L []).dropLast, b.links.length = arity) ∧
        (∀ b ∈ ls.getD L [], 1 ≤ b.links.length ∧ b.links.length ≤ arity) := by
  have hl : m.leafCids.length = m.jb.entries.length := by simp [Group.leafCids]
  obtain ⟨ls, hd⟩ := dagLayers_isSome linkCid arity (by decide) fuel m.leafCids
    (by omega) (by omega)
  obtain ⟨e, m2, hg, hvc, _, _⟩ := GenTopCar_ok env linkCid fuel m hs hv ls hd
  obtain ⟨h2, hget⟩ := dagLayers_get linkCid arity fuel m.leafCids ls hd
  refine ⟨e, m2, ls, hg, hvc, by omega, ?_⟩
  intro L hL
  obtain ⟨hL1, _⟩ := hget L hL
  rw [hL1]
  refine ⟨?_, layerOver_dropLast linkCid arity _,
    layerOver_links_length linkCid arity (by decide) _⟩
  rw [layerOver_links]
  cases L with
  | zero => rfl
  | succ L =>
    obtain ⟨hL0, _⟩ := hget L (by omega)
    simp only [Nat.add_one_ne_zero, if_false, Nat.add_sub_cancel, hL0]
    exact levelInput_succ linkCid arity L m.leafCids

theorem GenTopCar_layers_chunk_their_input_witness :
    ∃ e m2 ls, Group.sealedOne.GenTopCar Env.allOk (FsEnv.allOk concatCid) 1
        = some (e, m2) ∧
      m2.vcar = some { layerFiles := numbered 1 ls, layersFile := some ls.length,
                       arityFile := some arity } ∧
      1 ≤ ls.length ∧
      ∀ L, L < ls.length →
        ((ls.getD L []).map (fun b => b.links)).flatten
            = (if L = 0 then Group.sealedOne.jb.entries.map (fun e => mhToRawCid e.1)
               else (ls.getD (L - 1) []).map (fun b => b.cid)) ∧
        (∀ b ∈ (ls.getD L []).dropLast, b.links.length = arity) ∧
        (∀ b ∈ ls.getD L [], 1 ≤ b.links.length ∧ b.links.length ≤ arity) :=
  GenTopCar_layers_chunk_their_input Env.allOk concatCid 1 Group.sealedOne
    (by decide) (by decide) (by decide) (by decide)

/-- C12, as the spec states it, fails on a group with one block: layer 1 already has
exactly one block, yet `GenTopCar` writes a second layer and puts 2 in the `layers`
file. -/
theorem GenTopCar_one_block_writes_two_layers :
    (Group.sealedOne.GenTopCar Env.allOk (FsEnv.allOk concatCid) 1).map
        (fun r => (r.1, r.2.vcar.map (fun d =>
          (d.layersFile, d.layerFiles.map (fun p => (p.1, p.2.length))))))
      = some (none, some (some 2, [(1, 1), (2, 1)])) := by
  decide

/-- C12, amended: on a sealed group with `n ≥ 1` blocks `GenTopCar` stops one layer above
the first layer that has exactly one block.  The number `K` in the `layers` file is at
least 2, layer 1 has `⌈n/2048⌉` blocks and layer `L + 1` has `⌈count(L)/2048⌉`, a layer
`L < K` has exactly one block if and only if `L = K - 1`, and layer `K` is a single
block, the root, whose only child is the single block of layer `K - 1`.  For `n = 2049`
the `layers` file holds 3: layer 1 has blocks of 2048 and 1 children, layer 2 one block
of 2 children and layer 3 one block of 1 child. -/
theorem GenTopCar_stops_one_layer_above_first_single (env : Env) (linkCid : List Cid → Cid)
    (fuel : Nat) (m : Group) (hs : m.state = .LevelIndexDropped) (hv : m.vcar = none)
    (hn : 1 ≤ m.jb.entries.length) (hf : m.jb.entries.length ≤ fuel) :
    ∃ e m2 ls, m.GenTopCar env (FsEnv.allOk linkCid) fuel = some (e, m2) ∧
      m2.vcar = some { layerFiles := numbered 1 ls, layersFile := some ls.length,
                       arityFile := some arity } ∧
      2 ≤ ls.length ∧
      (ls.getD 0 []).length = (m.jb.entries.length + 2047) / 2048 ∧
      (∀ L, L + 1 < ls.length →
        (ls.getD (L + 1) []).length = ((ls.getD L []).length + 2047) / 2048) ∧
      (∀ L, L + 1 < ls.length → ((ls.getD L []).length = 1 ↔ L + 2 = ls.length)) ∧
      (∃ root child, ls.getD (ls.length - 1) [] = [root] ∧
        ls.getD (ls.length - 2) [] = [child] ∧ root.links = [child.cid]) ∧
      (m.jb.entries.length = 2049 →
        ls.length = 3 ∧
        ls.map (fun l => l.map (fun b => b.links.length)) = [[2048, 1], [2], [1]]) := by
  have hl : m.leafCids.length = m.jb.entries.length := by simp [Group.leafCids]
  obtain ⟨ls, hd⟩ := dagLayers_isSome linkCid arity (by decide) fuel m.leafCids
    (by omega) (by omega)
  obtain ⟨e, m2, hg, hvc, _, _⟩ := GenTopCar_ok env linkCid fuel m hs hv ls hd
  obtain ⟨h2, h0, hstep, hiff, hroot⟩ :=
    dagLayers_counts linkCid arity (by decide) fuel m.leafCids ls hd
  rw [hl] at h0
  exact ⟨e, m2, ls, hg, hvc, h2, h0, hstep, hiff, hroot,
    fun h49 => dagLayers_2049 linkCid fuel m.leafCids ls hd (by omega)⟩

theorem GenTopCar_stops_one_layer_above_first_single_witness :
    ∃ e m2 ls, Group.sealedOne.GenTopCar Env.allOk (FsEnv.allOk concatCid) 1
        = some (e, m2) ∧
      m2.vcar = some { layerFiles := numbered 1 ls, layersFile := some ls.length,
                       arityFile := some arity } ∧
      2 ≤ ls.length ∧
      (ls.getD 0 []).length = (Group.sealedOne.jb.entries.length + 2047) / 2048 ∧
      (∀ L, L + 1 < ls.length →
        (ls.getD (L + 1) []).length = ((ls.getD L []).length + 2047) / 2048) ∧
      (∀ L, L + 1 < ls.length → ((ls.getD L []).length = 1 ↔ L + 2 = ls.length)) ∧
      (∃ root child, ls.getD (ls.length - 1) [] = [root] ∧
        ls.getD (ls.length - 2) [] = [child] ∧ root.links = [child.cid]) ∧
      (Group.sealedOne.jb.entries.length = 2049 →
        ls.length = 3 ∧
        ls.map (fun l => l.map (fun b => b.links.length)) = [[2048, 1], [2], [1]]) :=
  GenTopCar_stops_one_layer_above_first_single Env.allOk concatCid 1 Group.sealedOne
    (by decide) (by decide) (by decide) (by decide)

/-- C13: on a sealed group with `n ≥ 1` blocks, after `GenTopCar` has written the layer
files and the `layers` and `arity` files, `writeCar` with nothing failing returns no
error, writes a header of version 1 with exactly one root, the CID of the single block of
the top layer, returns that CID, and writes a body that holds every entry of the store
(under its raw-codec CID) and every link block of every layer exactly once: the body is
a permutation of these, of `n` plus the layer block counts frames, and every layer file
is read to its end. -/
theorem writeCar_header_root_and_every_block_once (env : Env) (linkCid : List Cid → Cid)
    (fuel : Nat) (m : Group) (hs : m.state = .LevelIndexDropped) (hv : m.vcar = none)
    (hn : 1 ≤ m.jb.entries.length) (hf : m.jb.entries.length ≤ fuel) :
    ∃ e m2 ls b, m.GenTopCar env (FsEnv.allOk linkCid) fuel = some (e, m2) ∧
      m2.vcar = some { layerFiles := numbered 1 ls, layersFile := some ls.length,
                       arityFile := some arity } ∧
      ls.getD (ls.length - 1) [] = [b] ∧
      (m2.writeCar CarEnv.allOk).err = none ∧
      (m2.writeCar CarEnv.allOk).header = some { roots := [b.cid], version := 1 } ∧
      (m2.writeCar CarEnv.allOk).root = some b.cid ∧
      List.Perm (m2.writeCar CarEnv.allOk).body
        (m.jb.entries.map (fun e => Frame.raw (mhToRawCid e.1) e.2)
          ++ ls.flatten.map Frame.link) ∧
      (m2.writeCar CarEnv.allOk).body.length
        = m.jb.entries.length + (ls.map List.length).sum ∧
      (m2.writeCar CarEnv.allOk).unread.length = ls.length ∧
      ∀ l ∈ (m2.writeCar CarEnv.allOk).unread, l = [] := by
  have hl : m.leafCids.length = m.jb.entries.length := by simp [Group.leafCids]
  obtain ⟨ls, hd⟩ := dagLayers_isSome linkCid arity (by decide) fuel m.leafCids
    (by omega) (by omega)
  obtain ⟨e, m2, hg, hvc, hjb, _⟩ := GenTopCar_ok env linkCid fuel m hs hv ls hd
  obtain ⟨h2, _⟩ := dagLayers_get linkCid arity fuel m.leafCids ls hd
  obtain ⟨K, hK⟩ : ∃ K, ls.length = K + 2 := ⟨ls.length - 2, by omega⟩
  have hd2 : dagLayers linkCid arity fuel (m2.jb.entries.map (fun e => mhToRawCid e.1))
      = some ls := by
    rw [hjb]; exact hd
  obtain ⟨b, child, hroot, htop, herr, hrt, hhdr, hbody, hun⟩ :=
    writeCar_ok linkCid fuel m2 ls hd2 hvc K hK
  rw [hjb] at hroot
  have hperm := root_pre_perm linkCid fuel m.jb.entries ls hd K hK _ hroot
  rw [← hbody] at hperm
  have hidx : ls.length - 1 = K + 1 := by omega
  refine ⟨e, m2, ls, b, hg, hvc, by rw [hidx]; exact htop, herr, hhdr, hrt, hperm, ?_, ?_, ?_⟩
  · rw [hperm.length_eq, List.length_append, List.length_map, List.length_map,
      List.length_flatten]
  · rw [hun, List.length_map, List.length_range, hK]
  · intro l hl
    rw [hun] at hl
    obtain ⟨_, _, rfl⟩ := List.mem_map.mp hl
    rfl

theorem writeCar_header_root_and_every_block_once_witness :
    ∃ e m2 ls b, Group.sealedOne.GenTopCar Env.allOk (FsEnv.allOk concatCid) 1
        = some (e, m2) ∧
      m2.vcar = some { layerFiles := numbered 1 ls, layersFile := some ls.length,
                       arityFile := some arity } ∧
      ls.getD (ls.length - 1) [] = [b] ∧
      (m2.writeCar CarEnv.allOk).err = none ∧
      (m2.writeCar CarEnv.allOk).header = some { roots := [b.cid], version := 1 } ∧
      (m2.writeCar CarEnv.allOk).root = some b.cid ∧
      List.Perm (m2.writeCar CarEnv.allOk).body
        (Group.sealedOne.jb.entries.map (fun e => Frame.raw (mhToRawCid e.1) e.2)
          ++ ls.flatten.map Frame.link) ∧
      (m2.writeCar CarEnv.allOk).body.length
        = Group.sealedOne.jb.entries.length + (ls.map List.length).sum ∧
      (m2.writeCar CarEnv.allOk).unread.length = ls.length ∧
      ∀ l ∈ (m2.writeCar CarEnv.allOk).unread, l = [] :=
  writeCar_header_root_and_every_block_once Env.allOk concatCid 1 Group.sealedOne
    (by decide) (by decide) (by decide) (by decide)

/-- C14: on a sealed group with `n ≥ 1` blocks, after `GenTopCar`, the body `writeCar`
writes is the pre-order traversal of the DAG rooted at the single block of the top
layer.  The DAG is the tree over the entries in iteration order whose link blocks of
level `L` are the blocks of layer file `L` in file order, every link block linking to
the roots of its children in order; the traversal writes a link block, then the
subtrees of its children in child order, and a leaf as the raw-codec CID of its
multihash with its payload. -/
theorem writeCar_body_is_preorder (env : Env) (linkCid : List Cid → Cid)
    (fuel : Nat) (m : Group) (hs : m.state = .LevelIndexDropped) (hv : m.vcar = none)
    (hn : 1 ≤ m.jb.entries.length) (hf : m.jb.entries.length ≤ fuel) :
    ∃ e m2 ls K, ∃ root : TreeAt (K + 2),
      m.GenTopCar env (FsEnv.allOk linkCid) fuel = some (e, m2) ∧
      m2.vcar = some { layerFiles := numbered 1 ls, layersFile := some ls.length,
                       arityFile := some arity } ∧
      ls.length = K + 2 ∧
      forestOver linkCid arity m.jb.entries (K + 2) = [root] ∧
      (∀ L, L < K + 2 →
        (forestOver linkCid arity m.jb.entries (L + 1)).map
          (fun (t : LinkBlock × List (TreeAt L)) => t.1) = ls.getD L []) ∧
      TreeAt.linked (K + 2) root ∧
      TreeAt.leaves (K + 2) root = m.jb.entries ∧
      (m2.writeCar CarEnv.allOk).err = none ∧
      (m2.writeCar CarEnv.allOk).body = TreeAt.pre (K + 2) root := by
  have hl : m.leafCids.length = m.jb.entries.length := by simp [Group.leafCids]
  obtain ⟨ls, hd⟩ := dagLayers_isSome linkCid arity (by decide) fuel m.leafCids
    (by omega) (by omega)
  obtain ⟨e, m2, hg, hvc, hjb, _⟩ := GenTopCar_ok env linkCid fuel m hs hv ls hd
  obtain ⟨h2, _⟩ := dagLayers_get linkCid arity fuel m.leafCids ls hd
  obtain ⟨K, hK⟩ : ∃ K, ls.length = K + 2 := ⟨ls.length - 2, by omega⟩
  have hd2 : dagLayers linkCid arity fuel (m2.jb.entries.map (fun e => mhToRawCid e.1))
      = some ls := by
    rw [hjb]; exact hd
  obtain ⟨b, child, hroot, _, herr, _, _, hbody, _⟩ :=
    writeCar_ok linkCid fuel m2 ls hd2 hvc K hK
  rw [hjb] at hroot
  refine ⟨e, m2, ls, K, _, hg, hvc, hK, hroot, ?_, ?_, ?_, herr, hbody⟩
  · intro L hL
    exact forestOver_layers linkCid arity fuel m.jb.entries ls hd L (by omega)
  · exact forestOver_linked linkCid arity m.jb.entries (K + 2) _ (by rw [hroot]; simp)
  · have h := forestOver_leaves linkCid arity m.jb.entries (K + 2)
    rw [hroot] at h
    simpa using h

theorem writeCar_body_is_preorder_witness :
    ∃ e m2 ls K, ∃ root : TreeAt (K + 2),
      Group.sealedOne.GenTopCar Env.allOk (FsEnv.allOk concatCid) 1 = some (e, m2) ∧
      m2.vcar = some { layerFiles := numbered 1 ls, layersFile := some ls.length,
                       arityFile := some arity } ∧
      ls.length = K + 2 ∧
      forestOver concatCid arity Group.sealedOne.jb.entries (K + 2) = [root] ∧
      (∀ L, L < K + 2 →
        (forestOver concatCid arity Group.sealedOne.jb.entries (L + 1)).map
          (fun (t : LinkBlock × List (TreeAt L)) => t.1) = ls.getD L []) ∧
      TreeAt.linked (K + 2) root ∧
      TreeAt.leaves (K + 2) root = Group.sealedOne.jb.entries ∧
      (m2.writeCar CarEnv.allOk).err = none ∧
      (m2.writeCar CarEnv.allOk).body = TreeAt.pre (K + 2) root :=
  writeCar_body_is_preorder Env.allOk concatCid 1 Group.sealedOne
    (by decide) (by decide) (by decide) (by decide)

end Ribs
